import Mathlib

/-!
Verification of the routing/optimization engine of the beltone-hackathon-logistics
repository, formalised as a shallow embedding of the Python sources:
  `VibeCoders_solver_final.py` (namespace `SolverFinal`),
  `VibeCoders_solver_3.py`     (namespace `Solver3`),
  `VibeCoders_solver_6.py`     (namespace `Solver6`),
and, for the exception-propagation question, an effectful model of
`VibeCoders_solver_final.py` over an environment whose query methods may raise
(namespace `SolverFinalX`).

Modelling conventions:
* Python floats are modelled as rationals `ℚ`; `float('inf')` is modelled by
  `Option ℚ` with `none` standing for infinity where the code stores or
  compares a possibly-infinite value.
* The external environment (`env`) is a record of query functions.  In the main
  model all methods are total (they model an environment that returns well-typed
  data without raising), except `get_distance`, which returns
  `Except Unit (Option ℚ)`: the sources wrap every `env.get_distance` call in
  `try/except`, and `Except.error` models a raising oracle while
  `Except.ok none` models a `None` result.
* Python dicts are modelled as association lists (`List (key × value)`) looked
  up by first match, or as functions where only point lookup occurs.
* A Python `set` whose iteration order the semantics observes is modelled as the
  list of its elements in insertion order; CPython leaves set iteration order
  unspecified, so the model fixes one admissible order.
-/

namespace Logistics

/-- One road-network adjacency dictionary: `node ↦ neighbour list`
(`adjacency_list.get(current, [])` in the sources). -/
def AdjList : Type := List (ℕ × List ℕ)

/-- `adjacency_list.get(current, [])`. -/
def adjGet (adj : AdjList) (n : ℕ) : List ℕ :=
  (List.lookup n adj).getD []

/-- A stock-keeping unit: `sku.weight`, `sku.volume`. -/
structure SKU where
  weight : ℚ
  volume : ℚ
deriving DecidableEq

/-- `warehouse.location` with its `.id` node. -/
structure Location where
  id : ℕ
deriving DecidableEq

/-- A warehouse as used by the solvers: `warehouse.id`, `warehouse.location.id`. -/
structure Warehouse where
  id : String
  location : Location
deriving DecidableEq

/-- A vehicle record: `vehicle.type`, capacities, range and home warehouse. -/
structure Vehicle where
  type : String
  capacity_weight : ℚ
  capacity_volume : ℚ
  max_distance : ℚ
  home_warehouse_id : String
deriving DecidableEq

/-- The environment interface consumed by the solvers (read-only queries).
All methods are total in this model except the distance oracle, whose
exceptions the sources catch locally. -/
structure Env where
  skus : String → SKU
  get_order_requirements : String → List (String × ℕ)
  get_order_location : String → Option ℕ
  get_vehicle_by_id : String → Option Vehicle
  get_warehouse_by_id : String → Option Warehouse
  get_warehouse_inventory : String → String → ℕ
  get_distance : ℕ → ℕ → Except Unit (Option ℚ)
  get_all_order_ids : List String
  get_available_vehicles : List String
  adjacency_list : AdjList

/-- A pickup entry of a solution step. -/
structure Pickup where
  warehouse_id : String
  sku_id : String
  quantity : ℕ
deriving DecidableEq

/-- A delivery entry of a solution step. -/
structure Delivery where
  order_id : String
  sku_id : String
  quantity : ℕ
deriving DecidableEq

/-- One step of an output route.  The sources always emit an empty `unloads`
list, so that field is omitted from the model. -/
structure Step where
  node_id : ℕ
  pickups : List Pickup
  deliveries : List Delivery
deriving DecidableEq

/-- One output route dictionary: `{'vehicle_id': ..., 'steps': [...]}`. -/
structure RouteDict where
  vehicle_id : String
  steps : List Step
deriving DecidableEq

/-- The output solution document: `{"routes": [...]}`. -/
structure Solution where
  routes : List RouteDict
deriving DecidableEq

/-- The order identifiers delivered by a route: all `order_id` fields occurring
in the `deliveries` of its steps. -/
def deliveredOrders (r : RouteDict) : List String :=
  r.steps.flatMap (fun s => s.deliveries.map (fun d => d.order_id))

/-- Calling `env.get_distance(current, order_node)` where `order_node` came
from `get_order_location` and may be `None`; passing `None` into the oracle is
modelled as the call raising. -/
def distCall (env : Env) (a : ℕ) (b : Option ℕ) : Except Unit (Option ℚ) :=
  match b with
  | some n => env.get_distance a n
  | none => Except.error ()

end Logistics

namespace SolverFinal

open Logistics

/-- Inner `for neighbor in adjacency_list.get(current, [])` loop of
`find_shortest_path` (file `VibeCoders_solver_final.py`): returns either the
found path (the Python `return new_path`) or the updated visited set and queue.
Neighbour node ids are already integers in the model, so the
`int(neighbor)` coercion is the identity. -/
def bfs_expand (endNode : ℕ) (path : List ℕ) :
    List ℕ → List ℕ → List (ℕ × List ℕ) → (List ℕ) ⊕ (List ℕ × List (ℕ × List ℕ))
  | [], visited, queue => Sum.inr (visited, queue)
  | n :: rest, visited, queue =>
    if n ∈ visited then bfs_expand endNode path rest visited queue
    else if n = endNode then Sum.inl (path ++ [n])
    else bfs_expand endNode path rest (visited ++ [n]) (queue ++ [(n, path ++ [n])])

/-- The `while queue and nodes_explored < max_nodes` loop of
`find_shortest_path`; the fuel is the number of pops still allowed by
`max_nodes`. -/
def bfs_loop (adj : AdjList) (endNode : ℕ) :
    ℕ → List (ℕ × List ℕ) → List ℕ → Option (List ℕ)
  | 0, _, _ => none
  | _ + 1, [], _ => none
  | fuel + 1, (cur, path) :: queue, visited =>
    match bfs_expand endNode path (adjGet adj cur) visited queue with
    | Sum.inl found => some found
    | Sum.inr (visited', queue') => bfs_loop adj endNode fuel queue' visited'

/-- `find_shortest_path` of `VibeCoders_solver_final.py`: BFS with a limit on
the number of explored (popped) nodes. -/
def find_shortest_path (start_node end_node : ℕ) (adj : AdjList)
    (max_nodes : ℕ := 500) : Option (List ℕ) :=
  if start_node = end_node then some [start_node]
  else bfs_loop adj end_node max_nodes [(start_node, [start_node])] [start_node]

/-- `calculate_order_size`: total weight and volume of one order. -/
def calculate_order_size (env : Env) (order_id : String) : ℚ × ℚ :=
  (env.get_order_requirements order_id).foldl
    (fun acc p =>
      (acc.1 + (env.skus p.1).weight * p.2, acc.2 + (env.skus p.1).volume * p.2))
    (0, 0)

/-- `can_fit_orders` of the final solver: capacity check with a 10% safety
margin. -/
def can_fit_orders (env : Env) (vehicle_id : String) (order_ids : List String) :
    Bool :=
  match env.get_vehicle_by_id vehicle_id with
  | none => false
  | some vehicle =>
    let total_weight := (order_ids.map (fun o => (calculate_order_size env o).1)).sum
    let total_volume := (order_ids.map (fun o => (calculate_order_size env o).2)).sum
    decide (total_weight ≤ vehicle.capacity_weight * (9 / 10)) &&
      decide (total_volume ≤ vehicle.capacity_volume * (9 / 10))

/-- The accumulated per-SKU requirement of a list of orders
(the `total_needs` dict of `check_inventory`). -/
def total_needs (env : Env) (order_ids : List String) (sku : String) : ℕ :=
  (order_ids.map (fun o =>
    (((env.get_order_requirements o).filter (fun p => p.1 = sku)).map Prod.snd).sum)).sum

/-- The SKU identifiers mentioned by the orders (the keys of `total_needs`). -/
def needKeys (env : Env) (order_ids : List String) : List String :=
  order_ids.flatMap (fun o => (env.get_order_requirements o).map Prod.fst)

/-- `check_inventory`: every accumulated SKU requirement is covered by the
warehouse inventory (`inventory.get(sku_id, 0) < qty` rejects). -/
def check_inventory (env : Env) (warehouse_id : String) (order_ids : List String) :
    Bool :=
  (needKeys env order_ids).all
    (fun s => total_needs env order_ids s ≤ env.get_warehouse_inventory warehouse_id s)

/-- `dist < min_dist` where both sides are possibly `float('inf')`
(`none` is infinity). -/
def optLt (a b : Option ℚ) : Bool :=
  match a, b with
  | some x, some y => decide (x < y)
  | some _, none => true
  | none, _ => false

/-- The value of `env.get_distance(current, order_node) or float('inf')`
inside a `try`: outer `none` means the call raised (the `except` branch),
inner `none` means the `or` produced infinity (the call returned `None` or a
falsy `0`). -/
def pyOrInf (r : Except Unit (Option ℚ)) : Option (Option ℚ) :=
  match r with
  | Except.error _ => none
  | Except.ok none => some none
  | Except.ok (some d) => if d = 0 then some none else some (some d)

/-- The inner `for oid in unvisited` scan of `optimize_delivery_sequence`,
tracking `min_dist` and `nearest`. -/
def selectNearest (env : Env) (current : ℕ) :
    List String → Option ℚ → Option String → Option String
  | [], _, best => best
  | oid :: rest, minD, best =>
    match pyOrInf (distCall env current (env.get_order_location oid)) with
    | none => selectNearest env current rest minD best
    | some d =>
      if optLt d minD then selectNearest env current rest d (some oid)
      else selectNearest env current rest minD best

theorem selectNearest_mem (env : Env) (current : ℕ) :
    ∀ (l : List String) (minD : Option ℚ) (best : Option String) (o : String),
      selectNearest env current l minD best = some o → o ∈ l ∨ best = some o := by
  intro l
  induction l with
  | nil => intro minD best o h; exact Or.inr h
  | cons x rest ih =>
    intro minD best o h
    simp only [selectNearest] at h
    rcases hd : pyOrInf (distCall env current (env.get_order_location x)) with _ | d
    · simp only [hd] at h
      rcases ih _ _ _ h with h' | h'
      · exact Or.inl (List.mem_cons_of_mem _ h')
      · exact Or.inr h'
    · simp only [hd] at h
      by_cases hlt : optLt d minD
      · rw [if_pos hlt] at h
        rcases ih _ _ _ h with h' | h'
        · exact Or.inl (List.mem_cons_of_mem _ h')
        · exact Or.inl (by simp_all)
      · rw [if_neg hlt] at h
        rcases ih _ _ _ h with h' | h'
        · exact Or.inl (List.mem_cons_of_mem _ h')
        · exact Or.inr h'

/-- The `while unvisited` loop of `optimize_delivery_sequence`.  The Python
`unvisited` set is modelled as the list of its elements; on the fallback branch
the remaining elements are appended in that order. -/
def optimizeLoop (env : Env) (current : ℕ) (unvisited route : List String) :
    List String :=
  match h : selectNearest env current unvisited none none with
  | some o =>
    have hmem : o ∈ unvisited := by
      rcases selectNearest_mem env current unvisited none none o h with h' | h'
      · exact h'
      · cases h'
    have : (unvisited.erase o).length < unvisited.length := by
      rw [List.length_erase_of_mem hmem]
      exact Nat.sub_lt (List.length_pos.mpr (List.ne_nil_of_mem hmem)) Nat.one_pos
    optimizeLoop env ((env.get_order_location o).getD current) (unvisited.erase o)
      (route ++ [o])
  | none => route ++ unvisited
termination_by unvisited.length

/-- `optimize_delivery_sequence`: nearest-neighbour ordering of the orders of a
route, with the fallback of appending whatever could not be reached. -/
def optimize_delivery_sequence (env : Env) (warehouse_node : ℕ)
    (order_ids : List String) : List String :=
  if order_ids.length ≤ 1 then order_ids
  else optimizeLoop env warehouse_node order_ids []

theorem optimizeLoop_perm (env : Env) (current : ℕ) (unvisited route : List String) :
    (optimizeLoop env current unvisited route).Perm (route ++ unvisited) := by
  induction current, unvisited, route using optimizeLoop.induct env with
  | case1 current unvisited route o h hmem hlen ih =>
    rw [optimizeLoop]
    split
    next o' h' =>
      have ho : o' = o := Option.some.inj (h'.symm.trans h)
      subst ho
      refine ih.trans ?_
      rw [List.append_assoc, List.singleton_append]
      exact List.Perm.append_left route (List.perm_cons_erase hmem).symm
    next h' => rw [h] at h'
  | case2 current unvisited route h =>
    rw [optimizeLoop]
    split
    next o' h' => rw [h] at h'; cases h'
    next => exact List.Perm.refl _

theorem optimize_delivery_sequence_perm (env : Env) (warehouse_node : ℕ)
    (order_ids : List String) :
    (optimize_delivery_sequence env warehouse_node order_ids).Perm order_ids := by
  unfold optimize_delivery_sequence
  split
  · exact List.Perm.refl _
  · simpa using optimizeLoop_perm env warehouse_node order_ids []

end SolverFinal

namespace SolverFinal

open Logistics

/-- The `for order_node in order_nodes` estimation loop of
`estimate_route_distance`: on an exception `current` is not advanced; a `None`
or `0` distance counts as the 50 km fallback. -/
def estimateLoop (env : Env) : List (Option ℕ) → ℕ → ℚ → (ℕ × ℚ)
  | [], current, total => (current, total)
  | node :: rest, current, total =>
    match distCall env current node with
    | Except.error _ => estimateLoop env rest current (total + 50)
    | Except.ok none => estimateLoop env rest (node.getD current) (total + 50)
    | Except.ok (some d) =>
      estimateLoop env rest (node.getD current) (total + (if d = 0 then 50 else d))

/-- `estimate_route_distance`: oracle-estimated round-trip distance
warehouse → order₁ → … → orderₙ → warehouse, with unknown legs counted as 50. -/
def estimate_route_distance (env : Env) (warehouse_node : ℕ)
    (order_nodes : List (Option ℕ)) : ℚ :=
  if order_nodes = [] then 0
  else
    let p := estimateLoop env order_nodes warehouse_node 0
    match env.get_distance p.1 warehouse_node with
    | Except.error _ => p.2 + 50
    | Except.ok none => p.2 + 50
    | Except.ok (some d) => p.2 + (if d = 0 then 50 else d)

/-- A pass-through step (`{'node_id': n, 'pickups': [], 'deliveries': [], 'unloads': []}`). -/
def passStep (n : ℕ) : Step := ⟨n, [], []⟩

/-- The delivery step of one order: one delivery entry per required SKU. -/
def deliveryStep (env : Env) (order_id : String) (order_node : ℕ) : Step :=
  ⟨order_node, [],
    (env.get_order_requirements order_id).map (fun p => ⟨order_id, p.1, p.2⟩)⟩

/-- The `# Visit each order` loop of `create_route`: one BFS leg per order,
splicing the intermediate nodes `path[1:-1]` and the delivery stop; fails when
a location is missing or a path is not found. -/
def buildLegs (env : Env) (adj : AdjList) (maxNodes : ℕ) :
    List String → ℕ → List Step → Option (List Step × ℕ)
  | [], current, acc => some (acc, current)
  | o :: rest, current, acc =>
    match env.get_order_location o with
    | none => none
    | some order_node =>
      match find_shortest_path current order_node adj maxNodes with
      | none => none
      | some path =>
        buildLegs env adj maxNodes rest order_node
          (acc ++ (path.drop 1).dropLast.map passStep ++ [deliveryStep env o order_node])

/-- The SKU keys of the `all_items` dict, in Python dict insertion order
(first occurrence across the orders' requirement mappings). -/
def firstKeys (l : List String) : List String :=
  l.foldl (fun acc k => if k ∈ acc then acc else acc ++ [k]) []

/-- The aggregated pickups of `create_route` (`all_items` turned into pickup
entries at the home warehouse). -/
def pickupList (env : Env) (warehouse_id : String) (order_ids : List String) :
    List Pickup :=
  (firstKeys (needKeys env order_ids)).map
    (fun s => ⟨warehouse_id, s, total_needs env order_ids s⟩)

/-- `create_route` of `VibeCoders_solver_final.py`. -/
def create_route (env : Env) (vehicle_id : String) (order_ids : List String)
    (adj : AdjList) : Option RouteDict :=
  if order_ids = [] then none
  else match env.get_vehicle_by_id vehicle_id with
  | none => none
  | some vehicle =>
    match env.get_warehouse_by_id vehicle.home_warehouse_id with
    | none => none
    | some warehouse =>
      let home_node := warehouse.location.id
      if ¬ can_fit_orders env vehicle_id order_ids then none
      else if ¬ check_inventory env vehicle.home_warehouse_id order_ids then none
      else
        let optimized_orders := optimize_delivery_sequence env home_node order_ids
        let order_nodes := optimized_orders.map env.get_order_location
        let estimated_distance := estimate_route_distance env home_node order_nodes
        if vehicle.max_distance * (8 / 10) < estimated_distance then none
        else
          let step0 : Step :=
            ⟨home_node, pickupList env vehicle.home_warehouse_id order_ids, []⟩
          match buildLegs env adj 500 optimized_orders home_node [step0] with
          | none => none
          | some (steps1, current_node) =>
            match find_shortest_path current_node home_node adj 500 with
            | none => none
            | some path_home =>
              some ⟨vehicle_id,
                steps1 ++ (path_home.drop 1).dropLast.map passStep ++ [passStep home_node]⟩

/-- The vehicle-type dependent order cap
`{'LightVan': 3, 'MediumTruck': 4, 'HeavyTruck': 5}.get(vehicle.type, 3)`. -/
def maxOrdersFor (t : String) : ℕ :=
  if t = "LightVan" then 3
  else if t = "MediumTruck" then 4
  else if t = "HeavyTruck" then 5
  else 3

/-- The `# Try to pack orders` loop of `solver`: greedily grow `vehicle_orders`
from the sorted order list, skipping assigned orders, capping at `max_orders`,
and vetting each candidate with capacity and inventory checks. -/
def packOrders (env : Env) (vehicle_id wid : String) (max_orders : ℕ)
    (assigned : Finset String) : List String → List String → List String
  | [], acc => acc
  | o :: rest, acc =>
    if o ∈ assigned then packOrders env vehicle_id wid max_orders assigned rest acc
    else if max_orders ≤ acc.length then acc
    else if can_fit_orders env vehicle_id (acc ++ [o]) &&
        check_inventory env wid (acc ++ [o]) then
      packOrders env vehicle_id wid max_orders assigned rest (acc ++ [o])
    else packOrders env vehicle_id wid max_orders assigned rest acc

/-- The `for attempt_orders in attempts` fallback loop of `solver`: the first
non-empty attempt for which `create_route` succeeds wins. -/
def tryAttempts (env : Env) (adj : AdjList) (vehicle_id : String) :
    List (List String) → Option (RouteDict × List String)
  | [] => none
  | att :: rest =>
    if att = [] then tryAttempts env adj vehicle_id rest
    else match create_route env vehicle_id att adj with
      | some r => some (r, att)
      | none => tryAttempts env adj vehicle_id rest

/-- The `# Process each vehicle` loop of `solver`. -/
def solverLoop (env : Env) (adj : AdjList) (order_count : ℕ)
    (sorted_orders : List String) :
    List String → Finset String → List RouteDict → List RouteDict
  | [], _, routes => routes
  | vid :: rest, assigned, routes =>
    if order_count ≤ assigned.card then routes
    else match env.get_vehicle_by_id vid with
      | none => solverLoop env adj order_count sorted_orders rest assigned routes
      | some vehicle =>
        let max_orders := maxOrdersFor vehicle.type
        let vehicle_orders :=
          packOrders env vid vehicle.home_warehouse_id max_orders assigned
            sorted_orders []
        let attempts := [vehicle_orders,
          vehicle_orders.take (vehicle_orders.length / 2), vehicle_orders.take 1]
        match tryAttempts env adj vid attempts with
        | some ra =>
          solverLoop env adj order_count sorted_orders rest
            (assigned ∪ ra.2.toFinset) (routes ++ [ra.1])
        | none => solverLoop env adj order_count sorted_orders rest assigned routes

/-- The descending-by-weight stable sort of the order identifiers
(`orders_with_size.sort(key=lambda x: x[1], reverse=True)`). -/
def sortedOrders (env : Env) : List String :=
  ((env.get_all_order_ids.map (fun oid => (oid, calculate_order_size env oid))).mergeSort
    (fun a b => decide (b.2.1 ≤ a.2.1))).map Prod.fst

/-- `solver` of `VibeCoders_solver_final.py`: greedy multi-order packing per
vehicle with `[full, half, single]` fallback attempts. -/
def solver (env : Env) : Solution :=
  ⟨solverLoop env env.adjacency_list env.get_all_order_ids.length
    (sortedOrders env) env.get_available_vehicles ∅ []⟩

end SolverFinal

namespace SolverFinal

open Logistics

theorem buildLegs_delivered (env : Env) (adj : AdjList) (m : ℕ) :
    ∀ (orders : List String) (current : ℕ) (acc steps : List Step) (cur' : ℕ),
      buildLegs env adj m orders current acc = some (steps, cur') →
      ∃ extra, steps = acc ++ extra ∧
        ∀ o ∈ extra.flatMap (fun s => s.deliveries.map (fun d => d.order_id)),
          o ∈ orders := by
  intro orders
  induction orders with
  | nil =>
    intro current acc steps cur' h
    simp only [buildLegs, Option.some.injEq, Prod.mk.injEq] at h
    exact ⟨[], by simp [h.1.symm], by simp⟩
  | cons o rest ih =>
    intro current acc steps cur' h
    simp only [buildLegs] at h
    rcases hloc : env.get_order_location o with _ | order_node
    · simp only [hloc] at h
      exact Option.noConfusion h
    · simp only [hloc] at h
      rcases hpath : find_shortest_path current order_node adj m with _ | path
      · simp only [hpath] at h
        exact Option.noConfusion h
      · simp only [hpath] at h
        rcases ih order_node _ steps cur' h with ⟨extra', hsteps, hdel⟩
        refine ⟨(path.drop 1).dropLast.map passStep ++ [deliveryStep env o order_node] ++ extra',
          by simpa [List.append_assoc] using hsteps, ?_⟩
        intro o' ho'
        simp only [List.flatMap_append, List.mem_append] at ho'
        rcases ho' with (h1 | h2) | h3
        · exfalso
          simp only [List.flatMap, List.mem_flatten, List.mem_map] at h1
          rcases h1 with ⟨l, ⟨s, hs, rfl⟩, hmem⟩
          rcases hs with ⟨n, _, rfl⟩
          simp [passStep] at hmem
        · simp only [List.flatMap, List.mem_flatten, List.mem_map] at h2
          rcases h2 with ⟨l, ⟨s, hs, rfl⟩, hmem⟩
          simp only [List.mem_singleton] at hs
          subst hs
          simp only [deliveryStep, List.mem_map] at hmem
          rcases hmem with ⟨d, ⟨p, _, rfl⟩, rfl⟩
          exact List.mem_cons_self o rest
        · exact List.mem_cons_of_mem o (hdel o' h3)

theorem create_route_spec {env : Env} {vid : String} {oids : List String}
    {adj : AdjList} {r : RouteDict}
    (h : create_route env vid oids adj = some r) :
    ∃ vehicle warehouse,
      env.get_vehicle_by_id vid = some vehicle ∧
      env.get_warehouse_by_id vehicle.home_warehouse_id = some warehouse ∧
      r.vehicle_id = vid ∧
      can_fit_orders env vid oids = true ∧
      check_inventory env vehicle.home_warehouse_id oids = true ∧
      (∀ o ∈ deliveredOrders r, o ∈ oids) ∧
      oids ≠ [] ∧
      estimate_route_distance env warehouse.location.id
          ((optimize_delivery_sequence env warehouse.location.id oids).map
            env.get_order_location) ≤ vehicle.max_distance * (8 / 10) := by
  unfold create_route at h
  split at h
  · cases h
  rcases hveh : env.get_vehicle_by_id vid with _ | vehicle
  · simp only [hveh] at h
    exact Option.noConfusion h
  simp only [hveh] at h
  rcases hwh : env.get_warehouse_by_id vehicle.home_warehouse_id with _ | warehouse
  · simp only [hwh] at h
    exact Option.noConfusion h
  simp only [hwh] at h
  split at h
  · cases h
  split at h
  · cases h
  split at h
  · cases h
  next hne hfit hinv hest =>
  rcases hlegs : buildLegs env adj 500
      (optimize_delivery_sequence env warehouse.location.id oids)
      warehouse.location.id
      [⟨warehouse.location.id, pickupList env vehicle.home_warehouse_id oids, []⟩]
    with _ | sc
  · simp only [hlegs] at h
    exact Option.noConfusion h
  obtain ⟨steps1, current_node⟩ := sc
  simp only [hlegs] at h
  rcases hhome : find_shortest_path current_node warehouse.location.id adj 500
    with _ | path_home
  · simp only [hhome] at h
    exact Option.noConfusion h
  simp only [hhome] at h
  simp only [Option.some.injEq] at h
  subst h
  refine ⟨vehicle, warehouse, rfl, hwh, rfl, not_not.mp hfit, not_not.mp hinv,
    ?_, hne, by simpa using not_lt.mp hest⟩
  intro o ho
  rcases buildLegs_delivered env adj 500 _ _ _ _ _ hlegs with ⟨extra, hsteps, hdel⟩
  have hopt : o ∈ optimize_delivery_sequence env warehouse.location.id oids := by
    simp only [deliveredOrders, List.mem_flatMap] at ho
    rcases ho with ⟨s, hs, hmem⟩
    rw [hsteps] at hs
    simp only [List.append_assoc, List.singleton_append, List.mem_cons,
      List.mem_append] at hs
    rcases hs with (rfl | hs) | hs | (rfl | h0)
    · simp at hmem
    · exact hdel o (List.mem_flatMap.mpr ⟨s, hs, hmem⟩)
    · rcases List.mem_map.mp hs with ⟨n, _, rfl⟩
      simp [passStep] at hmem
    · simp [passStep] at hmem
    · simp at h0
  exact (optimize_delivery_sequence_perm env warehouse.location.id oids).subset hopt

end SolverFinal

namespace SolverFinal

open Logistics

theorem packOrders_not_assigned (env : Env) (vid wid : String) (mo : ℕ)
    (assigned : Finset String) :
    ∀ (l acc : List String), (∀ o ∈ acc, o ∉ assigned) →
      ∀ o ∈ packOrders env vid wid mo assigned l acc, o ∉ assigned := by
  intro l
  induction l with
  | nil => intro acc hacc o ho; exact hacc o ho
  | cons x rest ih =>
    intro acc hacc o ho
    simp only [packOrders] at ho
    by_cases hx : x ∈ assigned
    · rw [if_pos hx] at ho
      exact ih acc hacc o ho
    · rw [if_neg hx] at ho
      split at ho
      · exact hacc o ho
      · split at ho
        · refine ih (acc ++ [x]) ?_ o ho
          intro o' ho'
          rcases List.mem_append.mp ho' with h | h
          · exact hacc o' h
          · rw [List.mem_singleton.mp h]; exact hx
        · exact ih acc hacc o ho

theorem tryAttempts_spec (env : Env) (adj : AdjList) (vid : String) :
    ∀ (atts : List (List String)) (r : RouteDict) (att : List String),
      tryAttempts env adj vid atts = some (r, att) →
      att ∈ atts ∧ create_route env vid att adj = some r := by
  intro atts
  induction atts with
  | nil => intro r att h; cases h
  | cons a rest ih =>
    intro r att h
    simp only [tryAttempts] at h
    split at h
    · rcases ih r att h with ⟨h1, h2⟩
      exact ⟨List.mem_cons_of_mem _ h1, h2⟩
    · rcases hcr : create_route env vid a adj with _ | r'
      · rw [hcr] at h
        rcases ih r att h with ⟨h1, h2⟩
        exact ⟨List.mem_cons_of_mem _ h1, h2⟩
      · rw [hcr] at h
        injection h with h
        injection h with h3 h4
        subst h3; subst h4
        exact ⟨List.mem_cons_self _ _, hcr⟩

/-- The pairwise relation "no order delivered by both routes". -/
def RoutesDisjoint (r1 r2 : RouteDict) : Prop :=
  ∀ o, o ∈ deliveredOrders r1 → o ∉ deliveredOrders r2

theorem solverLoop_disjoint (env : Env) (adj : AdjList) (oc : ℕ)
    (so : List String) :
    ∀ (vids : List String) (assigned : Finset String) (routes : List RouteDict),
      (∀ r ∈ routes, ∀ o ∈ deliveredOrders r, o ∈ assigned) →
      List.Pairwise RoutesDisjoint routes →
      List.Pairwise RoutesDisjoint (solverLoop env adj oc so vids assigned routes) := by
  intro vids
  induction vids with
  | nil => intro assigned routes _ hpw; exact hpw
  | cons vid rest ih =>
    intro assigned routes hsub hpw
    simp only [solverLoop]
    split
    · exact hpw
    · rcases hveh : env.get_vehicle_by_id vid with _ | vehicle
      · exact ih assigned routes hsub hpw
      · simp only
        rcases hta : tryAttempts env adj vid _ with _ | ra
        · exact ih assigned routes hsub hpw
        · obtain ⟨r, att⟩ := ra
          rcases tryAttempts_spec env adj vid _ r att hta with ⟨hatt, hcr⟩
          rcases create_route_spec hcr with
            ⟨_, _, _, _, _, _, _, hdel, _, _⟩
          have hattsub : ∀ o ∈ att, o ∉ assigned := by
            have hvo := packOrders_not_assigned env vid vehicle.home_warehouse_id
              (maxOrdersFor vehicle.type) assigned so [] (by simp)
            simp only [List.mem_cons, List.not_mem_nil, or_false] at hatt
            rcases hatt with rfl | rfl | rfl
            · exact hvo
            · intro o ho; exact hvo o (List.mem_of_mem_take ho)
            · intro o ho; exact hvo o (List.mem_of_mem_take ho)
          refine ih (assigned ∪ att.toFinset) (routes ++ [r]) ?_ ?_
          · intro r' hr' o ho
            rcases List.mem_append.mp hr' with h | h
            · exact Finset.mem_union_left _ (hsub r' h o ho)
            · rw [List.mem_singleton.mp h] at ho
              exact Finset.mem_union_right _ (List.mem_toFinset.mpr (hdel o ho))
          · rw [List.pairwise_append]
            refine ⟨hpw, List.pairwise_singleton _ _, ?_⟩
            intro r1 h1 r2 h2
            rw [List.mem_singleton.mp h2]
            intro o ho1 ho2
            exact hattsub o (hdel o ho2) (hsub r1 h1 o ho1)

theorem solver_final_disjoint (env : Env) :
    List.Pairwise RoutesDisjoint (solver env).routes := by
  unfold solver
  exact solverLoop_disjoint env env.adjacency_list env.get_all_order_ids.length
    (sortedOrders env) env.get_available_vehicles ∅ [] (by simp) (by simp)

end SolverFinal

namespace SolverFinal

open Logistics

theorem foldl_pair_sum (f g : String × ℕ → ℚ) :
    ∀ (l : List (String × ℕ)) (a b : ℚ),
      l.foldl (fun acc p => (acc.1 + f p, acc.2 + g p)) (a, b) =
        (a + (l.map f).sum, b + (l.map g).sum) := by
  intro l
  induction l with
  | nil => intro a b; simp
  | cons p rest ih =>
    intro a b
    simp only [List.foldl_cons, ih, List.map_cons, List.sum_cons, Prod.mk.injEq]
    constructor <;> ring

theorem calculate_order_size_eq (env : Env) (o : String) :
    calculate_order_size env o =
      (((env.get_order_requirements o).map (fun p => (env.skus p.1).weight * p.2)).sum,
       ((env.get_order_requirements o).map (fun p => (env.skus p.1).volume * p.2)).sum) := by
  unfold calculate_order_size
  rw [foldl_pair_sum]
  simp

theorem calculate_order_size_nonneg (env : Env)
    (hw : ∀ s, 0 ≤ (env.skus s).weight) (hv : ∀ s, 0 ≤ (env.skus s).volume)
    (o : String) :
    0 ≤ (calculate_order_size env o).1 ∧ 0 ≤ (calculate_order_size env o).2 := by
  rw [calculate_order_size_eq]
  constructor <;>
  · apply List.sum_nonneg
    intro x hx
    rcases List.mem_map.mp hx with ⟨p, _, rfl⟩
    first
      | exact mul_nonneg (hw p.1) (by positivity)
      | exact mul_nonneg (hv p.1) (by positivity)

theorem can_fit_orders_spec {env : Env} {vid : String} {oids : List String}
    {vehicle : Vehicle} (hveh : env.get_vehicle_by_id vid = some vehicle)
    (h : can_fit_orders env vid oids = true) :
    (oids.map (fun o => (calculate_order_size env o).1)).sum ≤
      vehicle.capacity_weight * (9 / 10) ∧
    (oids.map (fun o => (calculate_order_size env o).2)).sum ≤
      vehicle.capacity_volume * (9 / 10) := by
  unfold can_fit_orders at h
  rw [hveh] at h
  simp only [Bool.and_eq_true, decide_eq_true_eq] at h
  exact h

theorem sum_dedup_subset_le (f : String → ℚ) (l1 l2 : List String)
    (hsub : l1 ⊆ l2) (hnn : ∀ o ∈ l2, 0 ≤ f o) :
    (l1.dedup.map f).sum ≤ (l2.map f).sum := by
  have hsp : List.Subperm l1.dedup l2 := (List.nodup_dedup l1).subperm
    (fun a ha => hsub (List.mem_dedup.mp ha))
  rcases hsp with ⟨l', hperm, hsl⟩
  calc (l1.dedup.map f).sum = (l'.map f).sum := (hperm.map f).sum_eq.symm
    _ ≤ (l2.map f).sum := by
        refine List.Sublist.sum_le_sum (hsl.map f) ?_
        intro a ha
        rcases List.mem_map.mp ha with ⟨o, ho, rfl⟩
        exact hnn o ho

theorem solverLoop_routes_spec (env : Env) (adj : AdjList) (oc : ℕ)
    (so : List String) :
    ∀ (vids : List String) (assigned : Finset String) (routes : List RouteDict)
      (r : RouteDict), r ∈ solverLoop env adj oc so vids assigned routes →
      r ∈ routes ∨ ∃ vid att, create_route env vid att adj = some r := by
  intro vids
  induction vids with
  | nil => intro assigned routes r hr; exact Or.inl hr
  | cons vid rest ih =>
    intro assigned routes r hr
    simp only [solverLoop] at hr
    split at hr
    · exact Or.inl hr
    · rcases hveh : env.get_vehicle_by_id vid with _ | vehicle
      · rw [hveh] at hr
        exact ih assigned routes r hr
      · rw [hveh] at hr
        simp only at hr
        rcases hta : tryAttempts env adj vid _ with _ | ra
        · rw [hta] at hr
          exact ih assigned routes r hr
        · rw [hta] at hr
          obtain ⟨r', att⟩ := ra
          rcases ih _ _ r hr with hmem | hex
          · rcases List.mem_append.mp hmem with h | h
            · exact Or.inl h
            · rcases tryAttempts_spec env adj vid _ r' att hta with ⟨_, hcr⟩
              rw [List.mem_singleton.mp h]
              exact Or.inr ⟨vid, att, hcr⟩
          · exact Or.inr hex

end SolverFinal

namespace Logistics

/-- A trivial environment with no orders and no vehicles, used to witness
hypothesis-bearing theorems at a concrete input. -/
def env0 : Env where
  skus := fun _ => ⟨0, 0⟩
  get_order_requirements := fun _ => []
  get_order_location := fun _ => none
  get_vehicle_by_id := fun _ => none
  get_warehouse_by_id := fun _ => none
  get_warehouse_inventory := fun _ _ => 0
  get_distance := fun _ _ => Except.ok none
  get_all_order_ids := []
  get_available_vehicles := []
  adjacency_list := []

/-- A small two-node environment (warehouse at node 0, one order at node 1)
on which the final solver produces exactly one route. -/
def envW : Env where
  skus := fun _ => ⟨1, 1⟩
  get_order_requirements := fun _ => [("s", 1)]
  get_order_location := fun _ => some 1
  get_vehicle_by_id := fun _ => some ⟨"LightVan", 10, 10, 100, "w1"⟩
  get_warehouse_by_id := fun _ => some ⟨"w1", ⟨0⟩⟩
  get_warehouse_inventory := fun _ _ => 10
  get_distance := fun _ _ => Except.ok (some 1)
  get_all_order_ids := ["o1"]
  get_available_vehicles := ["v1"]
  adjacency_list := [(0, [1]), (1, [0])]

/-- The route the final solver produces on `envW`. -/
def routeW : RouteDict :=
  ⟨"v1", [⟨0, [⟨"w1", "s", 1⟩], []⟩, ⟨1, [], [⟨"o1", "s", 1⟩]⟩, ⟨0, [], []⟩]⟩

end Logistics

namespace SolverFinal

open Logistics

theorem envW_calc : calculate_order_size envW "o1" = (1, 1) := by
  simp [calculate_order_size, envW]

theorem envW_can_fit : can_fit_orders envW "v1" ["o1"] = true := by
  have h1 : envW.get_vehicle_by_id "v1" = some ⟨"LightVan", 10, 10, 100, "w1"⟩ := rfl
  simp only [can_fit_orders, h1, envW_calc, List.map_cons, List.map_nil, List.sum_cons,
    List.sum_nil]
  norm_num

theorem envW_inventory : check_inventory envW "w1" ["o1"] = true := by
  simp [check_inventory, needKeys, total_needs, envW]

theorem envW_bfs01 : find_shortest_path 0 1 envW.adjacency_list 500 = some [0, 1] := by
  simp [find_shortest_path, bfs_loop, bfs_expand, adjGet, envW, List.lookup]

theorem envW_bfs10 : find_shortest_path 1 0 envW.adjacency_list 500 = some [1, 0] := by
  simp [find_shortest_path, bfs_loop, bfs_expand, adjGet, envW, List.lookup]

theorem envW_opt : optimize_delivery_sequence envW 0 ["o1"] = ["o1"] := by
  simp [optimize_delivery_sequence]

theorem envW_est : estimate_route_distance envW 0 [some 1] = 2 := by
  have hd : envW.get_distance 1 0 = Except.ok (some 1) := rfl
  have hc : distCall envW 0 (some 1) = Except.ok (some 1) := rfl
  simp [estimate_route_distance, estimateLoop, distCall, envW]
  norm_num

theorem envW_create_route :
    create_route envW "v1" ["o1"] envW.adjacency_list = some routeW := by
  have hv : envW.get_vehicle_by_id "v1" = some ⟨"LightVan", 10, 10, 100, "w1"⟩ := rfl
  have hw : envW.get_warehouse_by_id "w1" = some ⟨"w1", ⟨0⟩⟩ := rfl
  have hloc : envW.get_order_location "o1" = some 1 := rfl
  simp only [create_route, hv, hw, envW_can_fit, envW_inventory, envW_opt, hloc,
    List.map_cons, List.map_nil, envW_est, envW_bfs01, envW_bfs10, buildLegs,
    Bool.not_true, if_false, ite_false, ite_true]
  rw [if_neg (by norm_num)]
  have hreq : envW.get_order_requirements "o1" = [("s", 1)] := rfl
  simp only [routeW, passStep, deliveryStep, pickupList, firstKeys, needKeys,
    total_needs, Option.some.injEq]
  rw [if_neg (by simp), if_neg (by simp), if_neg (by norm_num)]
  have hreq : envW.get_order_requirements "o1" = [("s", 1)] := rfl
  simp [hreq, passStep]

theorem envW_sorted : sortedOrders envW = ["o1"] := by
  rw [sortedOrders, show envW.get_all_order_ids = ["o1"] from rfl]
  simp

theorem envW_pack : packOrders envW "v1" "w1" 3 ∅ ["o1"] [] = ["o1"] := by
  simp [packOrders, envW_can_fit, envW_inventory]

theorem solver_envW_eval : solver envW = ⟨[routeW]⟩ := by
  have hv : envW.get_vehicle_by_id "v1" = some ⟨"LightVan", 10, 10, 100, "w1"⟩ := rfl
  have hlen : envW.get_all_order_ids = ["o1"] := rfl
  have hveh : envW.get_available_vehicles = ["v1"] := rfl
  have hmax : maxOrdersFor "LightVan" = 3 := rfl
  simp only [solver, envW_sorted, hlen, hveh, List.length_singleton, solverLoop, hv, hmax]
  rw [if_neg (by simp)]
  simp only [envW_pack, List.length_singleton, tryAttempts, envW_create_route]
  norm_num [solverLoop]

end SolverFinal

namespace SolverFinal

open Logistics

/-- C10: For every environment and every list of distinct order identifiers,
`optimize_delivery_sequence` returns a permutation of its input: the output
contains exactly the input's order identifiers, each exactly once, even when the
distance oracle returns no value or raises for some or all node pairs (the
fallback branch appends all remaining orders and stops). -/
theorem C10_optimize_delivery_sequence_permutation (env : Env) (warehouse_node : ℕ)
    (order_ids : List String) (hnd : order_ids.Nodup) :
    (optimize_delivery_sequence env warehouse_node order_ids).Perm order_ids :=
  optimize_delivery_sequence_perm env warehouse_node order_ids

/-- Witness for C10 at a concrete input: `env0`'s oracle returns `None` for
every node pair, yet the output is a permutation of the distinct input. -/
theorem C10_witness :
    (["a", "b"] : List String).Nodup ∧
      (optimize_delivery_sequence env0 0 ["a", "b"]).Perm ["a", "b"] :=
  ⟨by decide, C10_optimize_delivery_sequence_permutation env0 0 ["a", "b"] (by decide)⟩

/-- C2: For every environment with non-negative SKU unit weights and volumes,
every route in the solution returned by the final solver satisfies the capacity
check with the 0.9 safety margin: over the distinct orders delivered by the
route, total weight is at most `capacity_weight * 0.9` and total volume at most
`capacity_volume * 0.9` of the route's vehicle, because every candidate order
set is vetted by `can_fit_orders` inside `create_route`. -/
theorem C2_solver_capacity_margin (env : Env)
    (hw : ∀ s, 0 ≤ (env.skus s).weight) (hv : ∀ s, 0 ≤ (env.skus s).volume)
    (r : RouteDict) (hr : r ∈ (solver env).routes) :
    ∃ vehicle, env.get_vehicle_by_id r.vehicle_id = some vehicle ∧
      ((deliveredOrders r).dedup.map (fun o => (calculate_order_size env o).1)).sum ≤
        vehicle.capacity_weight * (9 / 10) ∧
      ((deliveredOrders r).dedup.map (fun o => (calculate_order_size env o).2)).sum ≤
        vehicle.capacity_volume * (9 / 10) := by
  rcases solverLoop_routes_spec env env.adjacency_list env.get_all_order_ids.length
      (sortedOrders env) env.get_available_vehicles ∅ [] r hr with h0 | ⟨vid, att, hcr⟩
  · simp at h0
  rcases create_route_spec hcr with ⟨vehicle, _, hveh, _, hrv, hfit, _, hdel, _, _⟩
  refine ⟨vehicle, by rw [hrv]; exact hveh, ?_, ?_⟩
  · exact (sum_dedup_subset_le _ _ att hdel
      (fun o _ => (calculate_order_size_nonneg env hw hv o).1)).trans
      (can_fit_orders_spec hveh hfit).1
  · exact (sum_dedup_subset_le _ _ att hdel
      (fun o _ => (calculate_order_size_nonneg env hw hv o).2)).trans
      (can_fit_orders_spec hveh hfit).2

/-- Witness for C2 at a concrete input: on `envW` the solver emits `routeW`
and the capacity bounds hold for it. -/
theorem C2_witness :
    (∀ s, 0 ≤ (envW.skus s).weight) ∧ (∀ s, 0 ≤ (envW.skus s).volume) ∧
    routeW ∈ (solver envW).routes ∧
    (∃ vehicle, envW.get_vehicle_by_id routeW.vehicle_id = some vehicle ∧
      ((deliveredOrders routeW).dedup.map
        (fun o => (calculate_order_size envW o).1)).sum ≤
          vehicle.capacity_weight * (9 / 10) ∧
      ((deliveredOrders routeW).dedup.map
        (fun o => (calculate_order_size envW o).2)).sum ≤
          vehicle.capacity_volume * (9 / 10)) :=
  ⟨fun _ => by norm_num [envW], fun _ => by norm_num [envW],
   by rw [solver_envW_eval]; exact List.mem_singleton_self _,
   C2_solver_capacity_margin envW (fun _ => by norm_num [envW])
     (fun _ => by norm_num [envW]) routeW
     (by rw [solver_envW_eval]; exact List.mem_singleton_self _)⟩

end SolverFinal

namespace Logistics

/-- One BFS queue entry `(n, p)` is well formed for origin `start`: `p` is a
non-empty walk of the adjacency structure from `start` to `n`. -/
def QInv (adj : AdjList) (start : ℕ) (e : ℕ × List ℕ) : Prop :=
  e.2 ≠ [] ∧ e.2.head? = some start ∧ e.2.getLast? = some e.1 ∧
    List.Chain' (fun a b => b ∈ adjGet adj a) e.2

/-- A found BFS path: non-empty adjacency walk from `start` to `endNode`. -/
def WalkSE (adj : AdjList) (start endNode : ℕ) (p : List ℕ) : Prop :=
  p ≠ [] ∧ p.head? = some start ∧ p.getLast? = some endNode ∧
    List.Chain' (fun a b => b ∈ adjGet adj a) p

theorem QInv_extend {adj : AdjList} {start cur : ℕ} {path : List ℕ}
    (h : QInv adj start (cur, path)) {n : ℕ} (hn : n ∈ adjGet adj cur) :
    QInv adj start (n, path ++ [n]) := by
  obtain ⟨hne, hhd, hlast, hch⟩ := h
  refine ⟨by simp, by simp [List.head?_append, hhd], by simp, ?_⟩
  · refine List.Chain'.append hch (List.chain'_singleton n) ?_
    intro x hx y hy
    simp only [List.head?_cons, Option.mem_def, Option.some.injEq] at hy
    subst hy
    rw [hlast] at hx
    rw [Option.mem_def, Option.some.injEq] at hx
    subst hx
    exact hn

end Logistics

namespace SolverFinal

open Logistics

theorem bfs_expand_walk (adj : AdjList) (endNode start cur : ℕ) (path : List ℕ)
    (hp : QInv adj start (cur, path)) :
    ∀ (ns : List ℕ) (visited : List ℕ) (queue : List (ℕ × List ℕ)),
      (∀ n ∈ ns, n ∈ adjGet adj cur) →
      (∀ e ∈ queue, QInv adj start e) →
      (∀ found, bfs_expand endNode path ns visited queue = Sum.inl found →
        WalkSE adj start endNode found) ∧
      (∀ visited' queue', bfs_expand endNode path ns visited queue =
          Sum.inr (visited', queue') → ∀ e ∈ queue', QInv adj start e) := by
  intro ns
  induction ns with
  | nil =>
    intro visited queue _ hq
    constructor
    · intro found h; cases h
    · intro v' q' h e he
      simp only [bfs_expand, Sum.inr.injEq, Prod.mk.injEq] at h
      rw [← h.2] at he
      exact hq e he
  | cons n rest ih =>
    intro visited queue hns hq
    simp only [bfs_expand]
    split
    · exact ih visited queue (fun x hx => hns x (List.mem_cons_of_mem _ hx)) hq
    · split
      next hne =>
        constructor
        · intro found h
          simp only [Sum.inl.injEq] at h
          subst h
          rcases QInv_extend hp (hns n (List.mem_cons_self n rest)) with ⟨h1, h2, h3, h4⟩
          exact ⟨h1, h2, by rw [h3, hne], h4⟩
        · intro v' q' h; cases h
      next =>
        refine ih (visited ++ [n]) (queue ++ [(n, path ++ [n])])
          (fun x hx => hns x (List.mem_cons_of_mem _ hx)) ?_
        intro e he
        rcases List.mem_append.mp he with h | h
        · exact hq e h
        · rw [List.mem_singleton.mp h]
          exact QInv_extend hp (hns n (List.mem_cons_self n rest))

theorem bfs_loop_walk (adj : AdjList) (endNode start : ℕ) :
    ∀ (fuel : ℕ) (queue : List (ℕ × List ℕ)) (visited : List ℕ) (p : List ℕ),
      (∀ e ∈ queue, QInv adj start e) →
      bfs_loop adj endNode fuel queue visited = some p →
      WalkSE adj start endNode p := by
  intro fuel
  induction fuel with
  | zero => intro queue visited p _ h; cases h
  | succ fuel ih =>
    intro queue visited p hq h
    match queue with
    | [] => cases h
    | (cur, path) :: queue' =>
      simp only [bfs_loop] at h
      have hp : QInv adj start (cur, path) := hq _ (List.mem_cons_self _ _)
      have hq' : ∀ e ∈ queue', QInv adj start e :=
        fun e he => hq e (List.mem_cons_of_mem _ he)
      rcases hexp : bfs_expand endNode path (adjGet adj cur) visited queue' with found | vq
      · rw [hexp] at h
        simp only [Option.some.injEq] at h
        subst h
        exact (bfs_expand_walk adj endNode start cur path hp (adjGet adj cur)
          visited queue' (fun _ hx => hx) hq').1 _ hexp
      · rw [hexp] at h
        obtain ⟨visited', queue''⟩ := vq
        exact ih queue'' visited' p
          ((bfs_expand_walk adj endNode start cur path hp (adjGet adj cur)
            visited queue' (fun _ hx => hx) hq').2 visited' queue'' hexp) h

theorem find_shortest_path_walk {adj : AdjList} {start endNode m : ℕ} {p : List ℕ}
    (h : find_shortest_path start endNode adj m = some p) :
    WalkSE adj start endNode p := by
  unfold find_shortest_path at h
  split at h
  · next heq =>
    simp only [Option.some.injEq] at h
    subst h
    exact ⟨by simp, by simp, by simp [heq], List.chain'_singleton _⟩
  · exact bfs_loop_walk adj endNode start m _ _ _
      (by
        intro e he
        rw [List.mem_singleton.mp he]
        exact ⟨by simp, by simp, by simp, List.chain'_singleton _⟩) h

end SolverFinal

namespace Logistics

/-- Two consecutive stops are admissible when they name the same node or two
adjacent nodes of the road graph. -/
def stepRel (adj : AdjList) (a b : ℕ) : Prop := a = b ∨ b ∈ adjGet adj a

theorem walk_to_steps {adj : AdjList} {a b : ℕ} {p : List ℕ}
    (h : WalkSE adj a b p) :
    List.Chain' (stepRel adj) (a :: ((p.drop 1).dropLast ++ [b])) ∧
      ((p.drop 1).dropLast ++ [b]).getLast? = some b := by
  obtain ⟨hne, hhd, hlast, hch⟩ := h
  refine ⟨?_, by simp⟩
  match p, hne with
  | [x], _ =>
    have hxa : x = a := by simpa using hhd
    have hxb : x = b := by simpa using hlast
    have hab : a = b := by rw [← hxa, hxb]
    simp only [List.drop_one, List.tail_cons, List.dropLast_nil, List.nil_append]
    exact List.chain'_pair.mpr (Or.inl hab)
  | x :: y :: rest, _ =>
    have hxa : x = a := by simpa using hhd
    have hb : (y :: rest).getLast? = some b := by
      rw [← List.getLast?_cons_cons]
      exact hlast
    have hne2 : (y :: rest : List ℕ) ≠ [] := by simp
    have hL : (((x :: y :: rest).drop 1).dropLast ++ [b]) = y :: rest := by
      rw [List.drop_one, List.tail_cons]
      have hgl : (y :: rest).getLast hne2 = b := by
        rw [List.getLast?_eq_getLast _ hne2, Option.some.injEq] at hb
        exact hb
      rw [← hgl]
      exact List.dropLast_append_getLast hne2
    rw [hL, ← hxa]
    exact List.Chain'.imp (fun c d hcd => Or.inr hcd) hch

end Logistics

namespace SolverFinal

open Logistics

theorem buildLegs_nodes (env : Env) (adj : AdjList) (m : ℕ) :
    ∀ (orders : List String) (current : ℕ) (acc steps : List Step) (cur' : ℕ),
      buildLegs env adj m orders current acc = some (steps, cur') →
      (acc.map Step.node_id).getLast? = some current →
      List.Chain' (stepRel adj) (acc.map Step.node_id) →
      List.Chain' (stepRel adj) (steps.map Step.node_id) ∧
        (steps.map Step.node_id).getLast? = some cur' ∧
        steps.head? = acc.head? := by
  intro orders
  induction orders with
  | nil =>
    intro current acc steps cur' h hlast hch
    simp only [buildLegs, Option.some.injEq, Prod.mk.injEq] at h
    obtain ⟨rfl, rfl⟩ := h
    exact ⟨hch, hlast, rfl⟩
  | cons o rest ih =>
    intro current acc steps cur' h hlast hch
    simp only [buildLegs] at h
    rcases hloc : env.get_order_location o with _ | order_node
    · simp only [hloc] at h
      exact Option.noConfusion h
    simp only [hloc] at h
    rcases hpath : find_shortest_path current order_node adj m with _ | path
    · simp only [hpath] at h
      exact Option.noConfusion h
    simp only [hpath] at h
    have hwalk := find_shortest_path_walk hpath
    rcases walk_to_steps hwalk with ⟨hchain2, hlast2⟩
    set acc2 := acc ++ (path.drop 1).dropLast.map passStep ++ [deliveryStep env o order_node]
      with hacc2
    have hacc2_nodes : acc2.map Step.node_id =
        acc.map Step.node_id ++ ((path.drop 1).dropLast ++ [order_node]) := by
      simp only [hacc2, List.map_append, List.map_map]
      simp [Function.comp_def, passStep, deliveryStep]
    have hanne : acc.map Step.node_id ≠ [] := by
      intro h0; rw [h0] at hlast; cases hlast
    have hsplit := List.chain'_cons'.mp hchain2
    have hch2 : List.Chain' (stepRel adj) (acc2.map Step.node_id) := by
      rw [hacc2_nodes]
      refine List.Chain'.append hch hsplit.2 ?_
      intro x hx y hy
      rw [hlast, Option.mem_def, Option.some.injEq] at hx
      subst hx
      exact hsplit.1 y hy
    have hlast2' : (acc2.map Step.node_id).getLast? = some order_node := by
      rw [hacc2_nodes, List.getLast?_append]
      simp [hlast2]
    rcases ih order_node acc2 steps cur' h hlast2' hch2 with ⟨h1, h2, h3⟩
    refine ⟨h1, h2, ?_⟩
    rw [h3, hacc2]
    rw [List.append_assoc, List.head?_append]
    rcases hacchd : acc.head? with _ | s
    · exact absurd (List.head?_eq_none_iff.mp hacchd) (fun h0 => by simp [h0] at hanne)
    · simp

end SolverFinal

namespace SolverFinal

open Logistics

theorem create_route_path {env : Env} {vid : String} {oids : List String}
    {adj : AdjList} {r : RouteDict}
    (h : create_route env vid oids adj = some r) :
    ∃ vehicle warehouse,
      env.get_vehicle_by_id vid = some vehicle ∧
      env.get_warehouse_by_id vehicle.home_warehouse_id = some warehouse ∧
      r.vehicle_id = vid ∧
      (r.steps.map Step.node_id).head? = some warehouse.location.id ∧
      (r.steps.map Step.node_id).getLast? = some warehouse.location.id ∧
      List.Chain' (stepRel adj) (r.steps.map Step.node_id) := by
  unfold create_route at h
  split at h
  · cases h
  rcases hveh : env.get_vehicle_by_id vid with _ | vehicle
  · simp only [hveh] at h
    exact Option.noConfusion h
  simp only [hveh] at h
  rcases hwh : env.get_warehouse_by_id vehicle.home_warehouse_id with _ | warehouse
  · simp only [hwh] at h
    exact Option.noConfusion h
  simp only [hwh] at h
  split at h
  · cases h
  split at h
  · cases h
  split at h
  · cases h
  rcases hlegs : buildLegs env adj 500
      (optimize_delivery_sequence env warehouse.location.id oids)
      warehouse.location.id
      [⟨warehouse.location.id, pickupList env vehicle.home_warehouse_id oids, []⟩]
    with _ | sc
  · simp only [hlegs] at h
    exact Option.noConfusion h
  obtain ⟨steps1, current_node⟩ := sc
  simp only [hlegs] at h
  rcases hhome : find_shortest_path current_node warehouse.location.id adj 500
    with _ | path_home
  · simp only [hhome] at h
    exact Option.noConfusion h
  simp only [hhome] at h
  simp only [Option.some.injEq] at h
  subst h
  rcases buildLegs_nodes env adj 500 _ _ _ _ _ hlegs (by simp) (by simp) with
    ⟨hch1, hlast1, hhd1⟩
  have hwalk := find_shortest_path_walk hhome
  rcases walk_to_steps hwalk with ⟨hchain2, hlast2⟩
  have hnodes : ((steps1 ++ (path_home.drop 1).dropLast.map passStep ++
      [passStep warehouse.location.id]).map Step.node_id) =
      steps1.map Step.node_id ++
        ((path_home.drop 1).dropLast ++ [warehouse.location.id]) := by
    simp only [List.map_append, List.map_map]
    simp [Function.comp_def, passStep]
  have hsplit := List.chain'_cons'.mp hchain2
  have h1ne : steps1.map Step.node_id ≠ [] := by
    intro h0; rw [h0] at hlast1; cases hlast1
  refine ⟨vehicle, warehouse, rfl, hwh, rfl, ?_, ?_, ?_⟩
  · simp only [hnodes, List.head?_append]
    have : (steps1.map Step.node_id).head? = some warehouse.location.id := by
      rw [List.head?_map, hhd1]
      simp
    rw [this]
    rfl
  · rw [hnodes, List.getLast?_append]
    simp [hlast2]
  · rw [hnodes]
    refine List.Chain'.append hch1 hsplit.2 ?_
    intro x hx y hy
    rw [hlast1, Option.mem_def, Option.some.injEq] at hx
    subst hx
    exact hsplit.1 y hy

/-- C3: For every environment, every route in the solution returned by the
final solver starts and ends at its vehicle's home warehouse node, and every
pair of consecutive steps either names the same node or two nodes joined by an
edge of the road graph's adjacency list (the steps are spliced from BFS paths
whose consecutive nodes are adjacent). -/
theorem C3_route_path_validity (env : Env) (r : RouteDict)
    (hr : r ∈ (solver env).routes) :
    ∃ vehicle warehouse,
      env.get_vehicle_by_id r.vehicle_id = some vehicle ∧
      env.get_warehouse_by_id vehicle.home_warehouse_id = some warehouse ∧
      (r.steps.map Step.node_id).head? = some warehouse.location.id ∧
      (r.steps.map Step.node_id).getLast? = some warehouse.location.id ∧
      List.Chain' (stepRel env.adjacency_list) (r.steps.map Step.node_id) := by
  rcases solverLoop_routes_spec env env.adjacency_list env.get_all_order_ids.length
      (sortedOrders env) env.get_available_vehicles ∅ [] r hr with h0 | ⟨vid, att, hcr⟩
  · simp at h0
  rcases create_route_path hcr with ⟨vehicle, warehouse, hveh, hwh, hrv, hhd, hlast, hch⟩
  exact ⟨vehicle, warehouse, by rw [hrv]; exact hveh, hwh, hhd, hlast, hch⟩

/-- Witness for C3 at a concrete input: the one route the solver produces on
`envW` starts and ends at node 0 and its consecutive steps are adjacent. -/
theorem C3_witness :
    routeW ∈ (solver envW).routes ∧
    ∃ vehicle warehouse,
      envW.get_vehicle_by_id routeW.vehicle_id = some vehicle ∧
      envW.get_warehouse_by_id vehicle.home_warehouse_id = some warehouse ∧
      (routeW.steps.map Step.node_id).head? = some warehouse.location.id ∧
      (routeW.steps.map Step.node_id).getLast? = some warehouse.location.id ∧
      List.Chain' (stepRel envW.adjacency_list) (routeW.steps.map Step.node_id) :=
  ⟨by rw [solver_envW_eval]; exact List.mem_singleton_self _,
   C3_route_path_validity envW routeW
     (by rw [solver_envW_eval]; exact List.mem_singleton_self _)⟩

end SolverFinal

namespace Solver3

open Logistics

/-- `accept_solution` of `VibeCoders_solver_3.py`.  The float costs and
`math.exp` are modelled over the reals; the Boolean the Python function
returns is the truth value of this proposition: `True` immediately when
`new_cost < old_cost`, and otherwise the draw of `random.random()` is
compared against `exp(-(new_cost - old_cost) / temperature)`. -/
def accept_solution (old_cost new_cost temperature r : ℝ) : Prop :=
  new_cost < old_cost ∨ r < Real.exp (-(new_cost - old_cost) / temperature)

/-- C9: For every `old_cost`, `new_cost` with `new_cost ≤ old_cost`, every
positive temperature, and every draw in `[0, 1)`, `accept_solution` accepts:
cost-equal candidates, not only strictly improving ones, are always accepted,
because a zero delta yields acceptance probability `exp 0 = 1`, above every
draw of `random.random()`. -/
theorem C9_accept_solution_accepts_non_worsening
    (old_cost new_cost temperature r : ℝ)
    (hle : new_cost ≤ old_cost) (htemp : 0 < temperature)
    (hr0 : 0 ≤ r) (hr1 : r < 1) :
    accept_solution old_cost new_cost temperature r := by
  have hnum : 0 ≤ -(new_cost - old_cost) / temperature :=
    div_nonneg (by linarith) htemp.le
  have hexp : Real.exp 0 ≤ Real.exp (-(new_cost - old_cost) / temperature) :=
    Real.exp_le_exp.mpr hnum
  rw [Real.exp_zero] at hexp
  exact Or.inr (lt_of_lt_of_le hr1 hexp)

/-- Witness for C9 at a concrete input: a cost-equal candidate
(`old = new = 1`) at temperature 1 is accepted at draw `1/2`. -/
theorem C9_witness :
    (1 : ℝ) ≤ 1 ∧ (0 : ℝ) < 1 ∧ (0 : ℝ) ≤ 1 / 2 ∧ (1 / 2 : ℝ) < 1 ∧
      accept_solution 1 1 1 (1 / 2) :=
  ⟨le_refl 1, by norm_num, by norm_num, by norm_num,
   C9_accept_solution_accepts_non_worsening 1 1 1 (1 / 2) (le_refl 1)
     (by norm_num) (by norm_num) (by norm_num)⟩

end Solver3

namespace SolverFinalX

open Logistics

/-- The environment interface as consumed by `VibeCoders_solver_final.py`, with
methods that may raise: each query returns `Except Unit α`, where
`Except.error` models a raised exception.  `get_road_network_data` directly
yields the `adjacency_list` entry the solver extracts from it. -/
structure EnvX where
  skus : String → Except Unit SKU
  get_order_requirements : String → Except Unit (List (String × ℕ))
  get_order_location : String → Except Unit (Option ℕ)
  get_vehicle_by_id : String → Except Unit (Option Vehicle)
  get_warehouse_by_id : String → Except Unit (Option Warehouse)
  get_warehouse_inventory : String → Except Unit (String → ℕ)
  get_distance : ℕ → ℕ → Except Unit (Option ℚ)
  get_all_order_ids : Except Unit (List String)
  get_available_vehicles : Except Unit (List String)
  get_road_network_data : Except Unit AdjList

/-- `calculate_order_size` over a raising environment (no `try` in the source:
faults propagate). -/
def calculate_order_size (env : EnvX) (order_id : String) :
    Except Unit (ℚ × ℚ) := do
  let requirements ← env.get_order_requirements order_id
  requirements.foldlM
    (fun acc p => do
      let sku ← env.skus p.1
      pure (acc.1 + sku.weight * (p.2 : ℚ), acc.2 + sku.volume * (p.2 : ℚ)))
    ((0 : ℚ), (0 : ℚ))

/-- `can_fit_orders` over a raising environment. -/
def can_fit_orders (env : EnvX) (vehicle_id : String) (order_ids : List String) :
    Except Unit Bool := do
  match ← env.get_vehicle_by_id vehicle_id with
  | none => pure false
  | some vehicle => do
    let sizes ← order_ids.mapM (calculate_order_size env)
    pure (decide ((sizes.map Prod.fst).sum ≤ vehicle.capacity_weight * (9 / 10)) &&
      decide ((sizes.map Prod.snd).sum ≤ vehicle.capacity_volume * (9 / 10)))

/-- `check_inventory` over a raising environment. -/
def check_inventory (env : EnvX) (warehouse_id : String) (order_ids : List String) :
    Except Unit Bool := do
  let reqs ← order_ids.mapM env.get_order_requirements
  let needs := reqs.flatMap id
  let inventory ← env.get_warehouse_inventory warehouse_id
  pure ((needs.map Prod.fst).all (fun s =>
    ((needs.filter (fun p => p.1 = s)).map Prod.snd).sum ≤ inventory s))

/-- `env.get_distance(current, order_node)` with a possibly missing node;
passing `None` to the oracle is modelled as the call raising. -/
def distCallX (env : EnvX) (a : ℕ) (b : Option ℕ) : Except Unit (Option ℚ) :=
  match b with
  | some n => env.get_distance a n
  | none => Except.error ()

/-- The `for oid in unvisited` scan of `optimize_delivery_sequence`; the
`get_order_location` call sits outside the `try`, so its faults propagate,
while oracle faults are swallowed by the `except: pass`. -/
def selectNearestX (env : EnvX) (current : ℕ) :
    List String → Option ℚ → Option String → Except Unit (Option String)
  | [], _, best => pure best
  | oid :: rest, minD, best => do
    let order_node ← env.get_order_location oid
    match SolverFinal.pyOrInf (distCallX env current order_node) with
    | none => selectNearestX env current rest minD best
    | some d =>
      if SolverFinal.optLt d minD then selectNearestX env current rest d (some oid)
      else selectNearestX env current rest minD best

theorem selectNearestX_mem (env : EnvX) (current : ℕ) :
    ∀ (l : List String) (minD : Option ℚ) (best : Option String) (o : String),
      selectNearestX env current l minD best = Except.ok (some o) →
      o ∈ l ∨ best = some o := by
  intro l
  induction l with
  | nil =>
    intro minD best o h
    simp only [selectNearestX, pure, Except.pure, Except.ok.injEq] at h
    exact Or.inr h
  | cons x rest ih =>
    intro minD best o h
    simp only [selectNearestX, bind, Except.bind] at h
    rcases hloc : env.get_order_location x with _ | node
    · rw [hloc] at h; cases h
    · rw [hloc] at h
      simp only at h
      rcases hd : SolverFinal.pyOrInf (distCallX env current node) with _ | d
      · simp only [hd] at h
        rcases ih _ _ _ h with h' | h'
        · exact Or.inl (List.mem_cons_of_mem _ h')
        · exact Or.inr h'
      · simp only [hd] at h
        by_cases hlt : SolverFinal.optLt d minD
        · rw [if_pos hlt] at h
          rcases ih _ _ _ h with h' | h'
          · exact Or.inl (List.mem_cons_of_mem _ h')
          · exact Or.inl (by simp_all)
        · rw [if_neg hlt] at h
          rcases ih _ _ _ h with h' | h'
          · exact Or.inl (List.mem_cons_of_mem _ h')
          · exact Or.inr h'

/-- The `while unvisited` loop of `optimize_delivery_sequence` over a raising
environment. -/
def optimizeLoopX (env : EnvX) (current : ℕ) (unvisited route : List String) :
    Except Unit (List String) :=
  match h : selectNearestX env current unvisited none none with
  | Except.error e => Except.error e
  | Except.ok (some o) =>
    have hmem : o ∈ unvisited := by
      rcases selectNearestX_mem env current unvisited none none o h with h' | h'
      · exact h'
      · cases h'
    have : (unvisited.erase o).length < unvisited.length := by
      rw [List.length_erase_of_mem hmem]
      exact Nat.sub_lt (List.length_pos.mpr (List.ne_nil_of_mem hmem)) Nat.one_pos
    do
      let loc ← env.get_order_location o
      optimizeLoopX env (loc.getD current) (unvisited.erase o) (route ++ [o])
  | Except.ok none => pure (route ++ unvisited)
termination_by unvisited.length

/-- `optimize_delivery_sequence` over a raising environment. -/
def optimize_delivery_sequence (env : EnvX) (warehouse_node : ℕ)
    (order_ids : List String) : Except Unit (List String) :=
  if order_ids.length ≤ 1 then pure order_ids
  else optimizeLoopX env warehouse_node order_ids []

/-- The estimation loop of `estimate_route_distance`; all oracle faults are
caught by the `try/except` and turned into the 50 km fallback. -/
def estimateLoopX (env : EnvX) : List (Option ℕ) → ℕ → ℚ → (ℕ × ℚ)
  | [], current, total => (current, total)
  | node :: rest, current, total =>
    match distCallX env current node with
    | Except.error _ => estimateLoopX env rest current (total + 50)
    | Except.ok none => estimateLoopX env rest (node.getD current) (total + 50)
    | Except.ok (some d) =>
      estimateLoopX env rest (node.getD current) (total + (if d = 0 then 50 else d))

/-- `estimate_route_distance` over a raising environment (never raises itself). -/
def estimate_route_distance (env : EnvX) (warehouse_node : ℕ)
    (order_nodes : List (Option ℕ)) : ℚ :=
  if order_nodes = [] then 0
  else
    let p := estimateLoopX env order_nodes warehouse_node 0
    match env.get_distance p.1 warehouse_node with
    | Except.error _ => p.2 + 50
    | Except.ok none => p.2 + 50
    | Except.ok (some d) => p.2 + (if d = 0 then 50 else d)

/-- The delivery step of one order over a raising environment. -/
def deliveryStepX (env : EnvX) (order_id : String) (order_node : ℕ) :
    Except Unit Step := do
  let requirements ← env.get_order_requirements order_id
  pure ⟨order_node, [],
    requirements.map (fun p => ⟨order_id, p.1, p.2⟩)⟩

/-- The `# Visit each order` loop of `create_route` over a raising
environment; the BFS itself is pure. -/
def buildLegsX (env : EnvX) (adj : AdjList) (maxNodes : ℕ) :
    List String → ℕ → List Step → Except Unit (Option (List Step × ℕ))
  | [], current, acc => pure (some (acc, current))
  | o :: rest, current, acc => do
    match ← env.get_order_location o with
    | none => pure none
    | some order_node =>
      match SolverFinal.find_shortest_path current order_node adj maxNodes with
      | none => pure none
      | some path => do
        let dstep ← deliveryStepX env o order_node
        buildLegsX env adj maxNodes rest order_node
          (acc ++ (path.drop 1).dropLast.map SolverFinal.passStep ++ [dstep])

/-- `create_route` over a raising environment. -/
def create_route (env : EnvX) (vehicle_id : String) (order_ids : List String)
    (adj : AdjList) : Except Unit (Option RouteDict) := do
  if order_ids = [] then pure none
  else
    match ← env.get_vehicle_by_id vehicle_id with
    | none => pure none
    | some vehicle =>
      match ← env.get_warehouse_by_id vehicle.home_warehouse_id with
      | none => pure none
      | some warehouse => do
        let home_node := warehouse.location.id
        if !(← can_fit_orders env vehicle_id order_ids) then pure none
        else if !(← check_inventory env vehicle.home_warehouse_id order_ids) then
          pure none
        else do
          let optimized_orders ← optimize_delivery_sequence env home_node order_ids
          let order_nodes ← optimized_orders.mapM env.get_order_location
          let estimated_distance := estimate_route_distance env home_node order_nodes
          if vehicle.max_distance * (8 / 10) < estimated_distance then pure none
          else do
            let reqs ← order_ids.mapM env.get_order_requirements
            let needs := reqs.flatMap id
            let step0 : Step := ⟨home_node,
              (SolverFinal.firstKeys (needs.map Prod.fst)).map
                (fun s => ⟨vehicle.home_warehouse_id, s,
                  ((needs.filter (fun p => p.1 = s)).map Prod.snd).sum⟩), []⟩
            match ← buildLegsX env adj 500 optimized_orders home_node [step0] with
            | none => pure none
            | some sc =>
              match SolverFinal.find_shortest_path sc.2 home_node adj 500 with
              | none => pure none
              | some path_home => pure (some ⟨vehicle_id,
                  sc.1 ++ (path_home.drop 1).dropLast.map SolverFinal.passStep ++
                    [SolverFinal.passStep home_node]⟩)

/-- The `# Try to pack orders` loop of `solver` over a raising environment. -/
def packOrdersX (env : EnvX) (vehicle_id wid : String) (max_orders : ℕ)
    (assigned : Finset String) : List String → List String →
      Except Unit (List String)
  | [], acc => pure acc
  | o :: rest, acc =>
    if o ∈ assigned then packOrdersX env vehicle_id wid max_orders assigned rest acc
    else if max_orders ≤ acc.length then pure acc
    else do
      if (← can_fit_orders env vehicle_id (acc ++ [o])) then
        if (← check_inventory env wid (acc ++ [o])) then
          packOrdersX env vehicle_id wid max_orders assigned rest (acc ++ [o])
        else packOrdersX env vehicle_id wid max_orders assigned rest acc
      else packOrdersX env vehicle_id wid max_orders assigned rest acc

/-- The attempts fallback loop of `solver` over a raising environment. -/
def tryAttemptsX (env : EnvX) (adj : AdjList) (vehicle_id : String) :
    List (List String) → Except Unit (Option (RouteDict × List String))
  | [] => pure none
  | att :: rest =>
    if att = [] then tryAttemptsX env adj vehicle_id rest
    else do
      match ← create_route env vehicle_id att adj with
      | some r => pure (some (r, att))
      | none => tryAttemptsX env adj vehicle_id rest

/-- The `# Process each vehicle` loop of `solver` over a raising environment. -/
def solverLoopX (env : EnvX) (adj : AdjList) (order_count : ℕ)
    (sorted_orders : List String) :
    List String → Finset String → List RouteDict → Except Unit (List RouteDict)
  | [], _, routes => pure routes
  | vid :: rest, assigned, routes =>
    if order_count ≤ assigned.card then pure routes
    else do
      match ← env.get_vehicle_by_id vid with
      | none => solverLoopX env adj order_count sorted_orders rest assigned routes
      | some vehicle => do
        let vehicle_orders ← packOrdersX env vid vehicle.home_warehouse_id
          (SolverFinal.maxOrdersFor vehicle.type) assigned sorted_orders []
        match ← tryAttemptsX env adj vid [vehicle_orders,
            vehicle_orders.take (vehicle_orders.length / 2),
            vehicle_orders.take 1] with
        | some ra =>
          solverLoopX env adj order_count sorted_orders rest
            (assigned ∪ ra.2.toFinset) (routes ++ [ra.1])
        | none => solverLoopX env adj order_count sorted_orders rest assigned routes

/-- `solver` of `VibeCoders_solver_final.py` over a raising environment.  The
source has no `try/except` at this level, so any fault of the environment
queries propagates to the caller. -/
def solver (env : EnvX) : Except Unit Solution := do
  let order_ids ← env.get_all_order_ids
  let vehicle_ids ← env.get_available_vehicles
  let adjacency_list ← env.get_road_network_data
  let sizes ← order_ids.mapM (fun oid => do
    let wv ← calculate_order_size env oid
    pure (oid, wv))
  let sorted_orders := (sizes.mergeSort (fun a b => decide (b.2.1 ≤ a.2.1))).map Prod.fst
  let routes ← solverLoopX env adjacency_list order_ids.length sorted_orders
    vehicle_ids ∅ []
  pure ⟨routes⟩

/-- An environment whose `get_all_order_ids` (and every other query) raises. -/
def badEnv : EnvX where
  skus := fun _ => Except.error ()
  get_order_requirements := fun _ => Except.error ()
  get_order_location := fun _ => Except.error ()
  get_vehicle_by_id := fun _ => Except.error ()
  get_warehouse_by_id := fun _ => Except.error ()
  get_warehouse_inventory := fun _ => Except.error ()
  get_distance := fun _ _ => Except.error ()
  get_all_order_ids := Except.error ()
  get_available_vehicles := Except.error ()
  get_road_network_data := Except.error ()

/-- C4: the final solver's top level propagates environment faults instead of
returning the empty solution: on an environment whose `get_all_order_ids`
raises, `solver` raises.  (The predecessor `VibeCoders_solver_4.py` wraps its
entire solve in `try/except` and returns `{"routes": []}`; the final
submission dropped the guard, contradicting its own "robust error handling"
docstring and the spec's error-handling design.) -/
theorem C4_solver_final_propagates_fault :
    solver badEnv = Except.error () := rfl

end SolverFinalX

namespace Solver3

open Logistics

/-- All nodes that can ever enter the BFS visited set beyond the start node:
every neighbour mentioned by the adjacency dictionary. -/
def adjPool (adj : AdjList) : List ℕ := (adj.flatMap Prod.snd).dedup

/-- The number of pool nodes not yet visited, the primary BFS termination
measure. -/
def unvisCount (adj : AdjList) (visited : List ℕ) : ℕ :=
  ((adjPool adj).filter (fun n => decide (n ∉ visited))).length

theorem adjGet_subset_pool (adj : AdjList) (cur : ℕ) :
    ∀ n ∈ adjGet adj cur, n ∈ adjPool adj := by
  intro n hn
  unfold adjGet at hn
  rcases hlk : List.lookup cur adj with _ | l
  · rw [hlk] at hn; cases hn
  · rw [hlk] at hn
    simp only [Option.getD_some] at hn
    rcases List.lookup_eq_some_iff.mp hlk with ⟨l1, l2, rfl, _⟩
    unfold adjPool
    rw [List.mem_dedup]
    exact List.mem_flatMap.mpr ⟨(cur, l), by simp, hn⟩

theorem countP_strict_lt {l : List ℕ} {p q : ℕ → Bool}
    (hmono : ∀ x ∈ l, p x = true → q x = true) {n : ℕ} (hn : n ∈ l)
    (hp : p n = false) (hq : q n = true) :
    l.countP p < l.countP q := by
  induction l with
  | nil => cases hn
  | cons x t ih =>
    rcases List.mem_cons.mp hn with rfl | hnt
    · rw [List.countP_cons, List.countP_cons, hp, hq]
      simp only [Bool.false_eq_true, if_false, if_true, Nat.add_zero]
      have := List.countP_mono_left (l := t)
        (fun x hx => hmono x (List.mem_cons_of_mem _ hx))
      omega
    · rw [List.countP_cons, List.countP_cons]
      have ht := ih (fun x hx => hmono x (List.mem_cons_of_mem _ hx)) hnt
      have hx := hmono x (List.mem_cons_self _ _)
      rcases hpx : p x with _ | _
      · rcases hqx : q x with _ | _ <;>
        · simp only [Bool.false_eq_true, if_false, if_true, Nat.add_zero]
          omega
      · rw [hx hpx]
        simp only [if_true]
        omega

theorem unvisCount_le (adj : AdjList) (visited : List ℕ) (new : List ℕ) :
    unvisCount adj (visited ++ new) ≤ unvisCount adj visited := by
  unfold unvisCount
  rw [← List.countP_eq_length_filter, ← List.countP_eq_length_filter]
  refine List.countP_mono_left ?_
  intro x _ hx
  simp only [decide_eq_true_eq] at hx ⊢
  intro hmem
  exact hx (List.mem_append.mpr (Or.inl hmem))

theorem unvisCount_lt (adj : AdjList) (visited : List ℕ) {n : ℕ}
    (hpool : n ∈ adjPool adj) (hnv : n ∉ visited) (rest : List ℕ) :
    unvisCount adj (visited ++ n :: rest) < unvisCount adj visited := by
  unfold unvisCount
  rw [← List.countP_eq_length_filter, ← List.countP_eq_length_filter]
  refine countP_strict_lt ?_ hpool ?_ ?_
  · intro x _ hx
    simp only [decide_eq_true_eq] at hx ⊢
    intro hmem
    exact hx (List.mem_append.mpr (Or.inl hmem))
  · simp
  · exact decide_eq_true hnv

theorem bfs_expand_measure (adj : AdjList) (endNode : ℕ) (path : List ℕ) :
    ∀ (ns visited : List ℕ) (queue : List (ℕ × List ℕ))
      (v' : List ℕ) (q' : List (ℕ × List ℕ)),
      (∀ n ∈ ns, n ∈ adjPool adj) →
      SolverFinal.bfs_expand endNode path ns visited queue = Sum.inr (v', q') →
      unvisCount adj v' < unvisCount adj visited ∨ (v' = visited ∧ q' = queue) := by
  intro ns
  induction ns with
  | nil =>
    intro visited queue v' q' _ h
    simp only [SolverFinal.bfs_expand, Sum.inr.injEq, Prod.mk.injEq] at h
    exact Or.inr ⟨h.1.symm, h.2.symm⟩
  | cons n rest ih =>
    intro visited queue v' q' hns h
    simp only [SolverFinal.bfs_expand] at h
    split at h
    · exact ih visited queue v' q' (fun x hx => hns x (List.mem_cons_of_mem _ hx)) h
    · split at h
      · cases h
      · next hnv _ =>
        rcases ih (visited ++ [n]) (queue ++ [(n, path ++ [n])]) v' q'
          (fun x hx => hns x (List.mem_cons_of_mem _ hx)) h with hlt | ⟨rfl, rfl⟩
        · refine Or.inl (lt_of_lt_of_le hlt ?_)
          exact le_of_lt (unvisCount_lt adj visited
            (hns n (List.mem_cons_self _ _)) hnv [])
        · exact Or.inl (unvisCount_lt adj visited
            (hns n (List.mem_cons_self _ _)) hnv [])

/-- The `while queue` loop of `find_shortest_path` in `VibeCoders_solver_3.py`:
no pop budget, instead paths at the `max_length` cap are not extended.  The
inner neighbour loop is `SolverFinal.bfs_expand`, which is letter-for-letter
identical in the two files.  Termination holds because every expansion either
visits a new adjacency-pool node or shrinks the queue. -/
def bfs3_loop (adj : AdjList) (endNode maxLength : ℕ) :
    List (ℕ × List ℕ) → List ℕ → Option (List ℕ)
  | [], _ => none
  | (cur, path) :: queue, visited =>
    if maxLength ≤ path.length then bfs3_loop adj endNode maxLength queue visited
    else
      match h : SolverFinal.bfs_expand endNode path (adjGet adj cur) visited queue with
      | Sum.inl found => some found
      | Sum.inr vq =>
        have : unvisCount adj vq.1 < unvisCount adj visited ∨
            (vq.1 = visited ∧ vq.2 = queue) :=
          bfs_expand_measure adj endNode path (adjGet adj cur) visited queue
            vq.1 vq.2 (adjGet_subset_pool adj cur) (by rw [h])
        bfs3_loop adj endNode maxLength vq.2 vq.1
termination_by q visited => (unvisCount adj visited, q.length)
decreasing_by
  · exact Prod.Lex.right _ (Nat.lt_succ_self _)
  · rcases this with hlt | ⟨h1, h2⟩
    · exact Prod.Lex.left _ _ hlt
    · rw [h1, h2]
      exact Prod.Lex.right _ (Nat.lt_succ_self _)

/-- `find_shortest_path` of `VibeCoders_solver_3.py`: BFS with a path-length
cap (`if len(path) >= max_length: continue`). -/
def find_shortest_path (start_node end_node : ℕ) (adj : AdjList)
    (max_length : ℕ := 500) : Option (List ℕ) :=
  if start_node = end_node then some [start_node]
  else bfs3_loop adj end_node max_length [(start_node, [start_node])] [start_node]

end Solver3

namespace Solver3

open Logistics

/-- `can_fit_orders` of `VibeCoders_solver_3.py`: full capacity, no margin.
`calculate_order_size` is letter-for-letter the final solver's, so the model
shares that definition. -/
def can_fit_orders (env : Env) (vehicle_id : String) (order_ids : List String) :
    Bool :=
  match env.get_vehicle_by_id vehicle_id with
  | none => false
  | some vehicle =>
    decide ((order_ids.map (fun o => (SolverFinal.calculate_order_size env o).1)).sum ≤
      vehicle.capacity_weight) &&
    decide ((order_ids.map (fun o => (SolverFinal.calculate_order_size env o).2)).sum ≤
      vehicle.capacity_volume)

/-- `check_warehouse_inventory` of `VibeCoders_solver_3.py` is letter-for-letter
`check_inventory` of the final solver; the model shares the definition. -/
def check_warehouse_inventory (env : Env) (warehouse_id : String)
    (order_ids : List String) : Bool :=
  SolverFinal.check_inventory env warehouse_id order_ids

/-- The `Route` class: vehicle, home warehouse and node, order list, cached
cost/distance and validity flag. -/
structure Route where
  vehicle_id : String
  home_warehouse_id : String
  home_node : ℕ
  orders : List String
  cost : ℚ
  distance : ℚ
  valid : Bool
deriving DecidableEq

/-- `Route.__init__`: empty order list, zero cost and distance, valid. -/
def Route.mkNew (vehicle_id home_warehouse_id : String) (home_node : ℕ) : Route :=
  ⟨vehicle_id, home_warehouse_id, home_node, [], 0, 0, true⟩

/-- `Route.add_order`: append to the order list. -/
def Route.add_order (r : Route) (o : String) : Route :=
  {r with orders := r.orders ++ [o]}

/-- `Route.remove_order`: remove the first occurrence, if present. -/
def Route.remove_order (r : Route) (o : String) : Route :=
  {r with orders := r.orders.erase o}

/-- `Route.copy` is the identity in this value-semantics model (the Python
deep copy exists only to avoid aliasing of the mutable object). -/
def Route.copy (r : Route) : Route := r

/-- The per-order leg loop of `evaluate_route_cost`: for each order the BFS
path must exist and the oracle distance from the previous stop must be
defined; `none` models the `float('inf')` early returns. -/
def evalLoop (env : Env) (adj : AdjList) :
    List String → ℕ → ℚ → Option (ℕ × ℚ)
  | [], current, total => some (current, total)
  | o :: rest, current, total =>
    match env.get_order_location o with
    | none => none
    | some order_node =>
      match find_shortest_path current order_node adj with
      | none => none
      | some _ =>
        match env.get_distance current order_node with
        | Except.error _ => none
        | Except.ok none => none
        | Except.ok (some d) => evalLoop env adj rest order_node (total + d)

/-- `evaluate_route_cost`: recompute a route's oracle distance.  Returns the
cost (`none` = `inf`) and the route, whose `distance`/`cost` fields are
updated only on success; the Python `return float('inf')` paths and the
empty-orders `return 0.0` leave the route object untouched. -/
def evaluate_route_cost (env : Env) (route : Route) (adj : AdjList) :
    Option ℚ × Route :=
  if route.orders = [] then (some 0, route)
  else
    match evalLoop env adj route.orders route.home_node 0 with
    | none => (none, route)
    | some (current, total) =>
      match env.get_distance current route.home_node with
      | Except.error _ => (none, route)
      | Except.ok none => (none, route)
      | Except.ok (some d) =>
        (some (total + d), {route with distance := total + d, cost := total + d})

/-- The `# Steps 2-N: Visit each order` loop of `create_route_dict` (same
splicing as the final solver's, but with this file's BFS and no sequencing). -/
def buildLegs (env : Env) (adj : AdjList) :
    List String → ℕ → List Step → Option (List Step × ℕ)
  | [], current, acc => some (acc, current)
  | o :: rest, current, acc =>
    match env.get_order_location o with
    | none => none
    | some order_node =>
      match find_shortest_path current order_node adj with
      | none => none
      | some path =>
        buildLegs env adj rest order_node
          (acc ++ (path.drop 1).dropLast.map SolverFinal.passStep ++
            [SolverFinal.deliveryStep env o order_node])

/-- `create_route_dict` of `VibeCoders_solver_3.py`: convert a `Route` into
the environment route dictionary.  No distance check of any kind is made. -/
def create_route_dict (env : Env) (route : Route) (adj : AdjList) :
    Option RouteDict :=
  if route.orders = [] then none
  else match env.get_vehicle_by_id route.vehicle_id with
  | none => none
  | some _ =>
    if ¬ can_fit_orders env route.vehicle_id route.orders then none
    else if ¬ check_warehouse_inventory env route.home_warehouse_id route.orders then
      none
    else
      let step0 : Step := ⟨route.home_node,
        SolverFinal.pickupList env route.home_warehouse_id route.orders, []⟩
      match buildLegs env adj route.orders route.home_node [step0] with
      | none => none
      | some sc =>
        match find_shortest_path sc.2 route.home_node adj with
        | none => none
        | some path_home =>
          some ⟨route.vehicle_id,
            sc.1 ++ (path_home.drop 1).dropLast.map SolverFinal.passStep ++
              [SolverFinal.passStep route.home_node]⟩

/-- The order-packing loop of pass 1 of `construct_initial_solution`. -/
def packOrders (env : Env) (vehicle_id wid : String) (max_orders : ℕ)
    (assigned : Finset String) : List String → List String → List String
  | [], acc => acc
  | o :: rest, acc =>
    if o ∈ assigned then packOrders env vehicle_id wid max_orders assigned rest acc
    else if max_orders ≤ acc.length then acc
    else if ¬ can_fit_orders env vehicle_id (acc ++ [o]) then
      packOrders env vehicle_id wid max_orders assigned rest acc
    else if ¬ check_warehouse_inventory env wid (acc ++ [o]) then
      packOrders env vehicle_id wid max_orders assigned rest acc
    else packOrders env vehicle_id wid max_orders assigned rest (acc ++ [o])

/-- The `{'LightVan': 4, 'MediumTruck': 5, 'HeavyTruck': 5}.get(vehicle.type, 4)`
cap of `construct_initial_solution`. -/
def maxOrdersFor3 (t : String) : ℕ :=
  if t = "LightVan" then 4
  else if t = "MediumTruck" then 5
  else if t = "HeavyTruck" then 5
  else 4

/-- The full/half/single fallback of pass 1: the `Route`'s order list after
the fallback cascade together with its route dictionary, if any attempt
succeeded. -/
def tryFallbacks (env : Env) (adj : AdjList) (base : Route)
    (vehicle_orders : List String) : Option (Route × RouteDict) :=
  let rFull := {base with orders := vehicle_orders}
  match create_route_dict env rFull adj with
  | some rd => some (rFull, rd)
  | none =>
    let afterHalf :=
      if 2 < vehicle_orders.length then
        let rHalf := {base with orders := vehicle_orders.take (vehicle_orders.length / 2)}
        match create_route_dict env rHalf adj with
        | some rd => some (rHalf, rd)
        | none => none
      else none
    match afterHalf with
    | some p => some p
    | none =>
      if 0 < vehicle_orders.length then
        let rOne := {base with orders := vehicle_orders.take 1}
        match create_route_dict env rOne adj with
        | some rd => some (rOne, rd)
        | none => none
      else none

/-- Pass 1 of `construct_initial_solution`: multi-order assignment per
vehicle. -/
def constructPass1 (env : Env) (adj : AdjList) (order_count : ℕ)
    (sorted_orders : List String) :
    List String → List Route → Finset String → Finset String →
      (List Route × Finset String × Finset String)
  | [], routes, assigned, used => (routes, assigned, used)
  | vid :: rest, routes, assigned, used =>
    if order_count ≤ assigned.card then (routes, assigned, used)
    else match env.get_vehicle_by_id vid with
    | none => constructPass1 env adj order_count sorted_orders rest routes assigned used
    | some vehicle =>
      match env.get_warehouse_by_id vehicle.home_warehouse_id with
      | none => constructPass1 env adj order_count sorted_orders rest routes assigned used
      | some warehouse =>
        let vehicle_orders := packOrders env vid warehouse.id
          (maxOrdersFor3 vehicle.type) assigned sorted_orders []
        if vehicle_orders = [] then
          constructPass1 env adj order_count sorted_orders rest routes assigned used
        else
          let base := Route.mkNew vid warehouse.id warehouse.location.id
          match tryFallbacks env adj base vehicle_orders with
          | none => constructPass1 env adj order_count sorted_orders rest routes assigned used
          | some rp =>
            if rp.1.orders = [] then
              constructPass1 env adj order_count sorted_orders rest routes assigned used
            else
              let rEval := (evaluate_route_cost env rp.1 adj).2
              constructPass1 env adj order_count sorted_orders rest
                (routes ++ [rEval]) (assigned ∪ rp.1.orders.toFinset) (used ∪ {vid})

/-- The inner `for order_id in remaining[:]` scan of pass 2: the first
remaining order for which a fresh single-order route materialises. -/
def pass2Scan (env : Env) (adj : AdjList) (base : Route) :
    List String → Option (Route × String)
  | [] => none
  | o :: rest =>
    let r := base.add_order o
    match create_route_dict env r adj with
    | some _ => some (r, o)
    | none => pass2Scan env adj base rest

/-- Pass 2 of `construct_initial_solution`: one salvage route per unused
vehicle. -/
def constructPass2 (env : Env) (adj : AdjList) :
    List String → List String → List Route → Finset String →
      (List Route × Finset String)
  | [], _, routes, assigned => (routes, assigned)
  | vid :: rest, remaining, routes, assigned =>
    if remaining = [] then (routes, assigned)
    else match env.get_vehicle_by_id vid with
    | none => constructPass2 env adj rest remaining routes assigned
    | some vehicle =>
      match env.get_warehouse_by_id vehicle.home_warehouse_id with
      | none => constructPass2 env adj rest remaining routes assigned
      | some warehouse =>
        let base := Route.mkNew vid warehouse.id warehouse.location.id
        match pass2Scan env adj base remaining with
        | none => constructPass2 env adj rest remaining routes assigned
        | some ro =>
          let rEval := (evaluate_route_cost env ro.1 adj).2
          constructPass2 env adj rest (remaining.erase ro.2)
            (routes ++ [rEval]) (assigned ∪ {ro.2})

/-- `construct_initial_solution` of `VibeCoders_solver_3.py`. -/
def construct_initial_solution (env : Env) (adj : AdjList) :
    List Route × Finset String :=
  let sorted_orders := SolverFinal.sortedOrders env
  let p1 := constructPass1 env adj env.get_all_order_ids.length sorted_orders
    env.get_available_vehicles [] ∅ ∅
  let remaining := sorted_orders.filter (fun o => o ∉ p1.2.1)
  let unused := env.get_available_vehicles.filter (fun v => v ∉ p1.2.2)
  let p2 := constructPass2 env adj unused remaining p1.1 p1.2.1
  p2

end Solver3

namespace Solver3

open Logistics

/-- Replace the route at one index, leaving the rest unchanged (the model of
mutating one aliased `Route` object inside the routes list). -/
def modifyIdx (f : Route → Route) (i : ℕ) (rs : List Route) : List Route :=
  rs.enum.map (fun p => if p.1 = i then f p.2 else p.2)

/-- `cost_increase < best_cost_increase` with the initial
`best_cost_increase = float('inf')` modelled as `none`. -/
def ltInf (a : ℚ) (b : Option ℚ) : Bool :=
  match b with
  | none => true
  | some x => decide (a < x)

/-- The inner route scan of `greedy_insertion`: the index of the first route
attaining the strictly smallest feasible cost increase for `o`. -/
def giScan (env : Env) (adj : AdjList) (o : String) :
    List (ℕ × Route) → Option ℚ → Option ℕ → Option ℕ
  | [], _, best => best
  | (i, route) :: rest, bestInc, best =>
    if ¬ can_fit_orders env route.vehicle_id (route.orders ++ [o]) then
      giScan env adj o rest bestInc best
    else if ¬ check_warehouse_inventory env route.home_warehouse_id
        (route.orders ++ [o]) then
      giScan env adj o rest bestInc best
    else
      match (evaluate_route_cost env (route.add_order o) adj).1 with
      | none => giScan env adj o rest bestInc best
      | some new_cost =>
        if ltInf (new_cost - route.cost) bestInc then
          giScan env adj o rest (some (new_cost - route.cost)) (some i)
        else giScan env adj o rest bestInc best

/-- `greedy_insertion`: iterate over the snapshot `unassigned[:]`, inserting
each order into its cheapest feasible route (re-evaluating that route) and
removing it from the live unassigned list. -/
def greedy_insertion (env : Env) (adj : AdjList) :
    List String → List String → List Route → List String × List Route
  | [], un, routes => (un, routes)
  | o :: snap, un, routes =>
    match giScan env adj o routes.enum none none with
    | some i =>
      greedy_insertion env adj snap (un.erase o)
        (modifyIdx (fun r => (evaluate_route_cost env (r.add_order o) adj).2) i routes)
    | none => greedy_insertion env adj snap un routes

/-- The feasible insertion cost increases of one order across the routes
(the `insertion_costs` list of `regret_k_insertion`), each with its route
index. -/
def insertion_costs (env : Env) (adj : AdjList) (o : String)
    (routes : List Route) : List (ℚ × ℕ) :=
  routes.enum.filterMap (fun p =>
    if ¬ can_fit_orders env p.2.vehicle_id (p.2.orders ++ [o]) then none
    else if ¬ check_warehouse_inventory env p.2.home_warehouse_id
        (p.2.orders ++ [o]) then none
    else match (evaluate_route_cost env (p.2.add_order o) adj).1 with
      | none => none
      | some nc => some (nc - p.2.cost, p.1))

/-- `insertion_costs.sort(key=lambda x: x[0])`: stable ascending sort by cost
increase. -/
def sortedCosts (env : Env) (adj : AdjList) (o : String)
    (routes : List Route) : List (ℚ × ℕ) :=
  (insertion_costs env adj o routes).mergeSort (fun a b => decide (a.1 ≤ b.1))

/-- The regret of one sorted cost list:
`sum(costs[i][0] - costs[0][0] for i in range(1, min(k, len(costs))))`. -/
def regretOf (k : ℕ) (cs : List (ℚ × ℕ)) : ℚ :=
  match cs with
  | [] => 0
  | c0 :: restC => ((restC.take (k - 1)).map (fun c => c.1 - c0.1)).sum

/-- The per-round regret list of `regret_k_insertion`: one entry per
unassigned order with at least one feasible slot, carrying the regret and the
best route's index. -/
def regrets (env : Env) (adj : AdjList) (k : ℕ) (un : List String)
    (routes : List Route) : List (ℚ × String × ℕ) :=
  un.filterMap (fun o =>
    match sortedCosts env adj o routes with
    | [] => none
    | c0 :: restC => some (regretOf k (c0 :: restC), o, c0.2))

/-- `regrets.sort(key=lambda x: x[0], reverse=True)` followed by taking
`regrets[0]`: the head of a stable descending sort is the first entry
attaining the maximal regret, which this fold computes directly. -/
def pickMaxRegret : List (ℚ × String × ℕ) → Option (ℚ × String × ℕ)
  | [] => none
  | x :: rest => some (rest.foldl (fun b y => if b.1 < y.1 then y else b) x)

theorem pickMaxRegret_mem :
    ∀ (l : List (ℚ × String × ℕ)) (x : ℚ × String × ℕ),
      pickMaxRegret l = some x → x ∈ l := by
  have hfold : ∀ (rest : List (ℚ × String × ℕ)) (b : ℚ × String × ℕ)
      (l0 : List (ℚ × String × ℕ)), b ∈ l0 → (∀ y ∈ rest, y ∈ l0) →
      rest.foldl (fun b y => if b.1 < y.1 then y else b) b ∈ l0 := by
    intro rest
    induction rest with
    | nil => intro b l0 hb _; exact hb
    | cons y t ih =>
      intro b l0 hb hr
      simp only [List.foldl_cons]
      by_cases hlt : b.1 < y.1
      · rw [if_pos hlt]
        exact ih y l0 (hr y (List.mem_cons_self _ _))
          (fun z hz => hr z (List.mem_cons_of_mem _ hz))
      · rw [if_neg hlt]
        exact ih b l0 hb (fun z hz => hr z (List.mem_cons_of_mem _ hz))
  intro l x h
  match l, h with
  | y :: rest, h =>
    simp only [pickMaxRegret, Option.some.injEq] at h
    subst h
    exact hfold rest y (y :: rest) (List.mem_cons_self _ _)
      (fun z hz => List.mem_cons_of_mem _ hz)

theorem regrets_order_mem (env : Env) (adj : AdjList) (k : ℕ)
    (un : List String) (routes : List Route) (x : ℚ × String × ℕ)
    (h : x ∈ regrets env adj k un routes) : x.2.1 ∈ un := by
  unfold regrets at h
  rcases List.mem_filterMap.mp h with ⟨o, ho, hf⟩
  rcases hcs : sortedCosts env adj o routes with _ | ⟨c0, restC⟩
  · rw [hcs] at hf; cases hf
  · rw [hcs] at hf
    simp only [Option.some.injEq] at hf
    rw [← hf]
    exact ho

/-- The `while unassigned` loop of `regret_k_insertion`, additionally
returning the sequence of inserted orders (the observation used to state the
regret-ordering claims; the Python function records nothing). -/
def regretLoop (env : Env) (adj : AdjList) (k : ℕ)
    (un : List String) (routes : List Route) (trace : List String) :
    List String × List Route × List String :=
  if un = [] then (un, routes, trace)
  else
    match h : pickMaxRegret (regrets env adj k un routes) with
    | none => (un, routes, trace)
    | some x =>
      have hmem : x.2.1 ∈ un :=
        regrets_order_mem env adj k un routes x (pickMaxRegret_mem _ x h)
      have : (un.erase x.2.1).length < un.length := by
        rw [List.length_erase_of_mem hmem]
        exact Nat.sub_lt (List.length_pos.mpr (List.ne_nil_of_mem hmem)) Nat.one_pos
      regretLoop env adj k (un.erase x.2.1)
        (modifyIdx (fun r => (evaluate_route_cost env (r.add_order x.2.1) adj).2)
          x.2.2 routes)
        (trace ++ [x.2.1])
termination_by un.length

/-- `regret_k_insertion` of `VibeCoders_solver_3.py` (default `k = 2`). -/
def regret_k_insertion (env : Env) (adj : AdjList) (un : List String)
    (routes : List Route) (k : ℕ := 2) : List String × List Route × List String :=
  regretLoop env adj k un routes []

/-- The index of the first non-empty route attaining the maximal cost: the
head of the stable descending sort of `routes_with_cost`. -/
def longestIdx (routes : List Route) : Option ℕ :=
  match routes.enum.filter (fun p => ¬ p.2.orders = []) with
  | [] => none
  | x :: rest => some ((rest.foldl (fun b y => if b.2.cost < y.2.cost then y else b) x).1)

/-- The inner `for other_route in routes` scan of `balance_routes` for one
order of the longest route: the first admissible move is committed. -/
def balanceScan (env : Env) (adj : AdjList) (li : ℕ) (o : String)
    (routes : List Route) : List (ℕ × Route) → Option (List Route)
  | [] => none
  | (i, other) :: rest =>
    if i = li then balanceScan env adj li o routes rest
    else
      match routes.get? li with
      | none => none
      | some longest =>
        if longest.cost ≤ other.cost then balanceScan env adj li o routes rest
        else if ¬ can_fit_orders env other.vehicle_id (other.orders ++ [o]) then
          balanceScan env adj li o routes rest
        else if ¬ check_warehouse_inventory env other.home_warehouse_id
            (other.orders ++ [o]) then
          balanceScan env adj li o routes rest
        else
          match (evaluate_route_cost env (longest.remove_order o) adj).1,
              (evaluate_route_cost env (other.add_order o) adj).1 with
          | some cl, some co =>
            if max cl co < longest.cost then
              some (modifyIdx (fun r => (evaluate_route_cost env (r.add_order o) adj).2) i
                (modifyIdx (fun r => (evaluate_route_cost env (r.remove_order o) adj).2)
                  li routes))
            else balanceScan env adj li o routes rest
          | _, _ => balanceScan env adj li o routes rest

/-- The outer `for order_id in longest_route.orders[:]` loop of
`balance_routes`. -/
def balanceLoop (env : Env) (adj : AdjList) (li : ℕ) :
    List String → List Route → List Route
  | [], routes => routes
  | o :: snap, routes =>
    match balanceScan env adj li o routes routes.enum with
    | some routes' => balanceLoop env adj li snap routes'
    | none => balanceLoop env adj li snap routes

/-- `balance_routes` of `VibeCoders_solver_3.py`: try to move orders off the
costliest route whenever that strictly lowers the maximum of the two touched
route costs. -/
def balance_routes (env : Env) (adj : AdjList) (routes : List Route) :
    List Route :=
  if routes.length < 2 then routes
  else match longestIdx routes with
  | none => routes
  | some li =>
    match routes.get? li with
    | none => routes
    | some longest =>
      if longest.orders = [] then routes
      else balanceLoop env adj li longest.orders routes

/-- `random_removal`: the `random.sample` draw is an oracle parameter; each
sampled order is removed from every route. -/
def random_removal (routes : List Route) (num_remove : ℕ)
    (sample : List String → ℕ → List String) : List String × List Route :=
  let all_orders := routes.flatMap Route.orders
  if all_orders = [] then ([], routes)
  else
    let removed := sample all_orders (min num_remove all_orders.length)
    (removed, routes.map (fun r => removed.foldl Route.remove_order r))

/-- `worst_removal`: remove the orders whose home-to-order oracle distance is
largest.  The Python `if order_node:` treats node `0` as falsy, and an oracle
fault skips the order (`except: pass`); `or 0` turns a `None` distance into 0. -/
def worst_removal (env : Env) (routes : List Route) (adj : AdjList)
    (num_remove : ℕ) : List String × List Route :=
  let order_costs := routes.enum.flatMap (fun p =>
    if p.2.orders = [] then []
    else p.2.orders.filterMap (fun o =>
      match env.get_order_location o with
      | none => none
      | some node =>
        if node = 0 then none
        else match env.get_distance p.2.home_node node with
          | Except.error _ => none
          | Except.ok none => some (o, (0 : ℚ), p.1)
          | Except.ok (some d) => some (o, d, p.1)))
  let sorted := order_costs.mergeSort (fun a b => decide (b.2.1 ≤ a.2.1))
  let chosen := sorted.take (min num_remove sorted.length)
  (chosen.map (fun c => c.1),
    chosen.foldl (fun rs c => modifyIdx (fun r => r.remove_order c.1) c.2.2 rs) routes)

/-- `a ≤ b` over distances where `none` is `float('inf')`. -/
def leInf : Option ℚ → Option ℚ → Bool
  | some a, some b => decide (a ≤ b)
  | some _, none => true
  | none, some _ => false
  | none, none => true

/-- `related_removal`: remove the orders nearest to a randomly chosen seed
(`pickSeed` indexes the choice); a missing or node-0 seed location falls back
to `random_removal`.  `or float('inf')` lifts `None` and `0` distances to
infinity, and an oracle fault skips the order. -/
def related_removal (env : Env) (routes : List Route) (num_remove : ℕ)
    (pickSeed : ℕ) (sample : List String → ℕ → List String) :
    List String × List Route :=
  let all_orders := routes.enum.flatMap (fun p => p.2.orders.map (fun o => (o, p.1)))
  if all_orders = [] then ([], routes)
  else
    let seed := (all_orders.get? (pickSeed % all_orders.length)).getD ("", 0)
    match env.get_order_location seed.1 with
    | none => random_removal routes num_remove sample
    | some sn =>
      if sn = 0 then random_removal routes num_remove sample
      else
        let order_distances := routes.enum.flatMap (fun p =>
          p.2.orders.filterMap (fun o =>
            match env.get_order_location o with
            | none => none
            | some node =>
              if node = 0 then none
              else match env.get_distance sn node with
                | Except.error _ => none
                | Except.ok none => some (o, (none : Option ℚ), p.1)
                | Except.ok (some d) =>
                  some (o, if d = 0 then none else some d, p.1)))
        let sorted := order_distances.mergeSort (fun a b => leInf a.2.1 b.2.1)
        let chosen := sorted.take (min num_remove sorted.length)
        (chosen.map (fun c => c.1),
          chosen.foldl (fun rs c => modifyIdx (fun r => r.remove_order c.1) c.2.2 rs)
            routes)

end Solver3

namespace Solver3

open Logistics

/-- The mutable locals of `alns_optimize`'s main loop. -/
structure AlnsState where
  routes : List Route
  best_routes : List Route
  best_cost : ℚ
  best_fulfillment : ℕ
  assigned : Finset String
  improvements : ℕ

/-- The oracles replacing `time.time()` and `random.choice` in the loop:
`timeLeft i` is the `while time.time() - start_time < time_limit` check at
iteration `i`, and the pick functions choose indices (taken modulo the list
length). -/
structure AlnsOracle where
  timeLeft : ℕ → Bool
  pickSource : ℕ → ℕ
  pickOrder : ℕ → ℕ

/-- `sum(len(r.orders) for r in routes)`. -/
def sumLen (rs : List Route) : ℕ := (rs.map (fun r => r.orders.length)).sum

/-- `sum(r.cost for r in routes)`. -/
def sumCost (rs : List Route) : ℚ := (rs.map Route.cost).sum

/-- The `for route in routes: evaluate_route_cost(...)` recomputation sweeps. -/
def reEval (env : Env) (adj : AdjList) (rs : List Route) : List Route :=
  rs.map (fun r => (evaluate_route_cost env r adj).2)

/-- `all_assigned = set(); for route in routes: all_assigned.update(route.orders)`. -/
def unionOrders (rs : List Route) : Finset String :=
  rs.foldl (fun acc r => acc ∪ r.orders.toFinset) ∅

/-- The `iteration % 200 == 0` balancing block of the main loop. -/
def applyBalance (env : Env) (adj : AdjList) (s : AlnsState) : AlnsState :=
  let routes1 := reEval env adj (balance_routes env adj s.routes)
  let cf := sumLen routes1
  let cc := sumCost routes1
  if s.best_fulfillment < cf ∨ (cf = s.best_fulfillment ∧ cc < s.best_cost) then
    { s with
      routes := routes1
      best_routes := routes1
      best_cost := cc
      best_fulfillment := cf
      improvements := s.improvements + 1 }
  else { s with routes := routes1 }

/-- The `for target_route in routes` relocation scan: the first target where
the move strictly lowers the summed cost of the two routes is committed (the
code then sets the two `cost` fields directly) and, when the new total cost
beats the best, the best snapshot is replaced. -/
def relocScan (env : Env) (adj : AdjList) (si : ℕ) (source : Route) (o : String)
    (s : AlnsState) : List (ℕ × Route) → AlnsState
  | [] => s
  | (ti, target) :: rest =>
    if ti = si then relocScan env adj si source o s rest
    else if ¬ can_fit_orders env target.vehicle_id (target.orders ++ [o]) then
      relocScan env adj si source o s rest
    else if ¬ check_warehouse_inventory env target.home_warehouse_id
        (target.orders ++ [o]) then
      relocScan env adj si source o s rest
    else
      match (evaluate_route_cost env (source.remove_order o) adj).1,
          (evaluate_route_cost env (target.add_order o) adj).1 with
      | some cs, some ct =>
        if cs + ct < source.cost + target.cost then
          let routes' := modifyIdx (fun r => { r.remove_order o with cost := cs }) si
            (modifyIdx (fun r => { r.add_order o with cost := ct }) ti s.routes)
          let cc := sumCost routes'
          if cc < s.best_cost then
            { s with
              routes := routes'
              best_routes := routes'
              best_cost := cc
              improvements := s.improvements + 1 }
          else { s with routes := routes' }
        else relocScan env adj si source o s rest
      | _, _ => relocScan env adj si source o s rest

/-- The `iteration % 50 == 0` greedy-recovery block. -/
def applyGreedyRecover (env : Env) (adj : AdjList) (all_orders : List String)
    (s : AlnsState) : AlnsState :=
  let unassigned := all_orders.filter (fun o => o ∉ unionOrders s.routes)
  if unassigned = [] then s
  else
    let gr := greedy_insertion env adj unassigned unassigned s.routes
    let routes1 := reEval env adj gr.2
    let ca := unionOrders routes1
    let cc := sumCost routes1
    if s.best_fulfillment < ca.card ∨
        (ca.card = s.best_fulfillment ∧ cc < s.best_cost) then
      { routes := routes1
        best_routes := routes1
        best_cost := cc
        best_fulfillment := ca.card
        assigned := ca
        improvements := s.improvements + 1 }
    else { s with routes := routes1 }

/-- The `iteration % 200 == 0` regret-3 recovery block. -/
def applyRegretRecover (env : Env) (adj : AdjList) (all_orders : List String)
    (s : AlnsState) : AlnsState :=
  let unassigned := all_orders.filter (fun o => o ∉ unionOrders s.routes)
  if unassigned = [] then s
  else
    let rr := regret_k_insertion env adj unassigned s.routes 3
    let routes1 := reEval env adj rr.2.1
    let ca := unionOrders routes1
    let cc := sumCost routes1
    if s.best_fulfillment < ca.card ∨
        (ca.card = s.best_fulfillment ∧ cc < s.best_cost) then
      { routes := routes1
        best_routes := routes1
        best_cost := cc
        best_fulfillment := ca.card
        assigned := ca
        improvements := s.improvements + 1 }
    else { s with routes := routes1 }

/-- One iteration of `alns_optimize`'s `while` body.  `Sum.inr` is a `break`
(the loop exits with that state), `Sum.inl` continues.  The `continue` on an
empty source order list (unreachable, since sources carry more than one
order) re-enters the loop. -/
def alnsIter (env : Env) (adj : AdjList) (oracle : AlnsOracle)
    (all_orders : List String) (i : ℕ) (s : AlnsState) : AlnsState ⊕ AlnsState :=
  let s1 := if i % 200 = 0 then applyBalance env adj s else s
  if s1.routes.length < 2 then Sum.inr s1
  else
    let source_routes := s1.routes.enum.filter (fun p => 1 < p.2.orders.length)
    if source_routes = [] then Sum.inr s1
    else
      let p := (source_routes.get? (oracle.pickSource i % source_routes.length)).getD
        (0, Route.mkNew "" "" 0)
      if p.2.orders = [] then Sum.inl s1
      else
        let o := (p.2.orders.get? (oracle.pickOrder i % p.2.orders.length)).getD ""
        let s2 := relocScan env adj p.1 p.2 o s1 s1.routes.enum
        let s3 := if i % 50 = 0 then applyGreedyRecover env adj all_orders s2 else s2
        let s4 := if i % 200 = 0 then applyRegretRecover env adj all_orders s3 else s3
        if 5000 < i ∧ s4.improvements = 0 then Sum.inr s4
        else if 10000 < i then Sum.inr s4
        else Sum.inl s4

/-- The time-boxed `while` loop.  The fuel only needs to exceed the hard
attempt ceiling (10000) for the model to coincide with the Python loop, whose
patience checks are reached on every iteration. -/
def alnsLoop (env : Env) (adj : AdjList) (oracle : AlnsOracle)
    (all_orders : List String) : ℕ → ℕ → AlnsState → AlnsState
  | 0, _, s => s
  | fuel + 1, i, s =>
    if ¬ oracle.timeLeft i then s
    else match alnsIter env adj oracle all_orders i s with
      | Sum.inr s' => s'
      | Sum.inl s' => alnsLoop env adj oracle all_orders fuel (i + 1) s'

/-- `alns_optimize` of `VibeCoders_solver_3.py`: recompute zero costs, track
the best snapshot through the loop, and return the best routes with the set
of orders they carry. -/
def alns_optimize (env : Env) (adj : AdjList) (oracle : AlnsOracle) (fuel : ℕ)
    (routes : List Route) (assigned : Finset String) :
    List Route × Finset String :=
  let routes0 := routes.map
    (fun r => if r.cost = 0 then (evaluate_route_cost env r adj).2 else r)
  let s0 : AlnsState := ⟨routes0, routes0, sumCost routes0, assigned.card, assigned, 0⟩
  let sF := alnsLoop env adj oracle env.get_all_order_ids fuel 1 s0
  (sF.best_routes, unionOrders sF.best_routes)

/-- `solver` of `VibeCoders_solver_3.py`: construction, ALNS, conversion. -/
def solver (env : Env) (oracle : AlnsOracle) (fuel : ℕ) : Solution :=
  let adjacency_list := env.adjacency_list
  let ra := construct_initial_solution env adjacency_list
  let rb := alns_optimize env adjacency_list oracle fuel ra.1 ra.2
  ⟨rb.1.filterMap (fun r =>
    if r.orders = [] then none else create_route_dict env r adjacency_list)⟩

end Solver3

namespace Logistics

/-- The oracle distance of one hop, `0` when the oracle has no value (used
only to *measure* a materialised route; the solvers never compute this). -/
def distVal (env : Env) (a b : ℕ) : ℚ :=
  match env.get_distance a b with
  | Except.ok (some d) => d
  | _ => 0

/-- The realized total distance of a materialised route: the oracle distances
summed over consecutive steps. -/
def realizedDistance (env : Env) (r : RouteDict) : ℚ :=
  let ns := r.steps.map Step.node_id
  ((ns.zip ns.tail).map (fun p => distVal env p.1 p.2)).sum

end Logistics

namespace Solver3

open Logistics

theorem create_route_dict_legs {env : Env} {route : Route} {adj : AdjList}
    {rd : RouteDict} (h : create_route_dict env route adj = some rd) :
    ∃ sc path_home,
      buildLegs env adj route.orders route.home_node
        [⟨route.home_node,
          SolverFinal.pickupList env route.home_warehouse_id route.orders, []⟩] =
        some sc ∧
      find_shortest_path sc.2 route.home_node adj = some path_home := by
  unfold create_route_dict at h
  split at h
  · cases h
  rcases hveh : env.get_vehicle_by_id route.vehicle_id with _ | vehicle
  · simp only [hveh] at h
    exact Option.noConfusion h
  simp only [hveh] at h
  split at h
  · cases h
  split at h
  · cases h
  rcases hlegs : buildLegs env adj route.orders route.home_node
      [⟨route.home_node,
        SolverFinal.pickupList env route.home_warehouse_id route.orders, []⟩]
    with _ | sc
  · simp only [hlegs] at h
    exact Option.noConfusion h
  simp only [hlegs] at h
  rcases hhome : find_shortest_path sc.2 route.home_node adj with _ | path_home
  · simp only [hhome] at h
    exact Option.noConfusion h
  exact ⟨sc, path_home, rfl, hhome⟩

theorem create_route_final_legs {env : Env} {vid : String} {oids : List String}
    {adj : AdjList} {r : RouteDict}
    (h : SolverFinal.create_route env vid oids adj = some r) :
    ∃ vehicle warehouse sc path_home,
      env.get_vehicle_by_id vid = some vehicle ∧
      env.get_warehouse_by_id vehicle.home_warehouse_id = some warehouse ∧
      SolverFinal.buildLegs env adj 500
        (SolverFinal.optimize_delivery_sequence env warehouse.location.id oids)
        warehouse.location.id
        [⟨warehouse.location.id,
          SolverFinal.pickupList env vehicle.home_warehouse_id oids, []⟩] =
        some sc ∧
      SolverFinal.find_shortest_path sc.2 warehouse.location.id adj 500 =
        some path_home ∧
      SolverFinal.estimate_route_distance env warehouse.location.id
          ((SolverFinal.optimize_delivery_sequence env warehouse.location.id oids).map
            env.get_order_location) ≤ vehicle.max_distance * (8 / 10) := by
  unfold SolverFinal.create_route at h
  split at h
  · cases h
  rcases hveh : env.get_vehicle_by_id vid with _ | vehicle
  · simp only [hveh] at h
    exact Option.noConfusion h
  simp only [hveh] at h
  rcases hwh : env.get_warehouse_by_id vehicle.home_warehouse_id with _ | warehouse
  · simp only [hwh] at h
    exact Option.noConfusion h
  simp only [hwh] at h
  split at h
  · cases h
  split at h
  · cases h
  split at h
  · cases h
  next hest =>
  rcases hlegs : SolverFinal.buildLegs env adj 500
      (SolverFinal.optimize_delivery_sequence env warehouse.location.id oids)
      warehouse.location.id
      [⟨warehouse.location.id,
        SolverFinal.pickupList env vehicle.home_warehouse_id oids, []⟩]
    with _ | sc
  · simp only [hlegs] at h
    exact Option.noConfusion h
  simp only [hlegs] at h
  rcases hhome : SolverFinal.find_shortest_path sc.2 warehouse.location.id adj 500
    with _ | path_home
  · simp only [hhome] at h
    exact Option.noConfusion h
  exact ⟨vehicle, warehouse, sc, path_home, rfl, hwh, hlegs, hhome,
    by simpa using not_lt.mp hest⟩

end Solver3

namespace Solver3

open Logistics

/-- A two-node environment whose single order sits 200 km away while the
vehicle's range is 100 km: `create_route_dict` materialises the route anyway,
because it performs no distance check. -/
def envC5 : Env where
  skus := fun _ => ⟨1, 1⟩
  get_order_requirements := fun _ => [("s", 1)]
  get_order_location := fun _ => some 1
  get_vehicle_by_id := fun _ => some ⟨"LightVan", 10, 10, 100, "w1"⟩
  get_warehouse_by_id := fun _ => some ⟨"w1", ⟨0⟩⟩
  get_warehouse_inventory := fun _ _ => 10
  get_distance := fun _ _ => Except.ok (some 200)
  get_all_order_ids := ["o1"]
  get_available_vehicles := ["v1"]
  adjacency_list := [(0, [1]), (1, [0])]

/-- The `Route` object fed to `create_route_dict` in the counterexample. -/
def routeC5 : Route := ⟨"v1", "w1", 0, ["o1"], 0, 0, true⟩

theorem envC5_bfs01 : find_shortest_path 0 1 envC5.adjacency_list = some [0, 1] := by
  simp [find_shortest_path, bfs3_loop, SolverFinal.bfs_expand, adjGet, envC5, List.lookup]

theorem envC5_bfs10 : find_shortest_path 1 0 envC5.adjacency_list = some [1, 0] := by
  simp [find_shortest_path, bfs3_loop, SolverFinal.bfs_expand, adjGet, envC5, List.lookup]

theorem envC5_create_route_dict :
    create_route_dict envC5 routeC5 envC5.adjacency_list = some routeW := by
  have hv : envC5.get_vehicle_by_id "v1" = some ⟨"LightVan", 10, 10, 100, "w1"⟩ := rfl
  have hfit : can_fit_orders envC5 "v1" ["o1"] = true := by
    simp only [can_fit_orders, hv]
    have : SolverFinal.calculate_order_size envC5 "o1" = (1, 1) := by
      simp [SolverFinal.calculate_order_size, envC5]
    simp only [this, List.map_cons, List.map_nil, List.sum_cons, List.sum_nil]
    norm_num
  have hinv : check_warehouse_inventory envC5 "w1" ["o1"] = true := by
    simp [check_warehouse_inventory, SolverFinal.check_inventory,
      SolverFinal.needKeys, SolverFinal.total_needs, envC5]
  have hloc : envC5.get_order_location "o1" = some 1 := rfl
  simp only [create_route_dict, routeC5, hv, hfit, hinv, hloc, buildLegs,
    envC5_bfs01, envC5_bfs10, Bool.not_true, if_false, ite_false, ite_true]
  have hreq : envC5.get_order_requirements "o1" = [("s", 1)] := rfl
  simp [routeW, SolverFinal.passStep, SolverFinal.deliveryStep,
    SolverFinal.pickupList, SolverFinal.firstKeys, SolverFinal.needKeys,
    SolverFinal.total_needs, hreq]

/-- C5 counterexample: `create_route_dict` happily returns a route whose
realized distance (400) exceeds the vehicle's `max_distance` (100) — no
realized-distance check exists in either materialiser. -/
theorem C5_counterexample :
    create_route_dict envC5 routeC5 envC5.adjacency_list = some routeW ∧
    envC5.get_vehicle_by_id routeC5.vehicle_id =
      some ⟨"LightVan", 10, 10, 100, "w1"⟩ ∧
    realizedDistance envC5 routeW = 400 ∧
    (100 : ℚ) < realizedDistance envC5 routeW := by
  refine ⟨envC5_create_route_dict, rfl, ?_, ?_⟩ <;>
  · simp [realizedDistance, routeW, distVal, envC5]
    norm_num

/-- C5 (amended): both materialisers return `none` whenever any leg's BFS path
is not found — a returned route presupposes every leg path and the return
path; `create_route` additionally requires the oracle-estimated round trip
(unknown legs as 50) to be within `0.8 × max_distance`.  Neither function
checks the realized distance of the materialised steps. -/
theorem C5_materialization_failure_conditions :
    (∀ (env : Env) (vid : String) (oids : List String) (adj : AdjList)
      (r : RouteDict), SolverFinal.create_route env vid oids adj = some r →
      ∃ vehicle warehouse sc path_home,
        env.get_vehicle_by_id vid = some vehicle ∧
        env.get_warehouse_by_id vehicle.home_warehouse_id = some warehouse ∧
        SolverFinal.buildLegs env adj 500
          (SolverFinal.optimize_delivery_sequence env warehouse.location.id oids)
          warehouse.location.id
          [⟨warehouse.location.id,
            SolverFinal.pickupList env vehicle.home_warehouse_id oids, []⟩] =
          some sc ∧
        SolverFinal.find_shortest_path sc.2 warehouse.location.id adj 500 =
          some path_home ∧
        SolverFinal.estimate_route_distance env warehouse.location.id
            ((SolverFinal.optimize_delivery_sequence env warehouse.location.id
              oids).map env.get_order_location) ≤
          vehicle.max_distance * (8 / 10)) ∧
    (∀ (env : Env) (route : Route) (adj : AdjList) (rd : RouteDict),
      create_route_dict env route adj = some rd →
      ∃ sc path_home,
        buildLegs env adj route.orders route.home_node
          [⟨route.home_node,
            SolverFinal.pickupList env route.home_warehouse_id route.orders, []⟩] =
          some sc ∧
        find_shortest_path sc.2 route.home_node adj = some path_home) :=
  ⟨fun _ _ _ _ _ h => create_route_final_legs h,
   fun _ _ _ _ h => create_route_dict_legs h⟩

/-- Witness for the amended C5 at concrete inputs: the final solver's route on
`envW` and the `create_route_dict` route on `envC5`. -/
theorem C5_witness :
    (SolverFinal.create_route envW "v1" ["o1"] envW.adjacency_list = some routeW ∧
      create_route_dict envC5 routeC5 envC5.adjacency_list = some routeW) ∧
    (∃ vehicle warehouse sc path_home,
      envW.get_vehicle_by_id "v1" = some vehicle ∧
      envW.get_warehouse_by_id vehicle.home_warehouse_id = some warehouse ∧
      SolverFinal.buildLegs envW envW.adjacency_list 500
        (SolverFinal.optimize_delivery_sequence envW warehouse.location.id ["o1"])
        warehouse.location.id
        [⟨warehouse.location.id,
          SolverFinal.pickupList envW vehicle.home_warehouse_id ["o1"], []⟩] =
        some sc ∧
      SolverFinal.find_shortest_path sc.2 warehouse.location.id
          envW.adjacency_list 500 = some path_home ∧
      SolverFinal.estimate_route_distance envW warehouse.location.id
          ((SolverFinal.optimize_delivery_sequence envW warehouse.location.id
            ["o1"]).map envW.get_order_location) ≤
        vehicle.max_distance * (8 / 10)) ∧
    (∃ sc path_home,
      buildLegs envC5 envC5.adjacency_list routeC5.orders routeC5.home_node
        [⟨routeC5.home_node,
          SolverFinal.pickupList envC5 routeC5.home_warehouse_id routeC5.orders,
          []⟩] = some sc ∧
      find_shortest_path sc.2 routeC5.home_node envC5.adjacency_list =
        some path_home) :=
  ⟨⟨SolverFinal.envW_create_route, envC5_create_route_dict⟩,
   C5_materialization_failure_conditions.1 envW "v1" ["o1"] envW.adjacency_list
     routeW SolverFinal.envW_create_route,
   C5_materialization_failure_conditions.2 envC5 routeC5 envC5.adjacency_list
     routeW envC5_create_route_dict⟩

end Solver3

namespace Solver3

open Logistics

theorem regretLoop_trace (env : Env) (adj : AdjList) (k : ℕ)
    (un : List String) (routes : List Route) (trace : List String) :
    ∃ t, (regretLoop env adj k un routes trace).2.2 = trace ++ t := by
  induction un, routes, trace using regretLoop.induct env adj k with
  | case1 routes trace =>
    rw [regretLoop]
    exact ⟨[], by simp⟩
  | case2 un routes trace hne h =>
    rw [regretLoop, if_neg hne]
    split
    next h' => exact ⟨[], by simp⟩
    next x h' => rw [h] at h'; exact Option.noConfusion h'
  | case3 un routes trace hne x h hmem hlt ih =>
    rw [regretLoop, if_neg hne]
    split
    next h' => rw [h] at h'; exact Option.noConfusion h'
    next x' h' =>
      have hx : x' = x := Option.some.inj (h'.symm.trans h)
      subst hx
      rcases ih with ⟨t, ht⟩
      exact ⟨x'.2.1 :: t, by rw [ht]; simp⟩

/-- C8 (amended): with the default `k = 2`, an order with exactly one feasible
insertion slot receives regret 0 (the regret sum over the 2nd-best onwards is
empty), and an order whose two best slots tie also receives regret 0; among
equal regrets the stable descending sort preserves the unassigned-list order,
so such an order `A` is inserted before such a `B` exactly when it precedes
`B` in the unassigned list — here stated for the list `[A, B]`. -/
theorem C8_regret_zero_ties (env : Env) (adj : AdjList) (routes : List Route)
    (A B : String) (cA c0 c1 : ℚ × ℕ) (restB : List (ℚ × ℕ))
    (hA : sortedCosts env adj A routes = [cA])
    (hB : sortedCosts env adj B routes = c0 :: c1 :: restB)
    (heq : c1.1 = c0.1) :
    ∃ t, (regret_k_insertion env adj [A, B] routes 2).2.2 = A :: t := by
  have hreg : regrets env adj 2 [A, B] routes =
      [(0, A, cA.2), (0, B, c0.2)] := by
    unfold regrets
    rw [List.filterMap_cons, List.filterMap_cons, List.filterMap_nil]
    rw [hA, hB]
    simp only [regretOf, List.take, List.map_cons, List.map_nil, List.sum_cons,
      List.sum_nil, heq, sub_self, add_zero]
  have hpick : pickMaxRegret (regrets env adj 2 [A, B] routes) =
      some (0, A, cA.2) := by
    rw [hreg]
    simp [pickMaxRegret]
  unfold regret_k_insertion
  rw [regretLoop, if_neg (by simp)]
  split
  next h' => rw [hpick] at h'; exact Option.noConfusion h'
  next x h' =>
    have hx : x = (0, A, cA.2) := Option.some.inj (h'.symm.trans hpick)
    subst hx
    rcases regretLoop_trace env adj 2 _ _ _ with ⟨t, ht⟩
    exact ⟨t, by rw [ht]; simp⟩

end Solver3

namespace Solver3

open Logistics

/-- Counterexample environment for the regret ordering claim: order `A`
(weight 5) fits only vehicle `v1` (capacity 10), order `B` (weight 1) fits
both `v1` and `v2` (capacity 2) at identical cost — all distances are 1 on a
triangle road graph around warehouse node 0. -/
def envC8 : Env where
  skus := fun s => if s = "sA" then ⟨5, 1⟩ else ⟨1, 1⟩
  get_order_requirements := fun o => if o = "A" then [("sA", 1)] else [("sB", 1)]
  get_order_location := fun o => if o = "A" then some 1 else some 2
  get_vehicle_by_id := fun v =>
    if v = "v2" then some ⟨"LightVan", 2, 2, 100, "w1"⟩
    else some ⟨"LightVan", 10, 10, 100, "w1"⟩
  get_warehouse_by_id := fun _ => some ⟨"w1", ⟨0⟩⟩
  get_warehouse_inventory := fun _ _ => 10
  get_distance := fun _ _ => Except.ok (some 1)
  get_all_order_ids := ["A", "B"]
  get_available_vehicles := ["v1", "v2"]
  adjacency_list := [(0, [1, 2]), (1, [0, 2]), (2, [0, 1])]

/-- The two empty routes of the counterexample. -/
def r1C8 : Route := ⟨"v1", "w1", 0, [], 0, 0, true⟩

/-- The second (small-capacity) route of the counterexample. -/
def r2C8 : Route := ⟨"v2", "w1", 0, [], 0, 0, true⟩

theorem envC8_calcA : SolverFinal.calculate_order_size envC8 "A" = (5, 1) := by
  simp [SolverFinal.calculate_order_size, envC8]

theorem envC8_calcB : SolverFinal.calculate_order_size envC8 "B" = (1, 1) := by
  simp [SolverFinal.calculate_order_size, envC8]

theorem envC8_bfs01 : find_shortest_path 0 1 envC8.adjacency_list = some [0, 1] := by
  simp [find_shortest_path, bfs3_loop, SolverFinal.bfs_expand, adjGet, envC8, List.lookup]

theorem envC8_bfs02 : find_shortest_path 0 2 envC8.adjacency_list = some [0, 2] := by
  simp [find_shortest_path, bfs3_loop, SolverFinal.bfs_expand, adjGet, envC8, List.lookup]

theorem envC8_bfs10 : find_shortest_path 1 0 envC8.adjacency_list = some [1, 0] := by
  simp [find_shortest_path, bfs3_loop, SolverFinal.bfs_expand, adjGet, envC8, List.lookup]

theorem envC8_bfs20 : find_shortest_path 2 0 envC8.adjacency_list = some [2, 0] := by
  simp [find_shortest_path, bfs3_loop, SolverFinal.bfs_expand, adjGet, envC8, List.lookup]

theorem envC8_bfs21 : find_shortest_path 2 1 envC8.adjacency_list = some [2, 1] := by
  simp [find_shortest_path, bfs3_loop, SolverFinal.bfs_expand, adjGet, envC8, List.lookup]

theorem envC8_fit_v1_A : can_fit_orders envC8 "v1" ["A"] = true := by
  simp only [can_fit_orders, show envC8.get_vehicle_by_id "v1" =
    some ⟨"LightVan", 10, 10, 100, "w1"⟩ from rfl, envC8_calcA,
    List.map_cons, List.map_nil, List.sum_cons, List.sum_nil]
  norm_num

theorem envC8_fit_v1_B : can_fit_orders envC8 "v1" ["B"] = true := by
  simp only [can_fit_orders, show envC8.get_vehicle_by_id "v1" =
    some ⟨"LightVan", 10, 10, 100, "w1"⟩ from rfl, envC8_calcB,
    List.map_cons, List.map_nil, List.sum_cons, List.sum_nil]
  norm_num

theorem envC8_fit_v1_BA : can_fit_orders envC8 "v1" ["B", "A"] = true := by
  simp only [can_fit_orders, show envC8.get_vehicle_by_id "v1" =
    some ⟨"LightVan", 10, 10, 100, "w1"⟩ from rfl, envC8_calcA, envC8_calcB,
    List.map_cons, List.map_nil, List.sum_cons, List.sum_nil]
  norm_num

theorem envC8_fit_v2_A : can_fit_orders envC8 "v2" ["A"] = false := by
  simp only [can_fit_orders, show envC8.get_vehicle_by_id "v2" =
    some ⟨"LightVan", 2, 2, 100, "w1"⟩ from rfl, envC8_calcA,
    List.map_cons, List.map_nil, List.sum_cons, List.sum_nil]
  norm_num

theorem envC8_fit_v2_B : can_fit_orders envC8 "v2" ["B"] = true := by
  simp only [can_fit_orders, show envC8.get_vehicle_by_id "v2" =
    some ⟨"LightVan", 2, 2, 100, "w1"⟩ from rfl, envC8_calcB,
    List.map_cons, List.map_nil, List.sum_cons, List.sum_nil]
  norm_num

theorem envC8_invA : check_warehouse_inventory envC8 "w1" ["A"] = true := by decide

theorem envC8_invB : check_warehouse_inventory envC8 "w1" ["B"] = true := by decide

theorem envC8_invBA : check_warehouse_inventory envC8 "w1" ["B", "A"] = true := by
  decide

end Solver3

namespace Solver3

open Logistics

theorem regretLoop_step (env : Env) (adj : AdjList) (k : ℕ) (un : List String)
    (routes : List Route) (trace : List String) (x : ℚ × String × ℕ)
    (hne : un ≠ [])
    (hpick : pickMaxRegret (regrets env adj k un routes) = some x) :
    regretLoop env adj k un routes trace =
      regretLoop env adj k (un.erase x.2.1)
        (modifyIdx (fun r => (evaluate_route_cost env (r.add_order x.2.1) adj).2)
          x.2.2 routes)
        (trace ++ [x.2.1]) := by
  rw [regretLoop, if_neg hne]
  split
  next h' => rw [hpick] at h'; exact Option.noConfusion h'
  next x' h' =>
    have hx : x' = x := Option.some.inj (h'.symm.trans hpick)
    subst hx
    rfl

theorem regretLoop_nil (env : Env) (adj : AdjList) (k : ℕ)
    (routes : List Route) (trace : List String) :
    regretLoop env adj k [] routes trace = ([], routes, trace) := by
  rw [regretLoop]
  simp

/-- `v1`'s route after `B` is inserted and re-evaluated. -/
def r1B : Route := ⟨"v1", "w1", 0, ["B"], 2, 2, true⟩

theorem envC8_evA1 :
    evaluate_route_cost envC8 (r1C8.add_order "A") envC8.adjacency_list =
      (some 2, ⟨"v1", "w1", 0, ["A"], 2, 2, true⟩) := by
  have hd : ∀ a b, envC8.get_distance a b = Except.ok (some 1) := fun _ _ => rfl
  have hl : envC8.get_order_location "A" = some 1 := rfl
  simp only [evaluate_route_cost, Route.add_order, r1C8, evalLoop, hl, hd,
    envC8_bfs01, envC8_bfs10, List.nil_append]
  norm_num

theorem envC8_evB1 :
    evaluate_route_cost envC8 (r1C8.add_order "B") envC8.adjacency_list =
      (some 2, r1B) := by
  have hd : ∀ a b, envC8.get_distance a b = Except.ok (some 1) := fun _ _ => rfl
  have hl : envC8.get_order_location "B" = some 2 := rfl
  simp only [evaluate_route_cost, Route.add_order, r1C8, r1B, evalLoop, hl, hd,
    envC8_bfs02, envC8_bfs20, List.nil_append]
  norm_num

theorem envC8_evB2 :
    evaluate_route_cost envC8 (r2C8.add_order "B") envC8.adjacency_list =
      (some 2, ⟨"v2", "w1", 0, ["B"], 2, 2, true⟩) := by
  have hd : ∀ a b, envC8.get_distance a b = Except.ok (some 1) := fun _ _ => rfl
  have hl : envC8.get_order_location "B" = some 2 := rfl
  simp only [evaluate_route_cost, Route.add_order, r2C8, evalLoop, hl, hd,
    envC8_bfs02, envC8_bfs20, List.nil_append]
  norm_num

theorem envC8_evBA :
    evaluate_route_cost envC8 (r1B.add_order "A") envC8.adjacency_list =
      (some 3, ⟨"v1", "w1", 0, ["B", "A"], 3, 3, true⟩) := by
  have hd : ∀ a b, envC8.get_distance a b = Except.ok (some 1) := fun _ _ => rfl
  have hlA : envC8.get_order_location "A" = some 1 := rfl
  have hlB : envC8.get_order_location "B" = some 2 := rfl
  simp only [evaluate_route_cost, Route.add_order, r1B, evalLoop, hlA, hlB, hd,
    envC8_bfs02, envC8_bfs21, envC8_bfs10, List.cons_append, List.nil_append]
  norm_num
  decide

theorem envC8_icA1 :
    insertion_costs envC8 envC8.adjacency_list "A" [r1C8, r2C8] = [(2, 0)] := by
  have henum : ([r1C8, r2C8]).enum = [(0, r1C8), (1, r2C8)] := rfl
  simp only [insertion_costs, henum, List.filterMap_cons, List.filterMap_nil]
  rw [show r1C8.orders ++ ["A"] = ["A"] from rfl,
    show r2C8.orders ++ ["A"] = ["A"] from rfl]
  rw [show r1C8.vehicle_id = "v1" from rfl, show r2C8.vehicle_id = "v2" from rfl,
    show r1C8.home_warehouse_id = "w1" from rfl]
  rw [envC8_fit_v1_A, envC8_fit_v2_A, envC8_invA]
  simp only [Bool.not_true, Bool.not_false, if_true, if_false, ite_true, ite_false]
  rw [envC8_evA1]
  simp only [r1C8]
  norm_num

theorem envC8_icB1 :
    insertion_costs envC8 envC8.adjacency_list "B" [r1C8, r2C8] =
      [(2, 0), (2, 1)] := by
  have henum : ([r1C8, r2C8]).enum = [(0, r1C8), (1, r2C8)] := rfl
  simp only [insertion_costs, henum, List.filterMap_cons, List.filterMap_nil]
  rw [show r1C8.orders ++ ["B"] = ["B"] from rfl,
    show r2C8.orders ++ ["B"] = ["B"] from rfl]
  rw [show r1C8.vehicle_id = "v1" from rfl, show r2C8.vehicle_id = "v2" from rfl,
    show r1C8.home_warehouse_id = "w1" from rfl,
    show r2C8.home_warehouse_id = "w1" from rfl]
  rw [envC8_fit_v1_B, envC8_fit_v2_B, envC8_invB]
  simp only [Bool.not_true, Bool.not_false, if_true, if_false, ite_true, ite_false]
  rw [envC8_evB1, envC8_evB2]
  simp only [r1C8, r2C8]
  norm_num

theorem envC8_icA2 :
    insertion_costs envC8 envC8.adjacency_list "A" [r1B, r2C8] = [(1, 0)] := by
  have henum : ([r1B, r2C8]).enum = [(0, r1B), (1, r2C8)] := rfl
  simp only [insertion_costs, henum, List.filterMap_cons, List.filterMap_nil]
  rw [show r1B.orders ++ ["A"] = ["B", "A"] from rfl,
    show r2C8.orders ++ ["A"] = ["A"] from rfl]
  rw [show r1B.vehicle_id = "v1" from rfl, show r2C8.vehicle_id = "v2" from rfl,
    show r1B.home_warehouse_id = "w1" from rfl]
  rw [envC8_fit_v1_BA, envC8_fit_v2_A, envC8_invBA]
  simp only [Bool.not_true, Bool.not_false, if_true, if_false, ite_true, ite_false]
  rw [envC8_evBA]
  simp only [r1B]
  norm_num

end Solver3

namespace Solver3

open Logistics

theorem envC8_scA1 :
    sortedCosts envC8 envC8.adjacency_list "A" [r1C8, r2C8] = [(2, 0)] := by
  rw [sortedCosts, envC8_icA1]
  exact List.mergeSort_of_sorted (by simp)

theorem envC8_scB1 :
    sortedCosts envC8 envC8.adjacency_list "B" [r1C8, r2C8] =
      [(2, 0), (2, 1)] := by
  rw [sortedCosts, envC8_icB1]
  exact List.mergeSort_of_sorted (by norm_num [List.pairwise_cons])

theorem envC8_scA2 :
    sortedCosts envC8 envC8.adjacency_list "A" [r1B, r2C8] = [(1, 0)] := by
  rw [sortedCosts, envC8_icA2]
  exact List.mergeSort_of_sorted (by simp)

theorem envC8_regs1 :
    regrets envC8 envC8.adjacency_list 2 ["B", "A"] [r1C8, r2C8] =
      [(0, "B", 0), (0, "A", 0)] := by
  unfold regrets
  rw [List.filterMap_cons, List.filterMap_cons, List.filterMap_nil]
  rw [envC8_scB1, envC8_scA1]
  simp only [regretOf, List.take, List.map_cons, List.map_nil, List.sum_cons,
    List.sum_nil]
  norm_num

theorem envC8_regs2 :
    regrets envC8 envC8.adjacency_list 2 ["A"] [r1B, r2C8] =
      [(0, "A", 0)] := by
  unfold regrets
  rw [List.filterMap_cons, List.filterMap_nil]
  rw [envC8_scA2]
  simp [regretOf]

theorem envC8_pick1 :
    pickMaxRegret (regrets envC8 envC8.adjacency_list 2 ["B", "A"] [r1C8, r2C8]) =
      some (0, "B", 0) := by
  rw [envC8_regs1]
  norm_num [pickMaxRegret]

theorem envC8_pick2 :
    pickMaxRegret (regrets envC8 envC8.adjacency_list 2 ["A"] [r1B, r2C8]) =
      some (0, "A", 0) := by
  rw [envC8_regs2]
  rfl

theorem envC8_mod1 :
    modifyIdx
      (fun r => (evaluate_route_cost envC8 (r.add_order "B")
        envC8.adjacency_list).2) 0 [r1C8, r2C8] = [r1B, r2C8] := by
  simp only [modifyIdx, show ([r1C8, r2C8]).enum = [(0, r1C8), (1, r2C8)] from rfl,
    List.map_cons, List.map_nil, envC8_evB1]
  norm_num

theorem envC8_mod2 :
    modifyIdx
      (fun r => (evaluate_route_cost envC8 (r.add_order "A")
        envC8.adjacency_list).2) 0 [r1B, r2C8] =
      [⟨"v1", "w1", 0, ["B", "A"], 3, 3, true⟩, r2C8] := by
  simp only [modifyIdx, show ([r1B, r2C8]).enum = [(0, r1B), (1, r2C8)] from rfl,
    List.map_cons, List.map_nil, envC8_evBA]
  norm_num

/-- C8: counterexample. In `envC8` with empty routes for `v1` (capacity 10)
and `v2` (capacity 2), order `A` (weight 5) has exactly one feasible
insertion slot (route 0, cost increase 2) and order `B` (weight 1) has two
equally good feasible slots (cost increase 2 in both routes) — exactly the
claim's premise. Yet with the unassigned list `["B", "A"]`,
`regret_k_insertion` inserts `B` first: both orders receive regret 0 under
the default `k = 2` (`A`'s regret sum over its 2nd-best onwards is empty,
`B`'s two best slots tie), so the stable descending sort leaves the
unassigned-list order in place, refuting the claim that `A` is always
inserted before `B`. -/
theorem C8_counterexample :
    sortedCosts envC8 envC8.adjacency_list "A" [r1C8, r2C8] = [(2, 0)] ∧
    sortedCosts envC8 envC8.adjacency_list "B" [r1C8, r2C8] = [(2, 0), (2, 1)] ∧
    (regret_k_insertion envC8 envC8.adjacency_list ["B", "A"] [r1C8, r2C8]
      2).2.2 = ["B", "A"] := by
  refine ⟨envC8_scA1, envC8_scB1, ?_⟩
  unfold regret_k_insertion
  rw [regretLoop_step envC8 envC8.adjacency_list 2 ["B", "A"] [r1C8, r2C8] []
    (0, "B", 0) (by simp) envC8_pick1]
  rw [show (["B", "A"].erase "B") = ["A"] from rfl]
  rw [envC8_mod1]
  rw [regretLoop_step envC8 envC8.adjacency_list 2 ["A"] [r1B, r2C8]
    ([] ++ ["B"]) (0, "A", 0) (by simp) envC8_pick2]
  rw [show ((["A"] : List String).erase "A") = [] from rfl]
  rw [envC8_mod2]
  rw [regretLoop_nil]
  rfl

/-- Witness for the amended C8 theorem: in `envC8` with the unassigned list
`["A", "B"]`, the single-slot order `A` is indeed inserted first — its
position in the list, not its regret, decides. -/
theorem C8_witness :
    sortedCosts envC8 envC8.adjacency_list "A" [r1C8, r2C8] = [(2, 0)] ∧
    sortedCosts envC8 envC8.adjacency_list "B" [r1C8, r2C8] = [(2, 0), (2, 1)] ∧
    ∃ t, (regret_k_insertion envC8 envC8.adjacency_list ["A", "B"] [r1C8, r2C8]
      2).2.2 = "A" :: t :=
  ⟨envC8_scA1, envC8_scB1,
   C8_regret_zero_ties envC8 envC8.adjacency_list [r1C8, r2C8] "A" "B"
     (2, 0) (2, 0) (2, 1) [] envC8_scA1 envC8_scB1 (by norm_num)⟩

end Solver3

namespace Solver3

open Logistics

/-- `modifyIdx` as plain structural recursion on the list, for proofs. -/
def setAt (f : Route → Route) : ℕ → List Route → List Route
  | _, [] => []
  | 0, r :: rs => f r :: rs
  | i + 1, r :: rs => r :: setAt f i rs

theorem enumFrom_map_modify (f : Route → Route) (i : ℕ) :
    ∀ (rs : List Route) (n : ℕ),
      (List.enumFrom n rs).map (fun p => if p.1 = i then f p.2 else p.2) =
        if n ≤ i then setAt f (i - n) rs else rs := by
  intro rs
  induction rs with
  | nil => intro n; simp [setAt]
  | cons r rest ih =>
    intro n
    simp only [List.enumFrom, List.map_cons, ih (n + 1)]
    by_cases h : n ≤ i
    · rw [if_pos h]
      by_cases hn : n = i
      · subst hn
        rw [if_pos rfl, if_neg (by omega), Nat.sub_self]
        rfl
      · rw [if_neg hn, if_pos (by omega)]
        have he : i - n = (i - (n + 1)) + 1 := by omega
        rw [he]
        rfl
    · rw [if_neg (show ¬ n = i by omega), if_neg (by omega), if_neg h]

theorem modifyIdx_eq_setAt (f : Route → Route) (i : ℕ) (rs : List Route) :
    modifyIdx f i rs = setAt f i rs := by
  unfold modifyIdx
  rw [show rs.enum = List.enumFrom 0 rs from rfl, enumFrom_map_modify]
  simp

theorem setAt_length (f : Route → Route) :
    ∀ (rs : List Route) (i : ℕ), (setAt f i rs).length = rs.length := by
  intro rs
  induction rs with
  | nil => intro i; cases i <;> rfl
  | cons r rest ih =>
    intro i
    cases i with
    | zero => rfl
    | succ j => simp [setAt, ih j]

theorem setAt_get? (f : Route → Route) :
    ∀ (rs : List Route) (i j : ℕ),
      (setAt f i rs).get? j =
        (rs.get? j).map (fun r => if j = i then f r else r) := by
  intro rs
  induction rs with
  | nil => intro i j; cases i <;> rfl
  | cons r rest ih =>
    intro i j
    cases i with
    | zero =>
      cases j with
      | zero => simp [setAt]
      | succ j2 => simp [setAt]
    | succ i2 =>
      cases j with
      | zero => simp [setAt]
      | succ j2 =>
        have h2 := ih i2 j2
        simp only [List.get?_eq_getElem?] at h2
        simp [setAt, h2]

theorem sumLen_cons (r : Route) (rs : List Route) :
    sumLen (r :: rs) = r.orders.length + sumLen rs := by
  simp [sumLen]

theorem setAt_sumLen_add (f : Route → Route) (o : String)
    (hf : ∀ r, (f r).orders = r.orders ++ [o]) :
    ∀ (rs : List Route) (i : ℕ) (r : Route), rs.get? i = some r →
      sumLen (setAt f i rs) = sumLen rs + 1 := by
  intro rs
  induction rs with
  | nil => intro i r h; cases i <;> cases h
  | cons r0 rest ih =>
    intro i r h
    cases i with
    | zero =>
      simp only [List.get?] at h
      injection h with h
      subst h
      simp [setAt, sumLen_cons, hf]
      omega
    | succ j =>
      simp only [List.get?] at h
      simp [setAt, sumLen_cons, ih j r h]
      omega

theorem setAt_sumLen_sub (f : Route → Route) (o : String)
    (hf : ∀ r, (f r).orders = r.orders.erase o) :
    ∀ (rs : List Route) (i : ℕ) (r : Route), rs.get? i = some r → o ∈ r.orders →
      sumLen (setAt f i rs) + 1 = sumLen rs := by
  intro rs
  induction rs with
  | nil => intro i r h; cases i <;> cases h
  | cons r0 rest ih =>
    intro i r h hm
    cases i with
    | zero =>
      simp only [List.get?] at h
      injection h with h
      subst h
      have hl := List.length_erase_of_mem hm
      have hp := List.length_pos.mpr (List.ne_nil_of_mem hm)
      simp [setAt, sumLen_cons, hf]
      omega
    | succ j =>
      simp only [List.get?] at h
      have := ih j r h hm
      simp [setAt, sumLen_cons]
      omega

theorem setAt_sumLen_le (f : Route → Route)
    (hf : ∀ r, r.orders.length ≤ (f r).orders.length) :
    ∀ (rs : List Route) (i : ℕ), sumLen rs ≤ sumLen (setAt f i rs) := by
  intro rs
  induction rs with
  | nil => intro i; cases i <;> simp [setAt]
  | cons r0 rest ih =>
    intro i
    cases i with
    | zero =>
      simp only [setAt, sumLen_cons]
      have := hf r0
      omega
    | succ j =>
      simp only [setAt, sumLen_cons]
      have := ih j
      omega

theorem evaluate_orders (env : Env) (r : Route) (adj : AdjList) :
    ((evaluate_route_cost env r adj).2).orders = r.orders := by
  unfold evaluate_route_cost
  split
  · rfl
  split
  · rfl
  split <;> rfl

theorem add_order_orders (r : Route) (o : String) :
    (r.add_order o).orders = r.orders ++ [o] := rfl

theorem remove_order_orders (r : Route) (o : String) :
    (r.remove_order o).orders = r.orders.erase o := rfl

/-- Index form of pairwise order-disjointness. -/
def DisjointIdx (rs : List Route) : Prop :=
  ∀ i j ri rj, i ≠ j → rs.get? i = some ri → rs.get? j = some rj →
    ∀ o, o ∈ ri.orders → o ∉ rj.orders

/-- The C1 invariant: the routes carry pairwise-disjoint order lists, each
without duplicates. -/
def RoutesOK (rs : List Route) : Prop :=
  rs.Pairwise (fun a b => ∀ o, o ∈ a.orders → o ∉ b.orders) ∧
  ∀ r ∈ rs, r.orders.Nodup

theorem RoutesOK.disjointIdx {rs : List Route} (h : RoutesOK rs) :
    DisjointIdx rs := by
  intro i j ri rj hij hgi hgj o hoi hoj
  have hi : i < rs.length := by
    by_contra hc
    rw [List.get?_eq_none.mpr (le_of_not_lt hc)] at hgi
    cases hgi
  have hj : j < rs.length := by
    by_contra hc
    rw [List.get?_eq_none.mpr (le_of_not_lt hc)] at hgj
    cases hgj
  have hgi2 : rs.get ⟨i, hi⟩ = ri := by
    have := List.get?_eq_get hi
    rw [this] at hgi
    exact Option.some.inj hgi
  have hgj2 : rs.get ⟨j, hj⟩ = rj := by
    have := List.get?_eq_get hj
    rw [this] at hgj
    exact Option.some.inj hgj
  rcases Nat.lt_or_ge i j with hlt | hge
  · have := List.pairwise_iff_get.mp h.1 ⟨i, hi⟩ ⟨j, hj⟩ hlt
    rw [hgi2, hgj2] at this
    exact this o hoi hoj
  · have hlt2 : j < i := lt_of_le_of_ne hge (fun he => hij he.symm)
    have := List.pairwise_iff_get.mp h.1 ⟨j, hj⟩ ⟨i, hi⟩ hlt2
    rw [hgi2, hgj2] at this
    exact this o hoj hoi

theorem RoutesOK_of_idx {rs : List Route} (h1 : DisjointIdx rs)
    (h2 : ∀ r ∈ rs, r.orders.Nodup) : RoutesOK rs := by
  refine ⟨List.pairwise_iff_get.mpr ?_, h2⟩
  intro i j hij o hoi
  exact h1 i j (rs.get i) (rs.get j) (Nat.ne_of_lt hij)
    (List.get?_eq_get i.2) (List.get?_eq_get j.2) o hoi

theorem RoutesOK_map (f : Route → Route)
    (hf : ∀ r o, o ∈ (f r).orders → o ∈ r.orders)
    (hnd : ∀ r, r.orders.Nodup → (f r).orders.Nodup)
    {rs : List Route} (h : RoutesOK rs) : RoutesOK (rs.map f) := by
  constructor
  · refine (List.pairwise_map.mpr (List.Pairwise.imp ?_ h.1))
    intro a b hab o ho hob
    exact hab o (hf a o ho) (hf b o hob)
  · intro r hr
    rcases List.mem_map.mp hr with ⟨r0, hr0, rfl⟩
    exact hnd r0 (h.2 r0 hr0)

theorem RoutesOK_setAt_sub (f : Route → Route)
    (hf : ∀ r o, o ∈ (f r).orders → o ∈ r.orders)
    (hnd : ∀ r, r.orders.Nodup → (f r).orders.Nodup)
    (i : ℕ) {rs : List Route} (h : RoutesOK rs) : RoutesOK (setAt f i rs) := by
  refine RoutesOK_of_idx ?_ ?_
  · intro a b ra rb hab hga hgb o hoa hob
    rw [setAt_get?] at hga hgb
    rcases Option.map_eq_some'.mp hga with ⟨ra0, hra0, hfa⟩
    rcases Option.map_eq_some'.mp hgb with ⟨rb0, hrb0, hfb⟩
    have hoa0 : o ∈ ra0.orders := by
      by_cases h1 : a = i
      · rw [if_pos h1] at hfa; rw [← hfa] at hoa; exact hf ra0 o hoa
      · rw [if_neg h1] at hfa; rw [← hfa] at hoa; exact hoa
    have hob0 : o ∈ rb0.orders := by
      by_cases h1 : b = i
      · rw [if_pos h1] at hfb; rw [← hfb] at hob; exact hf rb0 o hob
      · rw [if_neg h1] at hfb; rw [← hfb] at hob; exact hob
    exact h.disjointIdx a b ra0 rb0 hab hra0 hrb0 o hoa0 hob0
  · intro r hr
    rcases List.mem_iff_get?.mp hr with ⟨j, hj⟩
    rw [setAt_get?] at hj
    rcases Option.map_eq_some'.mp hj with ⟨r0, hr0, hfr⟩
    have hr0m : r0 ∈ rs := List.mem_iff_get?.mpr ⟨j, hr0⟩
    by_cases hji : j = i
    · rw [if_pos hji] at hfr; rw [← hfr]; exact hnd r0 (h.2 r0 hr0m)
    · rw [if_neg hji] at hfr; rw [← hfr]; exact h.2 r0 hr0m

theorem RoutesOK_setAt_add (f : Route → Route) (o : String)
    (hf : ∀ r, (f r).orders = r.orders ++ [o])
    (i : ℕ) {rs : List Route}
    (ho : ∀ j r, rs.get? j = some r → o ∉ r.orders)
    (h : RoutesOK rs) : RoutesOK (setAt f i rs) := by
  refine RoutesOK_of_idx ?_ ?_
  · intro a b ra rb hab hga hgb o2 hoa hob
    rw [setAt_get?] at hga hgb
    rcases Option.map_eq_some'.mp hga with ⟨ra0, hra0, hfa⟩
    rcases Option.map_eq_some'.mp hgb with ⟨rb0, hrb0, hfb⟩
    have hoa0 : o2 ∈ ra0.orders ∨ (a = i ∧ o2 = o) := by
      by_cases h1 : a = i
      · rw [if_pos h1] at hfa
        rw [← hfa, hf] at hoa
        rcases List.mem_append.mp hoa with hx | hx
        · exact Or.inl hx
        · exact Or.inr ⟨h1, List.mem_singleton.mp hx⟩
      · rw [if_neg h1] at hfa; rw [← hfa] at hoa; exact Or.inl hoa
    have hob0 : o2 ∈ rb0.orders ∨ (b = i ∧ o2 = o) := by
      by_cases h1 : b = i
      · rw [if_pos h1] at hfb
        rw [← hfb, hf] at hob
        rcases List.mem_append.mp hob with hx | hx
        · exact Or.inl hx
        · exact Or.inr ⟨h1, List.mem_singleton.mp hx⟩
      · rw [if_neg h1] at hfb; rw [← hfb] at hob; exact Or.inl hob
    rcases hoa0 with hx | ⟨ha, rfl⟩
    · rcases hob0 with hy | ⟨hb, rfl⟩
      · exact h.disjointIdx a b ra0 rb0 hab hra0 hrb0 o2 hx hy
      · exact ho a ra0 hra0 hx
    · rcases hob0 with hy | ⟨hb, _⟩
      · exact ho b rb0 hrb0 hy
      · exact hab (ha.trans hb.symm)
  · intro r hr
    rcases List.mem_iff_get?.mp hr with ⟨j, hj⟩
    rw [setAt_get?] at hj
    rcases Option.map_eq_some'.mp hj with ⟨r0, hr0, hfr⟩
    have hr0m : r0 ∈ rs := List.mem_iff_get?.mpr ⟨j, hr0⟩
    by_cases hji : j = i
    · rw [if_pos hji] at hfr
      rw [← hfr, hf]
      simp only [List.nodup_append, List.nodup_cons, List.not_mem_nil,
        not_false_iff, List.nodup_nil, and_true, true_and]
      refine ⟨h.2 r0 hr0m, ?_⟩
      simp only [List.disjoint_singleton]
      exact ho j r0 hr0
    · rw [if_neg hji] at hfr; rw [← hfr]; exact h.2 r0 hr0m

theorem RoutesOK_move (fa fr : Route → Route) (o : String)
    (hfa : ∀ r, (fa r).orders = r.orders ++ [o])
    (hfr : ∀ r, (fr r).orders = r.orders.erase o)
    (si ti : ℕ) (hne : ti ≠ si) {rs : List Route}
    (ho : ∀ j r, rs.get? j = some r → o ∈ r.orders → j = si)
    (h : RoutesOK rs) : RoutesOK (setAt fr si (setAt fa ti rs)) := by
  have hget : ∀ j r, (setAt fr si (setAt fa ti rs)).get? j = some r →
      ∃ r0, rs.get? j = some r0 ∧
        r.orders = (if j = si then (if j = ti then (r0.orders ++ [o]).erase o
          else r0.orders.erase o)
        else (if j = ti then r0.orders ++ [o] else r0.orders)) := by
    intro j r hj
    rw [setAt_get?] at hj
    rcases Option.map_eq_some'.mp hj with ⟨r1, hr1, hfr1⟩
    rw [setAt_get?] at hr1
    rcases Option.map_eq_some'.mp hr1 with ⟨r0, hr0, hfa1⟩
    refine ⟨r0, hr0, ?_⟩
    by_cases h1 : j = si
    · rw [if_pos h1] at hfr1 ⊢
      by_cases h2 : j = ti
      · rw [if_pos h2] at hfa1 ⊢
        rw [← hfr1, hfr, ← hfa1, hfa]
      · rw [if_neg h2] at hfa1 ⊢
        rw [← hfr1, hfr, ← hfa1]
    · rw [if_neg h1] at hfr1 ⊢
      by_cases h2 : j = ti
      · rw [if_pos h2] at hfa1 ⊢
        rw [← hfr1, ← hfa1, hfa]
      · rw [if_neg h2] at hfa1 ⊢
        rw [← hfr1, ← hfa1]
  refine RoutesOK_of_idx ?_ ?_
  · intro a b ra rb hab hga hgb o2 hoa hob
    rcases hget a ra hga with ⟨ra0, hra0, hoea⟩
    rcases hget b rb hgb with ⟨rb0, hrb0, hoeb⟩
    rw [hoea] at hoa
    rw [hoeb] at hob
    have hnda := h.2 ra0 (List.mem_iff_get?.mpr ⟨a, hra0⟩)
    have hndb := h.2 rb0 (List.mem_iff_get?.mpr ⟨b, hrb0⟩)
    have hma : o2 ∈ ra0.orders ∨ (a = ti ∧ o2 = o ∧ o ∉ ra0.orders) := by
      by_cases h1 : a = si
      · rw [if_pos h1] at hoa
        by_cases h2 : a = ti
        · exact absurd (h2.symm.trans h1) hne
        · rw [if_neg h2] at hoa
          exact Or.inl (List.mem_of_mem_erase hoa)
      · rw [if_neg h1] at hoa
        by_cases h2 : a = ti
        · rw [if_pos h2] at hoa
          rcases List.mem_append.mp hoa with hx | hx
          · exact Or.inl hx
          · have ho2 : o2 = o := List.mem_singleton.mp hx
            have : o ∉ ra0.orders := fun hc => h1 (ho a ra0 hra0 hc)
            exact Or.inr ⟨h2, ho2, this⟩
        · rw [if_neg h2] at hoa
          exact Or.inl hoa
    have hmb : o2 ∈ rb0.orders ∨ (b = ti ∧ o2 = o ∧ o ∉ rb0.orders) := by
      by_cases h1 : b = si
      · rw [if_pos h1] at hob
        by_cases h2 : b = ti
        · exact absurd (h2.symm.trans h1) hne
        · rw [if_neg h2] at hob
          exact Or.inl (List.mem_of_mem_erase hob)
      · rw [if_neg h1] at hob
        by_cases h2 : b = ti
        · rw [if_pos h2] at hob
          rcases List.mem_append.mp hob with hx | hx
          · exact Or.inl hx
          · have ho2 : o2 = o := List.mem_singleton.mp hx
            have : o ∉ rb0.orders := fun hc => h1 (ho b rb0 hrb0 hc)
            exact Or.inr ⟨h2, ho2, this⟩
        · rw [if_neg h2] at hob
          exact Or.inl hob
    rcases hma with hx | ⟨ha, rfl, hnoa⟩
    · rcases hmb with hy | ⟨hb, rfl, hnob⟩
      · exact h.disjointIdx a b ra0 rb0 hab hra0 hrb0 o2 hx hy
      · -- o2 = o appended at b = ti, and o ∈ ra0.orders with a ≠ b
        have ha2 := ho a ra0 hra0 hx
        -- a = si; but then at index a = si the o was erased: contradiction with hoa
        rw [if_pos ha2] at hoa
        by_cases h2 : a = ti
        · exact absurd (h2.symm.trans ha2) hne
        · rw [if_neg h2] at hoa
          exact (List.Nodup.not_mem_erase hnda) hoa
    · rcases hmb with hy | ⟨hb, he, hnob⟩
      · have hb2 := ho b rb0 hrb0 hy
        rw [if_pos hb2] at hob
        by_cases h2 : b = ti
        · exact absurd (h2.symm.trans hb2) hne
        · rw [if_neg h2] at hob
          exact (List.Nodup.not_mem_erase hndb) hob
      · exact hab (ha.trans hb.symm)
  · intro r hr
    rcases List.mem_iff_get?.mp hr with ⟨j, hj⟩
    rcases hget j r hj with ⟨r0, hr0, hoe⟩
    have hnd0 := h.2 r0 (List.mem_iff_get?.mpr ⟨j, hr0⟩)
    have hnodup : r.orders.Nodup := by
      rw [hoe]
      by_cases h1 : j = si
      · rw [if_pos h1]
        by_cases h2 : j = ti
        · rw [if_pos h2]
          refine List.Nodup.erase o ?_
          simp only [List.nodup_append, List.nodup_cons, List.not_mem_nil,
            not_false_iff, List.nodup_nil, and_true, true_and]
          refine ⟨hnd0, ?_⟩
          simp only [List.disjoint_singleton]
          intro hc
          exact hne ((ho j r0 hr0 hc).symm.trans h2).symm
        · rw [if_neg h2]
          exact List.Nodup.erase o hnd0
      · rw [if_neg h1]
        by_cases h2 : j = ti
        · rw [if_pos h2]
          simp only [List.nodup_append, List.nodup_cons, List.not_mem_nil,
            not_false_iff, List.nodup_nil, and_true, true_and]
          refine ⟨hnd0, ?_⟩
          simp only [List.disjoint_singleton]
          intro hc
          exact h1 (ho j r0 hr0 hc)
        · rw [if_neg h2]
          exact hnd0
    exact hnodup

theorem RoutesOK_append_singleton {rs : List Route} {r : Route}
    (h : RoutesOK rs) (hnd : r.orders.Nodup)
    (hdis : ∀ o ∈ r.orders, ∀ r2 ∈ rs, o ∉ r2.orders) :
    RoutesOK (rs ++ [r]) := by
  constructor
  · rw [List.pairwise_append]
    refine ⟨h.1, List.pairwise_singleton _ _, ?_⟩
    intro a ha b hb o hao hbo
    rw [List.mem_singleton.mp hb] at hbo
    exact hdis o hbo a ha hao
  · intro r2 hr2
    rcases List.mem_append.mp hr2 with hx | hx
    · exact h.2 r2 hx
    · rw [List.mem_singleton.mp hx]
      exact hnd

theorem RoutesOK_tail {r : Route} {rs : List Route} (h : RoutesOK (r :: rs)) :
    RoutesOK rs :=
  ⟨(List.pairwise_cons.mp h.1).2, fun r2 hr2 => h.2 r2 (List.mem_cons_of_mem _ hr2)⟩

theorem unionOrders_acc : ∀ (rs : List Route) (acc : Finset String),
    rs.foldl (fun a r => a ∪ r.orders.toFinset) acc = acc ∪ unionOrders rs := by
  intro rs
  induction rs with
  | nil => intro acc; simp [unionOrders]
  | cons r rest ih =>
    intro acc
    simp only [unionOrders, List.foldl_cons]
    rw [ih, ih (∅ ∪ r.orders.toFinset)]
    ext x
    simp [or_assoc]

theorem mem_unionOrders {rs : List Route} {o : String} :
    o ∈ unionOrders rs ↔ ∃ r ∈ rs, o ∈ r.orders := by
  induction rs with
  | nil => simp [unionOrders]
  | cons r rest ih =>
    rw [show unionOrders (r :: rest) =
      List.foldl (fun a r2 => a ∪ r2.orders.toFinset) (∅ ∪ r.orders.toFinset) rest
      from rfl, unionOrders_acc]
    simp only [Finset.mem_union, Finset.empty_union, List.mem_toFinset]
    rw [ih]
    constructor
    · rintro (hx | ⟨r2, hr2, ho2⟩)
      · exact ⟨r, List.mem_cons_self _ _, hx⟩
      · exact ⟨r2, List.mem_cons_of_mem _ hr2, ho2⟩
    · rintro ⟨r2, hr2, ho2⟩
      rcases List.mem_cons.mp hr2 with rfl | hx
      · exact Or.inl ho2
      · exact Or.inr ⟨r2, hx, ho2⟩

theorem card_unionOrders : ∀ {rs : List Route}, RoutesOK rs →
    (unionOrders rs).card = sumLen rs := by
  intro rs
  induction rs with
  | nil => intro _; rfl
  | cons r rest ih =>
    intro h
    have hcons : unionOrders (r :: rest) = r.orders.toFinset ∪ unionOrders rest := by
      rw [show unionOrders (r :: rest) =
        List.foldl (fun a r2 => a ∪ r2.orders.toFinset) (∅ ∪ r.orders.toFinset) rest
        from rfl, unionOrders_acc]
      simp
    have hd : Disjoint r.orders.toFinset (unionOrders rest) := by
      rw [Finset.disjoint_left]
      intro o hom hmem
      rcases mem_unionOrders.mp hmem with ⟨r2, hr2, ho2⟩
      exact (List.pairwise_cons.mp h.1).1 r2 hr2 o (List.mem_toFinset.mp hom) ho2
    rw [hcons, Finset.card_union_of_disjoint hd, ih (RoutesOK_tail h),
      List.toFinset_card_of_nodup (h.2 r (List.mem_cons_self _ _)), sumLen_cons]

theorem sortedOrders_perm (env : Env) :
    (SolverFinal.sortedOrders env).Perm env.get_all_order_ids := by
  unfold SolverFinal.sortedOrders
  have h1 := List.mergeSort_perm
    (env.get_all_order_ids.map
      (fun oid => (oid, SolverFinal.calculate_order_size env oid)))
    (fun a b => decide (b.2.1 ≤ a.2.1))
  have h2 := h1.map Prod.fst
  rw [List.map_map] at h2
  rw [show (Prod.fst ∘ fun oid => (oid, SolverFinal.calculate_order_size env oid)) =
    id from rfl, List.map_id] at h2
  exact h2

theorem sortedOrders_nodup (env : Env) (h : env.get_all_order_ids.Nodup) :
    (SolverFinal.sortedOrders env).Nodup :=
  (sortedOrders_perm env).nodup_iff.mpr h

theorem packOrders3_spec (env : Env) (vid wid : String) (m : ℕ)
    (assigned : Finset String) :
    ∀ (rest acc : List String), acc.Nodup → (∀ o ∈ acc, o ∉ assigned) →
      rest.Nodup → (∀ o ∈ rest, o ∉ acc) →
      (packOrders env vid wid m assigned rest acc).Nodup ∧
        ∀ o ∈ packOrders env vid wid m assigned rest acc, o ∉ assigned := by
  intro rest
  induction rest with
  | nil => intro acc h1 h2 _ _; exact ⟨h1, h2⟩
  | cons o tl ih =>
    intro acc h1 h2 h3 h4
    have h3t : tl.Nodup := (List.nodup_cons.mp h3).2
    have honotin : o ∉ tl := (List.nodup_cons.mp h3).1
    simp only [packOrders]
    by_cases ha : o ∈ assigned
    · rw [if_pos ha]
      exact ih acc h1 h2 h3t (fun o2 ho2 => h4 o2 (List.mem_cons_of_mem _ ho2))
    · rw [if_neg ha]
      split
      · exact ⟨h1, h2⟩
      split
      · exact ih acc h1 h2 h3t (fun o2 ho2 => h4 o2 (List.mem_cons_of_mem _ ho2))
      split
      · exact ih acc h1 h2 h3t (fun o2 ho2 => h4 o2 (List.mem_cons_of_mem _ ho2))
      · refine ih (acc ++ [o]) ?_ ?_ h3t ?_
        · simp only [List.nodup_append, List.nodup_cons, List.not_mem_nil,
            not_false_iff, List.nodup_nil, and_true, true_and]
          exact ⟨h1, by simpa using h4 o (List.mem_cons_self _ _)⟩
        · intro o2 ho2
          rcases List.mem_append.mp ho2 with hx | hx
          · exact h2 o2 hx
          · rw [List.mem_singleton.mp hx]; exact ha
        · intro o2 ho2
          intro hc
          rcases List.mem_append.mp hc with hx | hx
          · exact h4 o2 (List.mem_cons_of_mem _ ho2) hx
          · rw [List.mem_singleton.mp hx] at ho2
            exact honotin ho2

theorem tryFallbacks_orders_sublist {env : Env} {adj : AdjList} {base : Route}
    {vo : List String} {rp : Route × RouteDict}
    (h : tryFallbacks env adj base vo = some rp) : rp.1.orders.Sublist vo := by
  unfold tryFallbacks at h
  rcases hfull : create_route_dict env {base with orders := vo} adj with _ | rd
  case some =>
    simp only [hfull] at h
    injection h with h
    rw [← h]
  case none =>
  simp only [hfull] at h
  by_cases hlen : 2 < vo.length
  case pos =>
    rw [if_pos hlen] at h
    rcases hhalf : create_route_dict env
        {base with orders := vo.take (vo.length / 2)} adj with _ | rd2
    case some =>
      simp only [hhalf] at h
      injection h with h
      rw [← h]
      exact List.take_sublist _ _
    case none =>
    simp only [hhalf] at h
    by_cases hlen1 : 0 < vo.length
    case pos =>
      rw [if_pos hlen1] at h
      rcases hone : create_route_dict env {base with orders := vo.take 1} adj
        with _ | rd3
      case some =>
        simp only [hone] at h
        injection h with h
        rw [← h]
        exact List.take_sublist _ _
      case none =>
        simp only [hone] at h
        exact Option.noConfusion h
    case neg =>
      rw [if_neg hlen1] at h
      exact Option.noConfusion h
  case neg =>
    rw [if_neg hlen] at h
    simp only [] at h
    by_cases hlen1 : 0 < vo.length
    case pos =>
      rw [if_pos hlen1] at h
      rcases hone : create_route_dict env {base with orders := vo.take 1} adj
        with _ | rd3
      case some =>
        simp only [hone] at h
        injection h with h
        rw [← h]
        exact List.take_sublist _ _
      case none =>
        simp only [hone] at h
        exact Option.noConfusion h
    case neg =>
      rw [if_neg hlen1] at h
      exact Option.noConfusion h

theorem constructPass1_OK (env : Env) (adj : AdjList) (oc : ℕ)
    (so : List String) (hso : so.Nodup) :
    ∀ (vids : List String) (routes : List Route) (assigned used : Finset String),
      RoutesOK routes → (∀ r ∈ routes, ∀ o ∈ r.orders, o ∈ assigned) →
      assigned.card = sumLen routes →
      RoutesOK (constructPass1 env adj oc so vids routes assigned used).1 ∧
      (∀ r ∈ (constructPass1 env adj oc so vids routes assigned used).1,
        ∀ o ∈ r.orders, o ∈ (constructPass1 env adj oc so vids routes assigned used).2.1) ∧
      (constructPass1 env adj oc so vids routes assigned used).2.1.card =
        sumLen (constructPass1 env adj oc so vids routes assigned used).1 := by
  intro vids
  induction vids with
  | nil => intro routes assigned used h1 h2 h3; exact ⟨h1, h2, h3⟩
  | cons vid rest ih =>
    intro routes assigned used h1 h2 h3
    simp only [constructPass1]
    split
    · exact ⟨h1, h2, h3⟩
    split
    · exact ih routes assigned used h1 h2 h3
    next vehicle _ =>
    split
    · exact ih routes assigned used h1 h2 h3
    next warehouse _ =>
    split
    · exact ih routes assigned used h1 h2 h3
    split
    · exact ih routes assigned used h1 h2 h3
    next rp hrp =>
    split
    · exact ih routes assigned used h1 h2 h3
    next hone =>
    have hpack := packOrders3_spec env vid warehouse.id (maxOrdersFor3 vehicle.type)
      assigned so [] (by simp) (by simp) hso (by simp)
    have hsub := tryFallbacks_orders_sublist hrp
    have hnd : rp.1.orders.Nodup := hsub.nodup hpack.1
    have hnotass : ∀ o ∈ rp.1.orders, o ∉ assigned :=
      fun o ho => hpack.2 o (hsub.mem ho)
    have hOK : RoutesOK (routes ++ [(evaluate_route_cost env rp.1 adj).2]) := by
      refine RoutesOK_append_singleton h1 ?_ ?_
      · rw [evaluate_orders]; exact hnd
      · rw [evaluate_orders]
        intro o ho r2 hr2 hc
        exact hnotass o ho (h2 r2 hr2 o hc)
    refine ih (routes ++ [(evaluate_route_cost env rp.1 adj).2])
      (assigned ∪ rp.1.orders.toFinset) (used ∪ {vid}) hOK ?_ ?_
    · intro r hr o ho
      rcases List.mem_append.mp hr with hx | hx
      · exact Finset.mem_union_left _ (h2 r hx o ho)
      · rw [List.mem_singleton.mp hx] at ho
        rw [evaluate_orders] at ho
        exact Finset.mem_union_right _ (List.mem_toFinset.mpr ho)
    · rw [Finset.card_union_of_disjoint, h3,
        List.toFinset_card_of_nodup hnd]
      · simp only [sumLen, List.map_append, List.sum_append, List.map_cons,
          List.map_nil, List.sum_cons, List.sum_nil, evaluate_orders]
        omega
      · rw [Finset.disjoint_right]
        intro o ho
        exact hnotass o (List.mem_toFinset.mp ho)

theorem pass2Scan_spec (env : Env) (adj : AdjList) (base : Route) :
    ∀ (l : List String) (ro : Route × String),
      pass2Scan env adj base l = some ro →
      ro.2 ∈ l ∧ ro.1 = base.add_order ro.2 := by
  intro l
  induction l with
  | nil => intro ro h; cases h
  | cons o tl ih =>
    intro ro h
    simp only [pass2Scan] at h
    split at h
    · injection h with h
      rw [← h]
      exact ⟨List.mem_cons_self _ _, rfl⟩
    · rcases ih ro h with ⟨hmem, heq⟩
      exact ⟨List.mem_cons_of_mem _ hmem, heq⟩

theorem constructPass2_OK (env : Env) (adj : AdjList) :
    ∀ (vids remaining : List String) (routes : List Route)
      (assigned : Finset String),
      RoutesOK routes → (∀ r ∈ routes, ∀ o ∈ r.orders, o ∈ assigned) →
      remaining.Nodup → (∀ o ∈ remaining, o ∉ assigned) →
      assigned.card = sumLen routes →
      RoutesOK (constructPass2 env adj vids remaining routes assigned).1 ∧
      (constructPass2 env adj vids remaining routes assigned).2.card =
        sumLen (constructPass2 env adj vids remaining routes assigned).1 := by
  intro vids
  induction vids with
  | nil => intro remaining routes assigned h1 _ _ _ h5; exact ⟨h1, h5⟩
  | cons vid rest ih =>
    intro remaining routes assigned h1 h2 h3 h4 h5
    simp only [constructPass2]
    split
    · exact ⟨h1, h5⟩
    split
    · exact ih remaining routes assigned h1 h2 h3 h4 h5
    next vehicle _ =>
    split
    · exact ih remaining routes assigned h1 h2 h3 h4 h5
    next warehouse _ =>
    split
    · exact ih remaining routes assigned h1 h2 h3 h4 h5
    next ro hro =>
    rcases pass2Scan_spec env adj _ remaining ro hro with ⟨hmem, heq⟩
    have hords : ro.1.orders = [ro.2] := by
      rw [heq]; rfl
    have hOK : RoutesOK (routes ++ [(evaluate_route_cost env ro.1 adj).2]) := by
      refine RoutesOK_append_singleton h1 ?_ ?_
      · rw [evaluate_orders, hords]; simp
      · rw [evaluate_orders, hords]
        intro o ho r2 hr2 hc
        rw [List.mem_singleton.mp ho] at hc
        exact h4 ro.2 hmem (h2 r2 hr2 ro.2 hc)
    refine ih (remaining.erase ro.2) (routes ++ [(evaluate_route_cost env ro.1 adj).2])
      (assigned ∪ {ro.2}) hOK ?_ (h3.erase ro.2) ?_ ?_
    · intro r hr o ho
      rcases List.mem_append.mp hr with hx | hx
      · exact Finset.mem_union_left _ (h2 r hx o ho)
      · rw [List.mem_singleton.mp hx] at ho
        rw [evaluate_orders, hords] at ho
        rw [List.mem_singleton.mp ho]
        exact Finset.mem_union_right _ (Finset.mem_singleton_self _)
    · intro o ho
      rcases (h3.mem_erase_iff).mp ho with ⟨hne2, hmem2⟩
      simp only [Finset.mem_union, Finset.mem_singleton]
      rintro (hx | hx)
      · exact h4 o hmem2 hx
      · exact hne2 hx
    · rw [Finset.card_union_of_disjoint, h5]
      · simp only [sumLen, List.map_append, List.sum_append, List.map_cons,
          List.map_nil, List.sum_cons, List.sum_nil, evaluate_orders, hords]
        simp
      · rw [Finset.disjoint_right]
        intro o ho
        rw [Finset.mem_singleton.mp ho]
        exact h4 ro.2 hmem

theorem construct_initial_solution_OK (env : Env) (adj : AdjList)
    (hnd : env.get_all_order_ids.Nodup) :
    RoutesOK (construct_initial_solution env adj).1 ∧
    (construct_initial_solution env adj).2.card =
      sumLen (construct_initial_solution env adj).1 := by
  unfold construct_initial_solution
  have hso := sortedOrders_nodup env hnd
  have hp1 := constructPass1_OK env adj env.get_all_order_ids.length
    (SolverFinal.sortedOrders env) hso env.get_available_vehicles [] ∅ ∅
    ⟨List.Pairwise.nil, by simp⟩ (by simp) (by simp [sumLen])
  refine constructPass2_OK env adj _ _ _ _ hp1.1 hp1.2.1 (hso.filter _) ?_ hp1.2.2
  intro o ho
  rcases List.mem_filter.mp ho with ⟨_, hdec⟩
  simpa using hdec

theorem getD_mod_mem {α : Type} (l : List α) (k : ℕ) (d : α) (h : l ≠ []) :
    (l.get? (k % l.length)).getD d ∈ l := by
  have hlt : k % l.length < l.length :=
    Nat.mod_lt _ (List.length_pos.mpr h)
  rw [List.get?_eq_get hlt]
  exact List.get_mem _ _ _

theorem setAt_mem {f : Route → Route} {i : ℕ} {rs : List Route} {r : Route}
    (hr : r ∈ setAt f i rs) : ∃ r0 ∈ rs, r = f r0 ∨ r = r0 := by
  rcases List.mem_iff_get?.mp hr with ⟨j, hj⟩
  rw [setAt_get?] at hj
  rcases Option.map_eq_some'.mp hj with ⟨r0, hr0, hfr⟩
  refine ⟨r0, List.mem_iff_get?.mpr ⟨j, hr0⟩, ?_⟩
  by_cases hji : j = i
  · rw [if_pos hji] at hfr; exact Or.inl hfr.symm
  · rw [if_neg hji] at hfr; exact Or.inr hfr.symm

theorem mem_of_get? {rs : List Route} {j : ℕ} {r : Route}
    (h : rs.get? j = some r) : r ∈ rs :=
  List.mem_iff_get?.mpr ⟨j, h⟩

theorem giScan_some (env : Env) (adj : AdjList) (o : String) :
    ∀ (l : List (ℕ × Route)) (bi : Option ℚ) (best : Option ℕ) (i : ℕ),
      giScan env adj o l bi best = some i →
      (∃ p ∈ l, p.1 = i) ∨ best = some i := by
  intro l
  induction l with
  | nil => intro bi best i h; exact Or.inr h
  | cons p rest ih =>
    intro bi best i h
    obtain ⟨j, route⟩ := p
    simp only [giScan] at h
    split at h
    · rcases ih _ _ _ h with ⟨q, hq, hqe⟩ | he
      · exact Or.inl ⟨q, List.mem_cons_of_mem _ hq, hqe⟩
      · exact Or.inr he
    split at h
    · rcases ih _ _ _ h with ⟨q, hq, hqe⟩ | he
      · exact Or.inl ⟨q, List.mem_cons_of_mem _ hq, hqe⟩
      · exact Or.inr he
    split at h
    · rcases ih _ _ _ h with ⟨q, hq, hqe⟩ | he
      · exact Or.inl ⟨q, List.mem_cons_of_mem _ hq, hqe⟩
      · exact Or.inr he
    · split at h
      · rcases ih _ _ _ h with ⟨q, hq, hqe⟩ | he
        · exact Or.inl ⟨q, List.mem_cons_of_mem _ hq, hqe⟩
        · injection he with he
          exact Or.inl ⟨(j, route), List.mem_cons_self _ _, he⟩
      · rcases ih _ _ _ h with ⟨q, hq, hqe⟩ | he
        · exact Or.inl ⟨q, List.mem_cons_of_mem _ hq, hqe⟩
        · exact Or.inr he

theorem greedy_insertion_OK (env : Env) (adj : AdjList) :
    ∀ (snap un : List String) (routes : List Route),
      RoutesOK routes → snap.Nodup →
      (∀ o ∈ snap, ∀ r ∈ routes, o ∉ r.orders) →
      RoutesOK (greedy_insertion env adj snap un routes).2 ∧
      sumLen routes ≤ sumLen (greedy_insertion env adj snap un routes).2 := by
  intro snap
  induction snap with
  | nil => intro un routes h1 _ _; exact ⟨h1, le_refl _⟩
  | cons o tl ih =>
    intro un routes h1 h2 h3
    have h2t : tl.Nodup := (List.nodup_cons.mp h2).2
    have honotl : o ∉ tl := (List.nodup_cons.mp h2).1
    simp only [greedy_insertion]
    split
    next i hscan =>
      rw [modifyIdx_eq_setAt]
      have horders : ∀ r : Route,
          ((evaluate_route_cost env (r.add_order o) adj).2).orders =
          r.orders ++ [o] := by
        intro r
        rw [evaluate_orders, add_order_orders]
      have hnotin : ∀ j r, routes.get? j = some r → o ∉ r.orders :=
        fun j r hj => h3 o (List.mem_cons_self _ _) r (mem_of_get? hj)
      have hOK2 : RoutesOK (setAt
          (fun r => (evaluate_route_cost env (r.add_order o) adj).2) i routes) :=
        RoutesOK_setAt_add _ o horders i hnotin h1
      have hvalid : ∃ r, routes.get? i = some r := by
        rcases giScan_some env adj o routes.enum none none i hscan with ⟨p, hp, hpe⟩ | he
        · exact ⟨p.2, hpe ▸ List.mem_enum_iff_get?.mp hp⟩
        · cases he
      rcases hvalid with ⟨r0, hr0⟩
      have hsum : sumLen (setAt
          (fun r => (evaluate_route_cost env (r.add_order o) adj).2) i routes) =
          sumLen routes + 1 :=
        setAt_sumLen_add _ o horders routes i r0 hr0
      have hmem2 : ∀ o2 ∈ tl, ∀ r ∈ setAt
          (fun r => (evaluate_route_cost env (r.add_order o) adj).2) i routes,
          o2 ∉ r.orders := by
        intro o2 ho2 r hr hc
        rcases setAt_mem hr with ⟨rb, hrb, rfl | rfl⟩
        · rw [horders] at hc
          rcases List.mem_append.mp hc with hx | hx
          · exact h3 o2 (List.mem_cons_of_mem _ ho2) rb hrb hx
          · rw [List.mem_singleton.mp hx] at ho2
            exact honotl ho2
        · exact h3 o2 (List.mem_cons_of_mem _ ho2) r hrb hc
      rcases ih (un.erase o) _ hOK2 h2t hmem2 with ⟨hA, hB⟩
      exact ⟨hA, by omega⟩
    · exact ih un routes h1 h2t
        (fun o2 ho2 => h3 o2 (List.mem_cons_of_mem _ ho2))

theorem insertion_costs_index {env : Env} {adj : AdjList} {o : String}
    {routes : List Route} {c : ℚ × ℕ}
    (h : c ∈ insertion_costs env adj o routes) :
    ∃ r, routes.get? c.2 = some r := by
  unfold insertion_costs at h
  rcases List.mem_filterMap.mp h with ⟨p, hp, hf⟩
  have hge : routes.get? p.1 = some p.2 := List.mem_enum_iff_get?.mp hp
  split at hf
  · cases hf
  split at hf
  · cases hf
  split at hf
  · cases hf
  · injection hf with hf
    rw [← hf]
    exact ⟨p.2, hge⟩

theorem regrets_index {env : Env} {adj : AdjList} {k : ℕ} {un : List String}
    {routes : List Route} {x : ℚ × String × ℕ}
    (h : x ∈ regrets env adj k un routes) :
    ∃ r, routes.get? x.2.2 = some r := by
  unfold regrets at h
  rcases List.mem_filterMap.mp h with ⟨o, _, hf⟩
  rcases hcs : sortedCosts env adj o routes with _ | ⟨c0, restC⟩
  · rw [hcs] at hf; cases hf
  · rw [hcs] at hf
    injection hf with hf
    have hc0 : c0 ∈ insertion_costs env adj o routes := by
      have : c0 ∈ sortedCosts env adj o routes := by
        rw [hcs]; exact List.mem_cons_self _ _
      unfold sortedCosts at this
      exact List.mem_mergeSort.mp this
    rcases insertion_costs_index hc0 with ⟨r, hr⟩
    rw [← hf]
    exact ⟨r, hr⟩

theorem regretLoop_OK (env : Env) (adj : AdjList) (k : ℕ) :
    ∀ (un : List String) (routes : List Route) (trace : List String),
      RoutesOK routes → un.Nodup →
      (∀ o ∈ un, ∀ r ∈ routes, o ∉ r.orders) →
      RoutesOK (regretLoop env adj k un routes trace).2.1 ∧
      sumLen routes ≤ sumLen (regretLoop env adj k un routes trace).2.1 := by
  intro un routes trace
  induction un, routes, trace using regretLoop.induct env adj k with
  | case1 routes trace =>
    intro h1 _ _
    rw [regretLoop]
    exact ⟨by simpa using h1, by simp⟩
  | case2 un routes trace hne h =>
    intro h1 _ _
    rw [regretLoop, if_neg hne]
    split
    next h2 => exact ⟨h1, le_refl _⟩
    next x h2 => rw [h] at h2; exact Option.noConfusion h2
  | case3 un routes trace hne x h hmem hlt ih =>
    intro h1 h2 h3
    rw [regretLoop, if_neg hne]
    split
    next h2x => rw [h] at h2x; exact Option.noConfusion h2x
    next x2 h2x =>
      have hx : x2 = x := Option.some.inj (h2x.symm.trans h)
      subst hx
      have horders : ∀ r : Route,
          ((evaluate_route_cost env (r.add_order x2.2.1) adj).2).orders =
          r.orders ++ [x2.2.1] := by
        intro r
        rw [evaluate_orders, add_order_orders]
      have hxmem : x2 ∈ regrets env adj k un routes := pickMaxRegret_mem _ x2 h
      have hnotin : ∀ j r, routes.get? j = some r → x2.2.1 ∉ r.orders :=
        fun j r hj => h3 x2.2.1 (regrets_order_mem env adj k un routes x2 hxmem)
          r (mem_of_get? hj)
      have hOK2 : RoutesOK (setAt
          (fun r => (evaluate_route_cost env (r.add_order x2.2.1) adj).2)
          x2.2.2 routes) :=
        RoutesOK_setAt_add _ x2.2.1 horders x2.2.2 hnotin h1
      rcases regrets_index hxmem with ⟨r0, hr0⟩
      have hsum : sumLen (setAt
          (fun r => (evaluate_route_cost env (r.add_order x2.2.1) adj).2)
          x2.2.2 routes) = sumLen routes + 1 :=
        setAt_sumLen_add _ x2.2.1 horders routes x2.2.2 r0 hr0
      have hmem2 : ∀ o2 ∈ un.erase x2.2.1, ∀ r ∈ setAt
          (fun r => (evaluate_route_cost env (r.add_order x2.2.1) adj).2)
          x2.2.2 routes, o2 ∉ r.orders := by
        intro o2 ho2 r hr hc
        have ho2un : o2 ∈ un := List.mem_of_mem_erase ho2
        have ho2ne : o2 ≠ x2.2.1 := (h2.mem_erase_iff.mp ho2).1
        rcases setAt_mem hr with ⟨rb, hrb, rfl | rfl⟩
        · rw [horders] at hc
          rcases List.mem_append.mp hc with hx2 | hx2
          · exact h3 o2 ho2un rb hrb hx2
          · exact ho2ne (List.mem_singleton.mp hx2)
        · exact h3 o2 ho2un r hrb hc
      rw [← modifyIdx_eq_setAt] at hOK2 hsum hmem2
      rcases ih hOK2 (h2.erase _) hmem2 with ⟨hA, hB⟩
      refine ⟨hA, ?_⟩
      show sumLen routes ≤ sumLen (regretLoop env adj k (un.erase x2.2.1)
        (modifyIdx (fun r => (evaluate_route_cost env (r.add_order x2.2.1) adj).2)
          x2.2.2 routes) (trace ++ [x2.2.1])).2.1
      omega

theorem reEval_OK {env : Env} {adj : AdjList} {rs : List Route}
    (h : RoutesOK rs) : RoutesOK (reEval env adj rs) := by
  unfold reEval
  refine RoutesOK_map _ ?_ ?_ h
  · intro r o ho
    rwa [evaluate_orders] at ho
  · intro r hr
    rwa [evaluate_orders]

theorem reEval_sumLen (env : Env) (adj : AdjList) (rs : List Route) :
    sumLen (reEval env adj rs) = sumLen rs := by
  induction rs with
  | nil => rfl
  | cons r rest ih =>
    simp only [reEval, List.map_cons] at ih ⊢
    rw [sumLen_cons, sumLen_cons, evaluate_orders, ih]

theorem unionOrders_reEval (env : Env) (adj : AdjList) (rs : List Route) :
    unionOrders (reEval env adj rs) = unionOrders rs := by
  ext o
  rw [mem_unionOrders, mem_unionOrders]
  constructor
  · rintro ⟨r, hr, ho⟩
    rcases List.mem_map.mp hr with ⟨r0, hr0, rfl⟩
    rw [evaluate_orders] at ho
    exact ⟨r0, hr0, ho⟩
  · rintro ⟨r, hr, ho⟩
    exact ⟨(evaluate_route_cost env r adj).2, List.mem_map.mpr ⟨r, hr, rfl⟩,
      by rwa [evaluate_orders]⟩

theorem setAt_comm (f g : Route → Route) (i j : ℕ) (hij : i ≠ j)
    (rs : List Route) :
    setAt f i (setAt g j rs) = setAt g j (setAt f i rs) := by
  apply List.ext
  intro n
  rw [setAt_get?, setAt_get?, setAt_get?, setAt_get?]
  rcases rs.get? n with _ | r
  · rfl
  · simp only [Option.map_some']
    by_cases hni : n = i
    · rw [if_pos hni, if_neg (hni ▸ hij), if_pos hni, if_neg (hni ▸ hij)]
    · by_cases hnj : n = j
      · rw [if_neg hni, if_pos hnj, if_pos hnj, if_neg hni]
      · rw [if_neg hni, if_neg hnj, if_neg hnj, if_neg hni]

theorem balanceScan_spec (env : Env) (adj : AdjList) (li : ℕ) (o : String)
    (routes : List Route) :
    ∀ (l : List (ℕ × Route)) (routes2 : List Route),
      balanceScan env adj li o routes l = some routes2 →
      ∃ i target longest, (i, target) ∈ l ∧ i ≠ li ∧
        routes.get? li = some longest ∧
        routes2 = modifyIdx
          (fun r => (evaluate_route_cost env (r.add_order o) adj).2) i
          (modifyIdx
            (fun r => (evaluate_route_cost env (r.remove_order o) adj).2) li
            routes) := by
  intro l
  induction l with
  | nil => intro r2 h; cases h
  | cons p rest ih =>
    intro r2 h
    obtain ⟨i, other⟩ := p
    simp only [balanceScan] at h
    by_cases hil : i = li
    · rw [if_pos hil] at h
      rcases ih r2 h with ⟨i2, t2, lg, hmem, hne, hlg, he⟩
      exact ⟨i2, t2, lg, List.mem_cons_of_mem _ hmem, hne, hlg, he⟩
    · rw [if_neg hil] at h
      split at h
      next hli => exact Option.noConfusion h
      next longest hli =>
        split at h
        · rcases ih r2 h with ⟨i2, t2, lg, hmem, hne, hlg, he⟩
          exact ⟨i2, t2, lg, List.mem_cons_of_mem _ hmem, hne, hlg, he⟩
        split at h
        · rcases ih r2 h with ⟨i2, t2, lg, hmem, hne, hlg, he⟩
          exact ⟨i2, t2, lg, List.mem_cons_of_mem _ hmem, hne, hlg, he⟩
        split at h
        · rcases ih r2 h with ⟨i2, t2, lg, hmem, hne, hlg, he⟩
          exact ⟨i2, t2, lg, List.mem_cons_of_mem _ hmem, hne, hlg, he⟩
        · split at h
          next cl co =>
            split at h
            · injection h with h2
              exact ⟨i, other, longest, List.mem_cons_self _ _, hil, hli, h2.symm⟩
            · rcases ih r2 h with ⟨i2, t2, lg, hmem, hne, hlg, he⟩
              exact ⟨i2, t2, lg, List.mem_cons_of_mem _ hmem, hne, hlg, he⟩
          next =>
            rcases ih r2 h with ⟨i2, t2, lg, hmem, hne, hlg, he⟩
            exact ⟨i2, t2, lg, List.mem_cons_of_mem _ hmem, hne, hlg, he⟩

theorem balanceLoop_OK (env : Env) (adj : AdjList) (li : ℕ) :
    ∀ (snap : List String) (routes : List Route),
      RoutesOK routes → snap.Nodup →
      (∀ o ∈ snap, ∀ j r, routes.get? j = some r → (o ∈ r.orders ↔ j = li)) →
      RoutesOK (balanceLoop env adj li snap routes) ∧
      sumLen (balanceLoop env adj li snap routes) = sumLen routes := by
  intro snap
  induction snap with
  | nil => intro routes h1 _ _; exact ⟨h1, rfl⟩
  | cons o tl ih =>
    intro routes h1 h2 h3
    have h2t : tl.Nodup := (List.nodup_cons.mp h2).2
    simp only [balanceLoop]
    split
    next routes2 hscan =>
      rcases balanceScan_spec env adj li o routes routes.enum routes2 hscan with
        ⟨i, target, longest, hmem, hne, hlg, he⟩
      have hget : routes.get? i = some target := List.mem_enum_iff_get?.mp hmem
      have hremorders : ∀ r : Route,
          ((evaluate_route_cost env (r.remove_order o) adj).2).orders =
          r.orders.erase o := by
        intro r
        rw [evaluate_orders, remove_order_orders]
      have haddorders : ∀ r : Route,
          ((evaluate_route_cost env (r.add_order o) adj).2).orders =
          r.orders ++ [o] := by
        intro r
        rw [evaluate_orders, add_order_orders]
      have honly : ∀ j r, routes.get? j = some r → o ∈ r.orders → j = li :=
        fun j r hj ho => (h3 o (List.mem_cons_self _ _) j r hj).mp ho
      have holi : o ∈ longest.orders :=
        (h3 o (List.mem_cons_self _ _) li longest hlg).mpr rfl
      have hOK2 : RoutesOK routes2 := by
        rw [he, modifyIdx_eq_setAt, modifyIdx_eq_setAt, setAt_comm _ _ i li hne]
        exact RoutesOK_move _ _ o haddorders hremorders li i hne honly h1
      have hsum2 : sumLen routes2 = sumLen routes := by
        rw [he, modifyIdx_eq_setAt, modifyIdx_eq_setAt]
        have hsub : sumLen (setAt
            (fun r => (evaluate_route_cost env (r.remove_order o) adj).2) li
            routes) + 1 = sumLen routes :=
          setAt_sumLen_sub _ o hremorders routes li longest hlg holi
        have hgt : (setAt
            (fun r => (evaluate_route_cost env (r.remove_order o) adj).2) li
            routes).get? i = some target := by
          rw [setAt_get?, hget]
          simp [hne]
        have hadd := setAt_sumLen_add _ o haddorders _ i target hgt
        omega
      have h3' : ∀ o2 ∈ tl, ∀ j r, routes2.get? j = some r →
          (o2 ∈ r.orders ↔ j = li) := by
        intro o2 ho2 j r hj
        have ho2ne : o2 ≠ o := by
          intro hc
          exact (List.nodup_cons.mp h2).1 (hc ▸ ho2)
        rw [he, modifyIdx_eq_setAt, modifyIdx_eq_setAt, setAt_get?,
          setAt_get?] at hj
        rcases Option.map_eq_some'.mp hj with ⟨r1, hr1, hfr1⟩
        rcases Option.map_eq_some'.mp hr1 with ⟨r0, hr0, hfa1⟩
        have hold := h3 o2 (List.mem_cons_of_mem _ ho2) j r0 hr0
        by_cases hjli : j = li
        · rw [if_pos hjli] at hfa1
          by_cases hji : j = i
          · exact absurd (hji.symm.trans hjli) hne
          · rw [if_neg hji] at hfr1
            rw [← hfr1, ← hfa1, hremorders,
              List.mem_erase_of_ne ho2ne]
            exact hold
        · rw [if_neg hjli] at hfa1
          by_cases hji : j = i
          · rw [if_pos hji] at hfr1
            rw [← hfr1, ← hfa1, haddorders]
            constructor
            · intro hc
              rcases List.mem_append.mp hc with hx | hx
              · exact hold.mp hx
              · exact absurd (List.mem_singleton.mp hx) ho2ne
            · intro hc
              exact absurd hc hjli
          · rw [if_neg hji] at hfr1
            rw [← hfr1, ← hfa1]
            exact hold
      rcases ih routes2 hOK2 h2t h3' with ⟨hA, hB⟩
      exact ⟨hA, by omega⟩
    · exact ih routes h1 h2t
        (fun o2 ho2 => h3 o2 (List.mem_cons_of_mem _ ho2))

theorem balance_routes_OK {env : Env} {adj : AdjList} {routes : List Route}
    (h : RoutesOK routes) :
    RoutesOK (balance_routes env adj routes) ∧
    sumLen (balance_routes env adj routes) = sumLen routes := by
  unfold balance_routes
  split
  · exact ⟨h, rfl⟩
  split
  · exact ⟨h, rfl⟩
  next li _ =>
  rcases hli : routes.get? li with _ | longest
  · exact ⟨h, rfl⟩
  · simp only
    split
    · exact ⟨h, rfl⟩
    · refine balanceLoop_OK env adj li longest.orders routes h
        (h.2 longest (mem_of_get? hli)) ?_
      intro o ho j r hj
      constructor
      · intro hc
        by_cases hjli : j = li
        · exact hjli
        · exact absurd hc (h.disjointIdx li j longest r
            (fun he => hjli he.symm) hli hj o ho)
      · intro hc
        subst hc
        rw [hj] at hli
        rw [Option.some.inj hli]
        exact ho

/-- Both branches of the `while` loop step deliver a state. -/
def iterOut : AlnsState ⊕ AlnsState → AlnsState
  | Sum.inl s => s
  | Sum.inr s => s

/-- The routes after a committed relocation of `o` from route `si` to route
`ti` (the two direct `cost` writes of the Python code). -/
def relocRoutes (o : String) (cs ct : ℚ) (si ti : ℕ) (rs : List Route) :
    List Route :=
  modifyIdx (fun r => { r.remove_order o with cost := cs }) si
    (modifyIdx (fun r => { r.add_order o with cost := ct }) ti rs)

theorem relocScan_spec (env : Env) (adj : AdjList) (si : ℕ) (source : Route)
    (o : String) (s : AlnsState) :
    ∀ l : List (ℕ × Route),
      relocScan env adj si source o s l = s ∨
      ∃ ti target cs ct, (ti, target) ∈ l ∧ ti ≠ si ∧
        (relocScan env adj si source o s l =
            { s with routes := relocRoutes o cs ct si ti s.routes } ∧
          ¬ sumCost (relocRoutes o cs ct si ti s.routes) < s.best_cost ∨
         relocScan env adj si source o s l =
            { s with
              routes := relocRoutes o cs ct si ti s.routes
              best_routes := relocRoutes o cs ct si ti s.routes
              best_cost := sumCost (relocRoutes o cs ct si ti s.routes)
              improvements := s.improvements + 1 } ∧
          sumCost (relocRoutes o cs ct si ti s.routes) < s.best_cost) := by
  intro l
  induction l with
  | nil => exact Or.inl rfl
  | cons p rest ih =>
    obtain ⟨ti, target⟩ := p
    simp only [relocScan]
    by_cases hts : ti = si
    · rw [if_pos hts]
      rcases ih with he | ⟨ti2, t2, cs, ct, hmem, hne, hrest⟩
      · exact Or.inl he
      · exact Or.inr ⟨ti2, t2, cs, ct, List.mem_cons_of_mem _ hmem, hne, hrest⟩
    · rw [if_neg hts]
      split
      · rcases ih with he | ⟨ti2, t2, cs, ct, hmem, hne, hrest⟩
        · exact Or.inl he
        · exact Or.inr ⟨ti2, t2, cs, ct, List.mem_cons_of_mem _ hmem, hne, hrest⟩
      split
      · rcases ih with he | ⟨ti2, t2, cs, ct, hmem, hne, hrest⟩
        · exact Or.inl he
        · exact Or.inr ⟨ti2, t2, cs, ct, List.mem_cons_of_mem _ hmem, hne, hrest⟩
      · split
        next cl co hcs hct =>
          split
          · by_cases hcc : sumCost (modifyIdx
                (fun r => { r.remove_order o with cost := cl }) si
                (modifyIdx (fun r => { r.add_order o with cost := co }) ti
                  s.routes)) < s.best_cost
            · rw [if_pos hcc]
              exact Or.inr ⟨ti, target, cl, co, List.mem_cons_self _ _, hts,
                Or.inr ⟨rfl, hcc⟩⟩
            · rw [if_neg hcc]
              exact Or.inr ⟨ti, target, cl, co, List.mem_cons_self _ _, hts,
                Or.inl ⟨rfl, hcc⟩⟩
          · rcases ih with he | ⟨ti2, t2, cs2, ct2, hmem, hne, hrest⟩
            · exact Or.inl he
            · exact Or.inr ⟨ti2, t2, cs2, ct2, List.mem_cons_of_mem _ hmem, hne,
                hrest⟩
        all_goals
          rcases ih with he | ⟨ti2, t2, cs2, ct2, hmem, hne, hrest⟩
        all_goals
          first
          | exact Or.inl he
          | exact Or.inr ⟨ti2, t2, cs2, ct2, List.mem_cons_of_mem _ hmem, hne,
              hrest⟩

theorem relocRoutes_OK {o : String} {cs ct : ℚ} {si ti : ℕ} {rs : List Route}
    (hne : ti ≠ si)
    (ho : ∀ j r, rs.get? j = some r → o ∈ r.orders → j = si)
    (h : RoutesOK rs) : RoutesOK (relocRoutes o cs ct si ti rs) := by
  unfold relocRoutes
  rw [modifyIdx_eq_setAt, modifyIdx_eq_setAt]
  exact RoutesOK_move _ _ o (fun r => rfl) (fun r => rfl) si ti hne ho h

theorem relocRoutes_sumLen {o : String} {cs ct : ℚ} {si ti : ℕ}
    {rs : List Route} {source target : Route} (hne : ti ≠ si)
    (hsrc : rs.get? si = some source) (ho : o ∈ source.orders)
    (htgt : rs.get? ti = some target) :
    sumLen (relocRoutes o cs ct si ti rs) = sumLen rs := by
  unfold relocRoutes
  rw [modifyIdx_eq_setAt, modifyIdx_eq_setAt]
  have hadd : sumLen (setAt (fun r => { r.add_order o with cost := ct }) ti rs) =
      sumLen rs + 1 :=
    setAt_sumLen_add _ o (fun r => rfl) rs ti target htgt
  have hget2 : (setAt (fun r => { r.add_order o with cost := ct }) ti rs).get? si =
      some source := by
    rw [setAt_get?, hsrc]
    simp only [Option.map_some']
    rw [if_neg (show ¬ si = ti from fun he => hne he.symm)]
  have hsub := setAt_sumLen_sub
    (fun r => { r.remove_order o with cost := cs }) o (fun r => rfl) _ si
    source hget2 ho
  omega

/-- The C7 invariant of the ALNS loop state: well-formed routes, and the
tracked best fields agree with the best snapshot. -/
def StateOK (s : AlnsState) : Prop :=
  RoutesOK s.routes ∧ RoutesOK s.best_routes ∧
  sumLen s.routes = s.best_fulfillment ∧
  sumLen s.best_routes = s.best_fulfillment ∧
  sumCost s.best_routes = s.best_cost

/-- Best-snapshot evolution over one or more steps: fulfillment never
decreases, and at equal fulfillment the cost never increases — strictly
decreasing whenever the snapshot has been replaced. -/
def BestStep (s s2 : AlnsState) : Prop :=
  s.best_fulfillment ≤ s2.best_fulfillment ∧
  (s2.best_fulfillment = s.best_fulfillment →
    s2.best_cost ≤ s.best_cost ∧
    (s2.best_routes ≠ s.best_routes → s2.best_cost < s.best_cost))

theorem BestStep_refl (s : AlnsState) : BestStep s s :=
  ⟨le_refl _, fun _ => ⟨le_refl _, fun hc => absurd rfl hc⟩⟩

theorem BestStep_same {s s2 : AlnsState}
    (hf : s2.best_fulfillment = s.best_fulfillment)
    (hc : s2.best_cost = s.best_cost) (hr : s2.best_routes = s.best_routes) :
    BestStep s s2 :=
  ⟨le_of_eq hf.symm, fun _ => ⟨le_of_eq hc, fun hcon => absurd hr hcon⟩⟩

theorem BestStep_trans {a b c : AlnsState} (h1 : BestStep a b)
    (h2 : BestStep b c) : BestStep a c := by
  refine ⟨le_trans h1.1 h2.1, fun hf => ?_⟩
  have hfb : b.best_fulfillment = a.best_fulfillment := by
    have := h1.1; have := h2.1; omega
  have hfc : c.best_fulfillment = b.best_fulfillment := by omega
  rcases h1.2 hfb with ⟨hba, hbs⟩
  rcases h2.2 hfc with ⟨hcb, hcs⟩
  refine ⟨le_trans hcb hba, fun hne => ?_⟩
  by_cases hcbr : c.best_routes = b.best_routes
  · have hx : b.best_routes ≠ a.best_routes := fun he => hne (hcbr.trans he)
    exact lt_of_le_of_lt hcb (hbs hx)
  · exact lt_of_lt_of_le (hcs hcbr) hba

theorem sumLen_map_eq (f : Route → Route) (hf : ∀ r, (f r).orders = r.orders) :
    ∀ rs : List Route, sumLen (rs.map f) = sumLen rs := by
  intro rs
  induction rs with
  | nil => rfl
  | cons r rest ih => simp only [List.map_cons, sumLen_cons, hf, ih]

theorem applyBalance_OK {env : Env} {adj : AdjList} {s : AlnsState}
    (h : StateOK s) :
    StateOK (applyBalance env adj s) ∧ BestStep s (applyBalance env adj s) := by
  obtain ⟨h1, h2, h3, h4, h5⟩ := h
  rcases @balance_routes_OK env adj _ h1 with ⟨hbOK, hbsum⟩
  have hrOK : RoutesOK (reEval env adj (balance_routes env adj s.routes)) :=
    reEval_OK hbOK
  have hrsum : sumLen (reEval env adj (balance_routes env adj s.routes)) =
      s.best_fulfillment := by
    rw [reEval_sumLen, hbsum, h3]
  unfold applyBalance
  simp only []
  split
  next hcond =>
    have hcc : sumCost (reEval env adj (balance_routes env adj s.routes)) <
        s.best_cost := by
      rcases hcond with hlt | ⟨_, hlt⟩
      · rw [hrsum] at hlt
        exact absurd hlt (lt_irrefl _)
      · exact hlt
    refine ⟨⟨hrOK, hrOK, rfl, rfl, rfl⟩, le_of_eq hrsum.symm, fun _ => ?_⟩
    exact ⟨le_of_lt hcc, fun _ => hcc⟩
  next hcond =>
    exact ⟨⟨hrOK, h2, hrsum, h4, h5⟩, BestStep_same rfl rfl rfl⟩

theorem applyGreedyRecover_OK (env : Env) (adj : AdjList)
    {all_orders : List String} (hall : all_orders.Nodup)
    {s : AlnsState} (h : StateOK s) :
    StateOK (applyGreedyRecover env adj all_orders s) ∧
    BestStep s (applyGreedyRecover env adj all_orders s) := by
  obtain ⟨h1, h2, h3, h4, h5⟩ := h
  unfold applyGreedyRecover
  simp only []
  split
  · exact ⟨⟨h1, h2, h3, h4, h5⟩, BestStep_refl s⟩
  next hne =>
    have hfn : (all_orders.filter (fun o => o ∉ unionOrders s.routes)).Nodup :=
      hall.filter _
    have hfm : ∀ o ∈ all_orders.filter (fun o => o ∉ unionOrders s.routes),
        ∀ r ∈ s.routes, o ∉ r.orders := by
      intro o ho r hr hc
      have hdec := (List.mem_filter.mp ho).2
      simp only [decide_eq_true_eq] at hdec
      exact hdec (mem_unionOrders.mpr ⟨r, hr, hc⟩)
    rcases greedy_insertion_OK env adj
      (all_orders.filter (fun o => o ∉ unionOrders s.routes))
      (all_orders.filter (fun o => o ∉ unionOrders s.routes))
      s.routes h1 hfn hfm with ⟨hgOK, hgsum⟩
    have hrOK := @reEval_OK env adj _ hgOK
    have hrsum := reEval_sumLen env adj
      (greedy_insertion env adj
        (all_orders.filter (fun o => o ∉ unionOrders s.routes))
        (all_orders.filter (fun o => o ∉ unionOrders s.routes)) s.routes).2
    have hca := card_unionOrders hrOK
    split
    next hcond =>
      refine ⟨⟨hrOK, hrOK, hca.symm, hca.symm, rfl⟩, ?_, fun hf => ?_⟩
      · rcases hcond with hlt | ⟨heq, _⟩
        · exact le_of_lt hlt
        · exact le_of_eq heq.symm
      · have hcc : sumCost (reEval env adj
            (greedy_insertion env adj
              (all_orders.filter (fun o => o ∉ unionOrders s.routes))
              (all_orders.filter (fun o => o ∉ unionOrders s.routes))
              s.routes).2) < s.best_cost := by
          rcases hcond with hlt | ⟨_, hlt⟩
          · have hf2 : (unionOrders (reEval env adj
                (greedy_insertion env adj
                  (all_orders.filter (fun o => o ∉ unionOrders s.routes))
                  (all_orders.filter (fun o => o ∉ unionOrders s.routes))
                  s.routes).2)).card = s.best_fulfillment := hf
            rw [hf2] at hlt
            exact absurd hlt (lt_irrefl _)
          · exact hlt
        exact ⟨le_of_lt hcc, fun _ => hcc⟩
    next hcond =>
      push_neg at hcond
      have hsl : sumLen (reEval env adj
          (greedy_insertion env adj
            (all_orders.filter (fun o => o ∉ unionOrders s.routes))
            (all_orders.filter (fun o => o ∉ unionOrders s.routes))
            s.routes).2) = s.best_fulfillment := by
        have hc1 := hcond.1
        omega
      exact ⟨⟨hrOK, h2, hsl, h4, h5⟩, BestStep_same rfl rfl rfl⟩

theorem applyRegretRecover_OK (env : Env) (adj : AdjList)
    {all_orders : List String} (hall : all_orders.Nodup)
    {s : AlnsState} (h : StateOK s) :
    StateOK (applyRegretRecover env adj all_orders s) ∧
    BestStep s (applyRegretRecover env adj all_orders s) := by
  obtain ⟨h1, h2, h3, h4, h5⟩ := h
  unfold applyRegretRecover
  simp only []
  split
  · exact ⟨⟨h1, h2, h3, h4, h5⟩, BestStep_refl s⟩
  next hne =>
    have hfn : (all_orders.filter (fun o => o ∉ unionOrders s.routes)).Nodup :=
      hall.filter _
    have hfm : ∀ o ∈ all_orders.filter (fun o => o ∉ unionOrders s.routes),
        ∀ r ∈ s.routes, o ∉ r.orders := by
      intro o ho r hr hc
      have hdec := (List.mem_filter.mp ho).2
      simp only [decide_eq_true_eq] at hdec
      exact hdec (mem_unionOrders.mpr ⟨r, hr, hc⟩)
    rcases regretLoop_OK env adj 3
      (all_orders.filter (fun o => o ∉ unionOrders s.routes))
      s.routes [] h1 hfn hfm with ⟨hgOK0, hgsum0⟩
    have hgOK : RoutesOK (regret_k_insertion env adj
        (all_orders.filter (fun o => o ∉ unionOrders s.routes))
        s.routes 3).2.1 := hgOK0
    have hgsum : sumLen s.routes ≤ sumLen (regret_k_insertion env adj
        (all_orders.filter (fun o => o ∉ unionOrders s.routes))
        s.routes 3).2.1 := hgsum0
    have hrOK := @reEval_OK env adj _ hgOK
    have hrsum := reEval_sumLen env adj
      (regret_k_insertion env adj
        (all_orders.filter (fun o => o ∉ unionOrders s.routes))
        s.routes 3).2.1
    have hca := card_unionOrders hrOK
    split
    next hcond =>
      refine ⟨⟨hrOK, hrOK, hca.symm, hca.symm, rfl⟩, ?_, fun hf => ?_⟩
      · rcases hcond with hlt | ⟨heq, _⟩
        · exact le_of_lt hlt
        · exact le_of_eq heq.symm
      · have hcc : sumCost (reEval env adj
            (regret_k_insertion env adj
              (all_orders.filter (fun o => o ∉ unionOrders s.routes))
              s.routes 3).2.1) < s.best_cost := by
          rcases hcond with hlt | ⟨_, hlt⟩
          · have hf2 : (unionOrders (reEval env adj
                (regret_k_insertion env adj
                  (all_orders.filter (fun o => o ∉ unionOrders s.routes))
                  s.routes 3).2.1)).card = s.best_fulfillment := hf
            rw [hf2] at hlt
            exact absurd hlt (lt_irrefl _)
          · exact hlt
        exact ⟨le_of_lt hcc, fun _ => hcc⟩
    next hcond =>
      push_neg at hcond
      have hsl : sumLen (reEval env adj
          (regret_k_insertion env adj
            (all_orders.filter (fun o => o ∉ unionOrders s.routes))
            s.routes 3).2.1) = s.best_fulfillment := by
        have hc1 := hcond.1
        omega
      exact ⟨⟨hrOK, h2, hsl, h4, h5⟩, BestStep_same rfl rfl rfl⟩

theorem relocScan_OK {env : Env} {adj : AdjList} {si : ℕ} {source : Route}
    {o : String} {s : AlnsState} (h : StateOK s)
    (hsrc : s.routes.get? si = some source) (ho : o ∈ source.orders) :
    StateOK (relocScan env adj si source o s s.routes.enum) ∧
    BestStep s (relocScan env adj si source o s s.routes.enum) := by
  rcases relocScan_spec env adj si source o s s.routes.enum with
    he | ⟨ti, target, cs, ct, hmem, hne, hres⟩
  · rw [he]
    exact ⟨h, BestStep_refl s⟩
  · have htgt : s.routes.get? ti = some target := List.mem_enum_iff_get?.mp hmem
    have honly : ∀ j r, s.routes.get? j = some r → o ∈ r.orders → j = si := by
      intro j r hj hh
      by_cases hji : j = si
      · exact hji
      · exact absurd ho (h.1.disjointIdx j si r source hji hj hsrc o hh)
    have hROK : RoutesOK (relocRoutes o cs ct si ti s.routes) :=
      relocRoutes_OK hne honly h.1
    have hsum : sumLen (relocRoutes o cs ct si ti s.routes) = sumLen s.routes :=
      relocRoutes_sumLen hne hsrc ho htgt
    rcases hres with ⟨heq, _⟩ | ⟨heq, hb⟩
    · rw [heq]
      exact ⟨⟨hROK, h.2.1, hsum.trans h.2.2.1, h.2.2.2.1, h.2.2.2.2⟩,
        BestStep_same rfl rfl rfl⟩
    · rw [heq]
      refine ⟨⟨hROK, hROK, hsum.trans h.2.2.1, hsum.trans h.2.2.1, rfl⟩,
        le_refl _, fun _ => ⟨le_of_lt hb, fun _ => hb⟩⟩

/-- The body of one ALNS iteration after the source route and order have been
picked (the tail of `alnsIter`). -/
def alnsIterCore (env : Env) (adj : AdjList) (all_orders : List String)
    (i : ℕ) (s1 : AlnsState) (si : ℕ) (source : Route) (o : String) :
    AlnsState ⊕ AlnsState :=
  let s2 := relocScan env adj si source o s1 s1.routes.enum
  let s3 := if i % 50 = 0 then applyGreedyRecover env adj all_orders s2 else s2
  let s4 := if i % 200 = 0 then applyRegretRecover env adj all_orders s3 else s3
  if 5000 < i ∧ s4.improvements = 0 then Sum.inr s4
  else if 10000 < i then Sum.inr s4
  else Sum.inl s4

/-- The body of one ALNS iteration after the periodic balancing step. -/
def alnsIterTail (env : Env) (adj : AdjList) (oracle : AlnsOracle)
    (all_orders : List String) (i : ℕ) (s1 : AlnsState) :
    AlnsState ⊕ AlnsState :=
  if s1.routes.length < 2 then Sum.inr s1
  else
    let source_routes := s1.routes.enum.filter (fun p => 1 < p.2.orders.length)
    if source_routes = [] then Sum.inr s1
    else
      let p := (source_routes.get? (oracle.pickSource i % source_routes.length)).getD
        (0, Route.mkNew "" "" 0)
      if p.2.orders = [] then Sum.inl s1
      else
        let o := (p.2.orders.get? (oracle.pickOrder i % p.2.orders.length)).getD ""
        alnsIterCore env adj all_orders i s1 p.1 p.2 o

theorem alnsIter_eq_tail (env : Env) (adj : AdjList) (oracle : AlnsOracle)
    (all_orders : List String) (i : ℕ) (s : AlnsState) :
    alnsIter env adj oracle all_orders i s =
      alnsIterTail env adj oracle all_orders i
        (if i % 200 = 0 then applyBalance env adj s else s) := rfl

theorem alnsIterCore_OK (env : Env) (adj : AdjList)
    {all_orders : List String} (hall : all_orders.Nodup) (i : ℕ)
    {s1 : AlnsState} {si : ℕ} {source : Route} {o : String}
    (h1 : StateOK s1) (hsrc : s1.routes.get? si = some source)
    (ho : o ∈ source.orders) :
    StateOK (iterOut (alnsIterCore env adj all_orders i s1 si source o)) ∧
    BestStep s1 (iterOut (alnsIterCore env adj all_orders i s1 si source o)) := by
  unfold alnsIterCore
  simp only []
  rcases relocScan_OK h1 hsrc ho with ⟨h2, hb2⟩
  by_cases h50 : i % 50 = 0
  · rw [if_pos h50]
    rcases applyGreedyRecover_OK env adj hall h2 with ⟨h3, hb3⟩
    by_cases h200 : i % 200 = 0
    · rw [if_pos h200]
      rcases applyRegretRecover_OK env adj hall h3 with ⟨h4, hb4⟩
      have hbs := BestStep_trans hb2 (BestStep_trans hb3 hb4)
      split
      · exact ⟨h4, hbs⟩
      split
      · exact ⟨h4, hbs⟩
      · exact ⟨h4, hbs⟩
    · rw [if_neg h200]
      have hbs := BestStep_trans hb2 hb3
      split
      · exact ⟨h3, hbs⟩
      split
      · exact ⟨h3, hbs⟩
      · exact ⟨h3, hbs⟩
  · rw [if_neg h50]
    by_cases h200 : i % 200 = 0
    · rw [if_pos h200]
      rcases applyRegretRecover_OK env adj hall h2 with ⟨h4, hb4⟩
      have hbs := BestStep_trans hb2 hb4
      split
      · exact ⟨h4, hbs⟩
      split
      · exact ⟨h4, hbs⟩
      · exact ⟨h4, hbs⟩
    · rw [if_neg h200]
      split
      · exact ⟨h2, hb2⟩
      split
      · exact ⟨h2, hb2⟩
      · exact ⟨h2, hb2⟩

theorem alnsIterTail_OK (env : Env) (adj : AdjList) (oracle : AlnsOracle)
    {all_orders : List String} (hall : all_orders.Nodup) (i : ℕ)
    (s1 : AlnsState) (h1 : StateOK s1) :
    StateOK (iterOut (alnsIterTail env adj oracle all_orders i s1)) ∧
    BestStep s1 (iterOut (alnsIterTail env adj oracle all_orders i s1)) := by
  unfold alnsIterTail
  simp only []
  split
  · exact ⟨h1, BestStep_refl s1⟩
  next =>
    split
    · exact ⟨h1, BestStep_refl s1⟩
    next hsr =>
      split
      · exact ⟨h1, BestStep_refl s1⟩
      next hpo =>
        refine alnsIterCore_OK env adj hall i h1 ?_ ?_
        · have hpmem := getD_mod_mem
            (s1.routes.enum.filter (fun p => 1 < p.2.orders.length))
            (oracle.pickSource i) (0, Route.mkNew "" "" 0) hsr
          exact List.mem_enum_iff_get?.mp (List.mem_of_mem_filter hpmem)
        · exact getD_mod_mem _ (oracle.pickOrder i) "" hpo

theorem alnsIter_OK (env : Env) (adj : AdjList) (oracle : AlnsOracle)
    {all_orders : List String} (hall : all_orders.Nodup) (i : ℕ)
    {s : AlnsState} (h : StateOK s) :
    StateOK (iterOut (alnsIter env adj oracle all_orders i s)) ∧
    BestStep s (iterOut (alnsIter env adj oracle all_orders i s)) := by
  rw [alnsIter_eq_tail]
  by_cases h200 : i % 200 = 0
  · rw [if_pos h200]
    rcases applyBalance_OK h with ⟨h1, hb1⟩
    rcases alnsIterTail_OK env adj oracle hall i _ h1 with ⟨h2, hb2⟩
    exact ⟨h2, BestStep_trans hb1 hb2⟩
  · rw [if_neg h200]
    exact alnsIterTail_OK env adj oracle hall i s h

theorem alnsLoop_OK (env : Env) (adj : AdjList) (oracle : AlnsOracle)
    {all_orders : List String} (hall : all_orders.Nodup) :
    ∀ (fuel i : ℕ) (s : AlnsState), StateOK s →
      StateOK (alnsLoop env adj oracle all_orders fuel i s) ∧
      BestStep s (alnsLoop env adj oracle all_orders fuel i s) := by
  intro fuel
  induction fuel with
  | zero => intro i s h; exact ⟨h, BestStep_refl s⟩
  | succ n ih =>
    intro i s h
    rw [alnsLoop]
    split
    · exact ⟨h, BestStep_refl s⟩
    · split
      next s2 hiter =>
        have hstep := alnsIter_OK env adj oracle hall i h
        rw [hiter] at hstep
        exact hstep
      next s2 hiter =>
        have hstep := alnsIter_OK env adj oracle hall i h
        rw [hiter] at hstep
        rcases ih (i + 1) s2 hstep.1 with ⟨hA, hB⟩
        exact ⟨hA, BestStep_trans hstep.2 hB⟩

theorem alns_optimize_spec (env : Env) (adj : AdjList) (oracle : AlnsOracle)
    (fuel : ℕ) (routes : List Route) (assigned : Finset String)
    (hnd : env.get_all_order_ids.Nodup)
    (hOK : RoutesOK routes) (hcard : assigned.card = sumLen routes) :
    RoutesOK (alns_optimize env adj oracle fuel routes assigned).1 ∧
    assigned.card ≤
      (unionOrders (alns_optimize env adj oracle fuel routes assigned).1).card ∧
    ((unionOrders (alns_optimize env adj oracle fuel routes assigned).1).card =
        assigned.card →
      sumCost (alns_optimize env adj oracle fuel routes assigned).1 ≤
        sumCost (routes.map
          (fun r => if r.cost = 0 then (evaluate_route_cost env r adj).2 else r))) := by
  have hfo : ∀ r : Route,
      (if r.cost = 0 then (evaluate_route_cost env r adj).2 else r).orders =
      r.orders := by
    intro r
    split
    · exact evaluate_orders env r adj
    · rfl
  have h0OK : RoutesOK (routes.map
      (fun r => if r.cost = 0 then (evaluate_route_cost env r adj).2 else r)) := by
    refine RoutesOK_map _ ?_ ?_ hOK
    · intro r o ho
      rwa [hfo] at ho
    · intro r hn
      rwa [hfo]
  have h0sum : sumLen (routes.map
      (fun r => if r.cost = 0 then (evaluate_route_cost env r adj).2 else r)) =
      sumLen routes := sumLen_map_eq _ hfo routes
  have hs0 : StateOK ⟨routes.map
      (fun r => if r.cost = 0 then (evaluate_route_cost env r adj).2 else r),
      routes.map
        (fun r => if r.cost = 0 then (evaluate_route_cost env r adj).2 else r),
      sumCost (routes.map
        (fun r => if r.cost = 0 then (evaluate_route_cost env r adj).2 else r)),
      assigned.card, assigned, 0⟩ := by
    refine ⟨h0OK, h0OK, ?_, ?_, rfl⟩
    · show sumLen _ = assigned.card
      rw [h0sum, hcard]
    · show sumLen _ = assigned.card
      rw [h0sum, hcard]
  unfold alns_optimize
  simp only []
  rcases alnsLoop_OK env adj oracle hnd fuel 1 _ hs0 with ⟨hF, hBF⟩
  have hcardF : (unionOrders (alnsLoop env adj oracle env.get_all_order_ids fuel 1
      ⟨routes.map (fun r => if r.cost = 0 then (evaluate_route_cost env r adj).2 else r),
      routes.map (fun r => if r.cost = 0 then (evaluate_route_cost env r adj).2 else r),
      sumCost (routes.map (fun r => if r.cost = 0 then (evaluate_route_cost env r adj).2 else r)),
      assigned.card, assigned, 0⟩).best_routes).card =
      (alnsLoop env adj oracle env.get_all_order_ids fuel 1
        ⟨routes.map (fun r => if r.cost = 0 then (evaluate_route_cost env r adj).2 else r),
      routes.map (fun r => if r.cost = 0 then (evaluate_route_cost env r adj).2 else r),
      sumCost (routes.map (fun r => if r.cost = 0 then (evaluate_route_cost env r adj).2 else r)),
      assigned.card, assigned, 0⟩).best_fulfillment := by
    rw [card_unionOrders hF.2.1]
    exact hF.2.2.2.1
  refine ⟨hF.2.1, ?_, ?_⟩
  · rw [hcardF]
    exact hBF.1
  · intro hfeq
    rw [hcardF] at hfeq
    have hle := (hBF.2 hfeq).1
    calc sumCost (alnsLoop env adj oracle env.get_all_order_ids fuel 1
          ⟨routes.map (fun r => if r.cost = 0 then (evaluate_route_cost env r adj).2 else r),
      routes.map (fun r => if r.cost = 0 then (evaluate_route_cost env r adj).2 else r),
      sumCost (routes.map (fun r => if r.cost = 0 then (evaluate_route_cost env r adj).2 else r)),
      assigned.card, assigned, 0⟩).best_routes =
        (alnsLoop env adj oracle env.get_all_order_ids fuel 1
          ⟨routes.map (fun r => if r.cost = 0 then (evaluate_route_cost env r adj).2 else r),
      routes.map (fun r => if r.cost = 0 then (evaluate_route_cost env r adj).2 else r),
      sumCost (routes.map (fun r => if r.cost = 0 then (evaluate_route_cost env r adj).2 else r)),
      assigned.card, assigned, 0⟩).best_cost := hF.2.2.2.2
      _ ≤ _ := hle

theorem buildLegs3_delivered (env : Env) (adj : AdjList) :
    ∀ (oids : List String) (cur : ℕ) (acc : List Step) (sc : List Step × ℕ),
      buildLegs env adj oids cur acc = some sc →
      ∀ o, o ∈ sc.1.flatMap (fun s => s.deliveries.map (fun d => d.order_id)) →
        o ∈ acc.flatMap (fun s => s.deliveries.map (fun d => d.order_id)) ∨
          o ∈ oids := by
  intro oids
  induction oids with
  | nil =>
    intro cur acc sc h o ho
    simp only [buildLegs] at h
    injection h with h
    rw [← h] at ho
    exact Or.inl ho
  | cons o2 rest ih =>
    intro cur acc sc h o ho
    simp only [buildLegs] at h
    split at h
    · exact Option.noConfusion h
    next node _ =>
    split at h
    · exact Option.noConfusion h
    next path _ =>
    rcases ih node _ sc h o ho with hacc | hrest
    · rw [List.flatMap_append, List.flatMap_append] at hacc
      rcases List.mem_append.mp hacc with hx | hx
      · rcases List.mem_append.mp hx with hy | hy
        · exact Or.inl hy
        · exfalso
          rcases List.mem_flatMap.mp hy with ⟨st, hst, hdel⟩
          rcases List.mem_map.mp hst with ⟨nd, _, rfl⟩
          simp [SolverFinal.passStep] at hdel
      · rcases List.mem_flatMap.mp hx with ⟨st, hst, hdel⟩
        rw [List.mem_singleton.mp hst] at hdel
        simp only [SolverFinal.deliveryStep, List.map_map] at hdel
        rcases List.mem_map.mp hdel with ⟨p, _, rfl⟩
        exact Or.inr (List.mem_cons_self _ _)
    · exact Or.inr (List.mem_cons_of_mem _ hrest)

theorem create_route_dict_delivered {env : Env} {route : Route} {adj : AdjList}
    {rd : RouteDict} (h : create_route_dict env route adj = some rd) :
    ∀ o ∈ deliveredOrders rd, o ∈ route.orders := by
  unfold create_route_dict at h
  split at h
  · exact Option.noConfusion h
  split at h
  · exact Option.noConfusion h
  split at h
  · exact Option.noConfusion h
  split at h
  · exact Option.noConfusion h
  simp only [] at h
  split at h
  · exact Option.noConfusion h
  next sc hlegs =>
  split at h
  · exact Option.noConfusion h
  next path_home _ =>
  injection h with h
  intro o ho
  rw [← h] at ho
  unfold deliveredOrders at ho
  simp only at ho
  rw [List.flatMap_append, List.flatMap_append] at ho
  rcases List.mem_append.mp ho with hx | hx
  · rcases List.mem_append.mp hx with hy | hy
    · rcases buildLegs3_delivered env adj route.orders route.home_node _ sc hlegs
        o hy with hz | hz
      · exfalso
        simp at hz
      · exact hz
    · exfalso
      rcases List.mem_flatMap.mp hy with ⟨st, hst, hdel⟩
      rcases List.mem_map.mp hst with ⟨nd, _, rfl⟩
      simp [SolverFinal.passStep] at hdel
  · exfalso
    rcases List.mem_flatMap.mp hx with ⟨st, hst, hdel⟩
    rw [List.mem_singleton.mp hst] at hdel
    simp [SolverFinal.passStep] at hdel

theorem pairwise_filterMap_routes {R : Route → Route → Prop}
    (f : Route → Option RouteDict) (S : RouteDict → RouteDict → Prop)
    (hRS : ∀ a b x y, R a b → f a = some x → f b = some y → S x y) :
    ∀ l : List Route, l.Pairwise R → (l.filterMap f).Pairwise S := by
  intro l
  induction l with
  | nil => intro _; simp
  | cons a rest ih =>
    intro hp
    rcases List.pairwise_cons.mp hp with ⟨hhead, htail⟩
    rcases hfa : f a with _ | x
    · simp only [List.filterMap_cons, hfa]
      exact ih htail
    · simp only [List.filterMap_cons, hfa]
      refine List.pairwise_cons.mpr ⟨?_, ih htail⟩
      intro y hy
      rcases List.mem_filterMap.mp hy with ⟨b, hb, hfb⟩
      exact hRS a b x y (hhead b hb) hfa hfb

theorem solver3_disjoint (env : Env) (oracle : AlnsOracle) (fuel : ℕ)
    (hnd : env.get_all_order_ids.Nodup) :
    (solver env oracle fuel).routes.Pairwise SolverFinal.RoutesDisjoint := by
  unfold solver
  simp only []
  have hra := construct_initial_solution_OK env env.adjacency_list hnd
  have hopt := alns_optimize_spec env env.adjacency_list oracle fuel
    (construct_initial_solution env env.adjacency_list).1
    (construct_initial_solution env env.adjacency_list).2 hnd hra.1 hra.2
  refine pairwise_filterMap_routes
    (fun r => if r.orders = [] then none
      else create_route_dict env r env.adjacency_list)
    SolverFinal.RoutesDisjoint ?_ _ hopt.1.1
  intro a b x y hab hfa hfb
  intro o hox hoy
  simp only [] at hfa hfb
  split at hfa
  · exact Option.noConfusion hfa
  · split at hfb
    · exact Option.noConfusion hfb
    · exact hab o (create_route_dict_delivered hfa o hox)
        (create_route_dict_delivered hfb o hoy)

theorem foldl_remove_sublist : ∀ (l : List String) (r : Route),
    ((l.foldl Route.remove_order r).orders).Sublist r.orders := by
  intro l
  induction l with
  | nil => intro r; exact List.Sublist.refl _
  | cons o t ih =>
    intro r
    simp only [List.foldl_cons]
    refine (ih (r.remove_order o)).trans ?_
    rw [remove_order_orders]
    exact List.erase_sublist _ _

theorem random_removal_OK {routes : List Route} {n : ℕ}
    {sample : List String → ℕ → List String} (h : RoutesOK routes) :
    RoutesOK (random_removal routes n sample).2 := by
  unfold random_removal
  simp only []
  split
  · exact h
  · show RoutesOK (routes.map _)
    refine RoutesOK_map _ ?_ ?_ h
    · intro r o ho
      exact (foldl_remove_sublist _ r).subset ho
    · intro r hn
      exact (foldl_remove_sublist _ r).nodup hn

theorem foldl_modify_remove_OK {β : Type} :
    ∀ (chosen : List (String × β × ℕ)) (rs : List Route), RoutesOK rs →
      RoutesOK (chosen.foldl
        (fun rs2 c => modifyIdx (fun r => r.remove_order c.1) c.2.2 rs2) rs) := by
  intro chosen
  induction chosen with
  | nil => intro rs h; exact h
  | cons c t ih =>
    intro rs h
    simp only [List.foldl_cons]
    refine ih _ ?_
    rw [modifyIdx_eq_setAt]
    refine RoutesOK_setAt_sub _ ?_ ?_ _ h
    · intro r o ho
      rw [remove_order_orders] at ho
      exact List.mem_of_mem_erase ho
    · intro r hn
      rw [remove_order_orders]
      exact hn.erase _

theorem worst_removal_OK {env : Env} {routes : List Route} {adj : AdjList}
    {n : ℕ} (h : RoutesOK routes) :
    RoutesOK (worst_removal env routes adj n).2 := by
  unfold worst_removal
  simp only []
  exact foldl_modify_remove_OK _ routes h

theorem related_removal_OK {env : Env} {routes : List Route} {n pick : ℕ}
    {sample : List String → ℕ → List String} (h : RoutesOK routes) :
    RoutesOK (related_removal env routes n pick sample).2 := by
  unfold related_removal
  simp only []
  split
  · exact h
  · split
    · exact random_removal_OK h
    · split
      · exact random_removal_OK h
      · exact foldl_modify_remove_OK _ routes h

/-- A trivial time/randomness oracle for concrete instantiations: the time
budget is already exhausted and all picks are index 0. -/
def oracle0 : AlnsOracle := ⟨fun _ => false, fun _ => 0, fun _ => 0⟩

/-- C1: in both submitted solvers every order identifier is delivered by at
most one route of the returned solution — the final solver's greedy
construction keeps an `assigned_orders` set, and `VibeCoders_solver_3.py`'s
construction, greedy/regret insertion, relocation and balancing all preserve
pairwise disjointness of the routes' order lists (shown here for distinct
order identifiers, as produced by the environment's order dictionary); the
destroy operators (`random_removal`, `worst_removal`, `related_removal`) only
remove orders and so preserve disjointness as well. -/
theorem C1_order_in_at_most_one_route (env : Env) (oracle : AlnsOracle)
    (fuel : ℕ) (hnd : env.get_all_order_ids.Nodup) :
    (SolverFinal.solver env).routes.Pairwise SolverFinal.RoutesDisjoint ∧
    (solver env oracle fuel).routes.Pairwise SolverFinal.RoutesDisjoint ∧
    (∀ (routes : List Route) (n : ℕ) (sample : List String → ℕ → List String),
      RoutesOK routes → RoutesOK (random_removal routes n sample).2) ∧
    (∀ (routes : List Route) (adj : AdjList) (n : ℕ),
      RoutesOK routes → RoutesOK (worst_removal env routes adj n).2) ∧
    (∀ (routes : List Route) (n pick : ℕ)
      (sample : List String → ℕ → List String),
      RoutesOK routes → RoutesOK (related_removal env routes n pick sample).2) :=
  ⟨SolverFinal.solver_final_disjoint env, solver3_disjoint env oracle fuel hnd,
   fun _ _ _ h => random_removal_OK h,
   fun _ _ _ h => worst_removal_OK h,
   fun _ _ _ _ h => related_removal_OK h⟩

/-- Witness for C1 at the concrete one-order environment `envW`. -/
theorem C1_witness :
    Logistics.envW.get_all_order_ids.Nodup ∧
    ((SolverFinal.solver Logistics.envW).routes.Pairwise
        SolverFinal.RoutesDisjoint ∧
      (solver Logistics.envW oracle0 0).routes.Pairwise
        SolverFinal.RoutesDisjoint ∧
      (∀ (routes : List Route) (n : ℕ)
        (sample : List String → ℕ → List String),
        RoutesOK routes → RoutesOK (random_removal routes n sample).2) ∧
      (∀ (routes : List Route) (adj : AdjList) (n : ℕ),
        RoutesOK routes →
          RoutesOK (worst_removal Logistics.envW routes adj n).2) ∧
      (∀ (routes : List Route) (n pick : ℕ)
        (sample : List String → ℕ → List String),
        RoutesOK routes →
          RoutesOK (related_removal Logistics.envW routes n pick sample).2)) :=
  ⟨by decide,
   C1_order_in_at_most_one_route Logistics.envW oracle0 0 (by decide)⟩

/-- C7: across the ALNS iterations the tracked best snapshot only improves in
the (fulfillment, cost) lexicographic order — fulfillment (under the loop
invariant `StateOK`, the number of distinct orders of the snapshot) never
decreases, and whenever the snapshot is replaced at equal fulfillment its
total cost strictly decreases — and the best routes returned by
`alns_optimize` are never worse, in distinct-order count and then in total
cost, than the construction heuristic's initial solution (whose zero-cost
routes the code re-evaluates before entering the loop). -/
theorem C7_alns_best_monotone (env : Env) (oracle : AlnsOracle) (fuel : ℕ)
    (hnd : env.get_all_order_ids.Nodup) :
    (∀ (i : ℕ) (s : AlnsState), StateOK s →
      StateOK (iterOut (alnsIter env env.adjacency_list oracle
        env.get_all_order_ids i s)) ∧
      BestStep s (iterOut (alnsIter env env.adjacency_list oracle
        env.get_all_order_ids i s))) ∧
    ((construct_initial_solution env env.adjacency_list).2.card ≤
      (unionOrders (alns_optimize env env.adjacency_list oracle fuel
        (construct_initial_solution env env.adjacency_list).1
        (construct_initial_solution env env.adjacency_list).2).1).card ∧
     ((unionOrders (alns_optimize env env.adjacency_list oracle fuel
          (construct_initial_solution env env.adjacency_list).1
          (construct_initial_solution env env.adjacency_list).2).1).card =
        (construct_initial_solution env env.adjacency_list).2.card →
      sumCost (alns_optimize env env.adjacency_list oracle fuel
        (construct_initial_solution env env.adjacency_list).1
        (construct_initial_solution env env.adjacency_list).2).1 ≤
      sumCost ((construct_initial_solution env env.adjacency_list).1.map
        (fun r => if r.cost = 0 then
          (evaluate_route_cost env r env.adjacency_list).2 else r)))) := by
  constructor
  · intro i s hs
    exact alnsIter_OK env env.adjacency_list oracle hnd i hs
  · have hra := construct_initial_solution_OK env env.adjacency_list hnd
    have hopt := alns_optimize_spec env env.adjacency_list oracle fuel
      (construct_initial_solution env env.adjacency_list).1
      (construct_initial_solution env env.adjacency_list).2 hnd hra.1 hra.2
    exact ⟨hopt.2.1, hopt.2.2⟩

/-- Witness for C7 at the concrete one-order environment `envW`. -/
theorem C7_witness :
    Logistics.envW.get_all_order_ids.Nodup ∧
    ((∀ (i : ℕ) (s : AlnsState), StateOK s →
      StateOK (iterOut (alnsIter Logistics.envW
        Logistics.envW.adjacency_list oracle0
        Logistics.envW.get_all_order_ids i s)) ∧
      BestStep s (iterOut (alnsIter Logistics.envW
        Logistics.envW.adjacency_list oracle0
        Logistics.envW.get_all_order_ids i s))) ∧
    ((construct_initial_solution Logistics.envW
        Logistics.envW.adjacency_list).2.card ≤
      (unionOrders (alns_optimize Logistics.envW
        Logistics.envW.adjacency_list oracle0 0
        (construct_initial_solution Logistics.envW
          Logistics.envW.adjacency_list).1
        (construct_initial_solution Logistics.envW
          Logistics.envW.adjacency_list).2).1).card ∧
     ((unionOrders (alns_optimize Logistics.envW
          Logistics.envW.adjacency_list oracle0 0
          (construct_initial_solution Logistics.envW
            Logistics.envW.adjacency_list).1
          (construct_initial_solution Logistics.envW
            Logistics.envW.adjacency_list).2).1).card =
        (construct_initial_solution Logistics.envW
          Logistics.envW.adjacency_list).2.card →
      sumCost (alns_optimize Logistics.envW
        Logistics.envW.adjacency_list oracle0 0
        (construct_initial_solution Logistics.envW
          Logistics.envW.adjacency_list).1
        (construct_initial_solution Logistics.envW
          Logistics.envW.adjacency_list).2).1 ≤
      sumCost ((construct_initial_solution Logistics.envW
          Logistics.envW.adjacency_list).1.map
        (fun r => if r.cost = 0 then
          (evaluate_route_cost Logistics.envW r
            Logistics.envW.adjacency_list).2 else r))))) :=
  ⟨by decide, C7_alns_best_monotone Logistics.envW oracle0 0 (by decide)⟩

end Solver3

namespace Solver6

open Logistics

/-- `heapq.heappop`: remove and return the lexicographically smallest
`(distance, node)` pair. The fold keeps the earlier element on ties, and
`erase` removes one occurrence of that value. -/
def popMin (pq : List (ℚ × ℕ)) : Option ((ℚ × ℕ) × List (ℚ × ℕ)) :=
  match pq with
  | [] => none
  | x :: rest =>
    let m := rest.foldl
      (fun b y => if y.1 < b.1 ∨ (y.1 = b.1 ∧ y.2 < b.2) then y else b) x
    some (m, (x :: rest).erase m)

/-- The `for neighbor in neighbors` relaxation loop of `find_path_dijkstra`:
visited neighbors are skipped, an oracle fault or `None`/non-positive distance
skips the edge (`except: continue` and `if edge_dist is None or
edge_dist <= 0: continue`), and an improving edge overwrites `distances[n]`
and `previous[n]` (modelled by consing, since `List.lookup` returns the
newest binding) and pushes `(new_dist, n)`. -/
def relaxNeighbors (env : Env) (current : ℕ) (current_dist : ℚ) :
    List ℕ → List (ℕ × ℚ) → List (ℕ × ℕ) → List (ℚ × ℕ) → List ℕ →
      List (ℕ × ℚ) × List (ℕ × ℕ) × List (ℚ × ℕ)
  | [], distances, previous, pq, _ => (distances, previous, pq)
  | n :: rest, distances, previous, pq, visited =>
    if n ∈ visited then
      relaxNeighbors env current current_dist rest distances previous pq visited
    else match env.get_distance current n with
      | Except.error _ =>
        relaxNeighbors env current current_dist rest distances previous pq visited
      | Except.ok none =>
        relaxNeighbors env current current_dist rest distances previous pq visited
      | Except.ok (some d) =>
        if d ≤ 0 then
          relaxNeighbors env current current_dist rest distances previous pq visited
        else
          match List.lookup n distances with
          | some dn =>
            if current_dist + d < dn then
              relaxNeighbors env current current_dist rest
                ((n, current_dist + d) :: distances) ((n, current) :: previous)
                (pq ++ [(current_dist + d, n)]) visited
            else
              relaxNeighbors env current current_dist rest distances previous pq
                visited
          | none =>
            relaxNeighbors env current current_dist rest
              ((n, current_dist + d) :: distances) ((n, current) :: previous)
              (pq ++ [(current_dist + d, n)]) visited

/-- The `while node in previous` reconstruction loop; the fuel argument only
needs to exceed the length of the acyclic `previous` chain. -/
def reconLoop : ℕ → List (ℕ × ℕ) → ℕ → List ℕ → List ℕ
  | 0, _, _, acc => acc
  | fuel + 1, previous, node, acc =>
    match List.lookup node previous with
    | none => acc
    | some m => reconLoop fuel previous m (acc ++ [node])

/-- The `while pq` loop of `find_path_dijkstra`, fuelled (the Python loop's
termination is extrinsic); `max_distance = none` models the default
`float('inf')`. -/
def dijkstraLoop (env : Env) (adj : AdjList) (start endNode : ℕ)
    (maxd : Option ℚ) :
    ℕ → List (ℚ × ℕ) → List ℕ → List (ℕ × ℚ) → List (ℕ × ℕ) →
      Option (List ℕ)
  | 0, _, _, _, _ => none
  | fuel + 1, pq, visited, distances, previous =>
    match popMin pq with
    | none => none
    | some (e, pq2) =>
      if e.2 = endNode then
        some ((reconLoop (previous.length + 1) previous endNode [] ++
          [start]).reverse)
      else if e.2 ∈ visited then
        dijkstraLoop env adj start endNode maxd fuel pq2 visited distances
          previous
      else if (match maxd with
          | none => false
          | some m => decide (m < e.1)) then
        dijkstraLoop env adj start endNode maxd fuel pq2 visited distances
          previous
      else
        let res := relaxNeighbors env e.2 e.1 (adjGet adj e.2) distances
          previous pq2 (visited ++ [e.2])
        dijkstraLoop env adj start endNode maxd fuel res.2.2
          (visited ++ [e.2]) res.1 res.2.1

/-- `find_path_dijkstra` of `VibeCoders_solver_6.py` (with defined start and
end nodes: the `None` guards of the Python signature fall away in the typed
model). -/
def find_path_dijkstra (env : Env) (start_node end_node : ℕ) (adj : AdjList)
    (maxd : Option ℚ) (fuel : ℕ) : Option (List ℕ) :=
  if start_node = end_node then some [start_node]
  else dijkstraLoop env adj start_node end_node maxd fuel
    [(0, start_node)] [] [(start_node, 0)] []

/-- A start-to-end walk of the adjacency list whose edges all have defined
oracle distances, together with its cumulative distance. -/
inductive ListDWalk (env : Env) (adj : AdjList) : List ℕ → ℚ → Prop
  | single (a : ℕ) : ListDWalk env adj [a] 0
  | cons {a b : ℕ} {rest : List ℕ} {c d : ℚ} :
      b ∈ adjGet adj a → env.get_distance a b = Except.ok (some d) →
      ListDWalk env adj (b :: rest) c → ListDWalk env adj (a :: b :: rest) (d + c)

/-- The node-pair form of a distance-weighted walk. -/
inductive DWalk (env : Env) (adj : AdjList) : ℕ → ℕ → ℚ → Prop
  | refl (a : ℕ) : DWalk env adj a a 0
  | step {a b c : ℕ} {cb d : ℚ} : DWalk env adj a b cb → c ∈ adjGet adj b →
      env.get_distance b c = Except.ok (some d) → DWalk env adj a c (cb + d)

end Solver6

namespace Solver3

open Logistics

theorem nodup_subset_length {l1 l2 : List ℕ} (h1 : l1.Nodup) (h2 : l1 ⊆ l2) :
    l1.length ≤ l2.length :=
  (List.subperm_of_subset h1 h2).length_le

theorem walk_exit (adj : AdjList) (visited : List ℕ) :
    ∀ (p : List ℕ) (a u : ℕ), WalkSE adj a u p → a ∈ visited → u ∉ visited →
      ∃ (x y : ℕ) (pref : List ℕ), WalkSE adj a x pref ∧ y ∈ adjGet adj x ∧
        x ∈ visited ∧ y ∉ visited ∧ pref.length + 1 ≤ p.length := by
  intro p
  induction p with
  | nil => intro a u hw _ _; exact absurd rfl hw.1
  | cons h t ih =>
    intro a u hw ha hu
    have hha : h = a := by simpa using hw.2.1
    subst hha
    match t, hw with
    | [], hw =>
      have : h = u := by simpa using hw.2.2.1
      subst this
      exact absurd ha hu
    | b :: t2, hw =>
      have hedge : b ∈ adjGet adj h := (List.chain'_cons.mp hw.2.2.2).1
      by_cases hb : b ∈ visited
      · have hwb : WalkSE adj b u (b :: t2) := by
          refine ⟨by simp, by simp, ?_, (List.chain'_cons.mp hw.2.2.2).2⟩
          rw [← List.getLast?_cons_cons (l := t2) (a := h) (b := b)]
          exact hw.2.2.1
        rcases ih b u hwb hb hu with ⟨x, y, pref, hpref, hey, hx, hy, hlen⟩
        have hprefne : pref ≠ [] := hpref.1
        refine ⟨x, y, h :: pref, ?_, hey, hx, hy, ?_⟩
        · refine ⟨by simp, by simp, ?_, ?_⟩
          · obtain ⟨p0, ps, rfl⟩ : ∃ p0 ps, pref = p0 :: ps := by
              cases pref with
              | nil => exact absurd rfl hprefne
              | cons p0 ps => exact ⟨p0, ps, rfl⟩
            rw [List.getLast?_cons_cons]
            exact hpref.2.2.1
          · rw [List.chain'_cons']
            refine ⟨?_, hpref.2.2.2⟩
            intro z hz
            have : z = b := by
              rw [hpref.2.1] at hz
              exact (by simpa using hz : b = z).symm
            subst this
            exact hedge
        · simp only [List.length_cons] at hlen ⊢
          omega
      · exact ⟨h, b, [h], ⟨by simp, by simp, by simp, List.chain'_singleton _⟩,
          hedge, ha, hb, by simp⟩

/-- The BFS loop invariant of `VibeCoders_solver_3.py`'s `find_shortest_path`:
queue entries are shortest walks to their (visited) endpoints in ascending
length order spanning at most two levels, every visited node is either still
queued or fully expanded, and the bookkeeping needed to bound path lengths by
the road-graph size. -/
structure BfsInv (adj : AdjList) (start endNode : ℕ)
    (queue : List (ℕ × List ℕ)) (visited : List ℕ) : Prop where
  qinv : ∀ e ∈ queue, QInv adj start e
  ends_vis : ∀ e ∈ queue, e.1 ∈ visited
  shortest : ∀ e ∈ queue, ∀ w, WalkSE adj start e.1 w → e.2.length ≤ w.length
  sorted : List.Pairwise (fun a b => a.2.length ≤ b.2.length) queue
  bnd : ∀ e1 ∈ queue, ∀ e2 ∈ queue, e2.2.length ≤ e1.2.length + 1
  expanded : ∀ v ∈ visited,
    (∃ e ∈ queue, e.1 = v) ∨ ∀ n ∈ adjGet adj v, n ∈ visited
  end_unvis : endNode ∉ visited
  start_vis : start ∈ visited
  vis_nodup : visited.Nodup
  vis_pool : ∀ v ∈ visited, v = start ∨ v ∈ adjPool adj
  paths_ok : ∀ e ∈ queue, e.2.Nodup ∧ ∀ x ∈ e.2, x ∈ visited

theorem BfsInv_cover {adj : AdjList} {start endNode : ℕ}
    {queue : List (ℕ × List ℕ)} {visited : List ℕ}
    (inv : BfsInv adj start endNode queue visited) :
    ∀ u w, WalkSE adj start u w → u ∉ visited →
      ∃ e ∈ queue, e.2.length + 1 ≤ w.length := by
  intro u w hw hu
  rcases walk_exit adj visited w start u hw inv.start_vis hu with
    ⟨x, y, pref, hpref, hedge, hx, hy, hlen⟩
  rcases inv.expanded x hx with ⟨e, he, hex⟩ | hall
  · have hpref2 : WalkSE adj start e.1 pref := by rw [hex]; exact hpref
    have := inv.shortest e he pref hpref2
    exact ⟨e, he, by omega⟩
  · exact absurd (hall y hedge) hy

theorem bfs_expand_inv (adj : AdjList) (start endNode cur : ℕ) (path : List ℕ)
    (preVisited : List ℕ)
    (hlb : ∀ u w, WalkSE adj start u w → u ∉ preVisited →
      path.length + 1 ≤ w.length)
    (hq0 : QInv adj start (cur, path))
    (hpnodup : path.Nodup) (hppre : ∀ x ∈ path, x ∈ preVisited) :
    ∀ (ns visited : List ℕ) (queue : List (ℕ × List ℕ)),
      (∀ n ∈ ns, n ∈ adjGet adj cur) →
      (∀ x ∈ preVisited, x ∈ visited) →
      (∀ e ∈ queue, QInv adj start e) →
      (∀ e ∈ queue, e.1 ∈ visited) →
      (∀ e ∈ queue, ∀ w, WalkSE adj start e.1 w → e.2.length ≤ w.length) →
      List.Pairwise (fun a b => a.2.length ≤ b.2.length) queue →
      (∀ e ∈ queue, path.length ≤ e.2.length) →
      (∀ e ∈ queue, e.2.length ≤ path.length + 1) →
      endNode ∉ visited → start ∈ visited → visited.Nodup →
      (∀ v ∈ visited, v = start ∨ v ∈ adjPool adj) →
      (∀ e ∈ queue, e.2.Nodup ∧ ∀ x ∈ e.2, x ∈ visited) →
      (∀ v ∈ visited, (∃ e ∈ queue, e.1 = v) ∨
        (∀ n ∈ adjGet adj v, n ∈ visited) ∨
        (v = cur ∧ ∀ n2 ∈ adjGet adj cur, n2 ∈ ns ∨ n2 ∈ visited)) →
      (∀ found,
        SolverFinal.bfs_expand endNode path ns visited queue = Sum.inl found →
        found.length = path.length + 1 ∧ WalkSE adj start endNode found) ∧
      (∀ visited2 queue2,
        SolverFinal.bfs_expand endNode path ns visited queue =
          Sum.inr (visited2, queue2) →
        BfsInv adj start endNode queue2 visited2) := by
  intro ns
  induction ns with
  | nil =>
    intro visited queue hns hpre hqi hev hsh hso hlb2 hub hen hst hnd hpool
      hpo hexp
    constructor
    · intro found h
      exact Sum.noConfusion h
    · intro v2 q2 h
      simp only [SolverFinal.bfs_expand, Sum.inr.injEq, Prod.mk.injEq] at h
      rw [← h.1, ← h.2]
      refine ⟨hqi, hev, hsh, hso, ?_, ?_, hen, hst, hnd, hpool, hpo⟩
      · intro e1 he1 e2 he2
        have := hlb2 e1 he1
        have := hub e2 he2
        omega
      · intro v hv
        rcases hexp v hv with hl | hm | ⟨hveq, hall⟩
        · exact Or.inl hl
        · exact Or.inr hm
        · subst hveq
          refine Or.inr ?_
          intro n2 hn2
          rcases hall n2 hn2 with hx | hx
          · exact absurd hx (List.not_mem_nil n2)
          · exact hx
  | cons n rest ih =>
    intro visited queue hns hpre hqi hev hsh hso hlb2 hub hen hst hnd hpool
      hpo hexp
    simp only [SolverFinal.bfs_expand]
    by_cases hnv : n ∈ visited
    · rw [if_pos hnv]
      refine ih visited queue (fun x hx => hns x (List.mem_cons_of_mem _ hx))
        hpre hqi hev hsh hso hlb2 hub hen hst hnd hpool hpo ?_
      intro v hv
      rcases hexp v hv with hl | hm | ⟨hveq, hall⟩
      · exact Or.inl hl
      · exact Or.inr (Or.inl hm)
      · refine Or.inr (Or.inr ⟨hveq, ?_⟩)
        intro n2 hn2
        rcases hall n2 hn2 with hx | hx
        · rcases List.mem_cons.mp hx with rfl | hx2
          · exact Or.inr hnv
          · exact Or.inl hx2
        · exact Or.inr hx
    · rw [if_neg hnv]
      by_cases hne : n = endNode
      · rw [if_pos hne]
        constructor
        · intro found h
          injection h with h
          subst h
          constructor
          · simp
          · obtain ⟨a1, a2, a3, a4⟩ :=
              QInv_extend hq0 (hns n (List.mem_cons_self _ _))
            exact ⟨a1, a2, by rw [a3, hne], a4⟩
        · intro v2 q2 h
          exact Sum.noConfusion h
      · rw [if_neg hne]
        have hnpre : n ∉ preVisited := fun hc => hnv (hpre n hc)
        have hnadj : n ∈ adjGet adj cur := hns n (List.mem_cons_self _ _)
        refine ih (visited ++ [n]) (queue ++ [(n, path ++ [n])])
          (fun x hx => hns x (List.mem_cons_of_mem _ hx)) ?_ ?_ ?_ ?_ ?_ ?_ ?_
          ?_ ?_ ?_ ?_ ?_ ?_
        · intro x hx
          exact List.mem_append_left _ (hpre x hx)
        · intro e he
          rcases List.mem_append.mp he with hx | hx
          · exact hqi e hx
          · rw [List.mem_singleton.mp hx]
            exact QInv_extend hq0 hnadj
        · intro e he
          rcases List.mem_append.mp he with hx | hx
          · exact List.mem_append_left _ (hev e hx)
          · rw [List.mem_singleton.mp hx]
            exact List.mem_append_right _ (List.mem_singleton_self _)
        · intro e he w hw
          rcases List.mem_append.mp he with hx | hx
          · exact hsh e hx w hw
          · rw [List.mem_singleton.mp hx] at hw ⊢
            have := hlb n w hw hnpre
            simp only [List.length_append, List.length_cons, List.length_nil]
            omega
        · rw [List.pairwise_append]
          refine ⟨hso, List.pairwise_singleton _ _, ?_⟩
          intro e1 he1 e2 he2
          rw [List.mem_singleton.mp he2]
          have := hub e1 he1
          simp only [List.length_append, List.length_cons, List.length_nil]
          omega
        · intro e he
          rcases List.mem_append.mp he with hx | hx
          · exact hlb2 e hx
          · rw [List.mem_singleton.mp hx]
            simp only [List.length_append, List.length_cons, List.length_nil]
            omega
        · intro e he
          rcases List.mem_append.mp he with hx | hx
          · exact hub e hx
          · rw [List.mem_singleton.mp hx]
            simp only [List.length_append, List.length_cons, List.length_nil]
            omega
        · intro hc
          rcases List.mem_append.mp hc with hx | hx
          · exact hen hx
          · exact hne (List.mem_singleton.mp hx).symm
        · exact List.mem_append_left _ hst
        · simp only [List.nodup_append, List.nodup_cons, List.not_mem_nil,
            not_false_iff, List.nodup_nil, and_true, true_and]
          exact ⟨hnd, by simpa using hnv⟩
        · intro v hv
          rcases List.mem_append.mp hv with hx | hx
          · exact hpool v hx
          · rw [List.mem_singleton.mp hx]
            exact Or.inr (adjGet_subset_pool adj cur n hnadj)
        · intro e he
          rcases List.mem_append.mp he with hx | hx
          · exact ⟨(hpo e hx).1,
              fun x hx2 => List.mem_append_left _ ((hpo e hx).2 x hx2)⟩
          · rw [List.mem_singleton.mp hx]
            constructor
            · simp only [List.nodup_append, List.nodup_cons, List.not_mem_nil,
                not_false_iff, List.nodup_nil, and_true, true_and]
              refine ⟨hpnodup, ?_⟩
              simp only [List.disjoint_singleton]
              intro hc
              exact hnv (hpre n (hppre n hc))
            · intro x hx2
              rcases List.mem_append.mp hx2 with hy | hy
              · exact List.mem_append_left _ (hpre x (hppre x hy))
              · rw [List.mem_singleton.mp hy]
                exact List.mem_append_right _ (List.mem_singleton_self _)
        · intro v hv
          rcases List.mem_append.mp hv with hx | hx
          · rcases hexp v hx with ⟨e, he, hee⟩ | hm | ⟨hveq, hall⟩
            · exact Or.inl ⟨e, List.mem_append_left _ he, hee⟩
            · exact Or.inr (Or.inl
                (fun n2 hn2 => List.mem_append_left _ (hm n2 hn2)))
            · refine Or.inr (Or.inr ⟨hveq, ?_⟩)
              intro n2 hn2
              rcases hall n2 hn2 with hy | hy
              · rcases List.mem_cons.mp hy with rfl | hy2
                · exact Or.inr (List.mem_append_right _
                    (List.mem_singleton_self _))
                · exact Or.inl hy2
              · exact Or.inr (List.mem_append_left _ hy)
          · rw [List.mem_singleton.mp hx]
            exact Or.inl ⟨(n, path ++ [n]),
              List.mem_append_right _ (List.mem_singleton_self _), rfl⟩

theorem bfs3_loop_min (adj : AdjList) (endNode maxLength start : ℕ)
    (hml : (adjPool adj).length + 2 ≤ maxLength) :
    ∀ (queue : List (ℕ × List ℕ)) (visited : List ℕ),
      BfsInv adj start endNode queue visited →
      ∀ p : List ℕ, bfs3_loop adj endNode maxLength queue visited = some p →
      WalkSE adj start endNode p ∧
        ∀ w, WalkSE adj start endNode w → p.length ≤ w.length := by
  intro queue visited
  induction queue, visited using bfs3_loop.induct adj endNode maxLength with
  | case1 visited =>
    intro _ p h
    rw [bfs3_loop] at h
    exact Option.noConfusion h
  | case2 cur path queue visited hcap ih =>
    intro inv p h
    exfalso
    have hhead := inv.paths_ok (cur, path) (List.mem_cons_self _ _)
    have h1 : path.length ≤ visited.length :=
      nodup_subset_length hhead.1 (fun x hx => hhead.2 x hx)
    have h2 : visited.length ≤ (start :: adjPool adj).length :=
      nodup_subset_length inv.vis_nodup (by
        intro v hv
        rcases inv.vis_pool v hv with rfl | hp
        · exact List.mem_cons_self _ _
        · exact List.mem_cons_of_mem _ hp)
    simp only [List.length_cons] at h2
    omega
  | case3 cur path queue visited hncap found hfound =>
    intro inv p h
    have hhead := inv.paths_ok (cur, path) (List.mem_cons_self _ _)
    have hheadmin : ∀ e ∈ queue, path.length ≤ e.2.length :=
      fun e he => (List.pairwise_cons.mp inv.sorted).1 e he
    have hlb : ∀ u w, WalkSE adj start u w → u ∉ visited →
        path.length + 1 ≤ w.length := by
      intro u w hw hu
      rcases BfsInv_cover inv u w hw hu with ⟨e, he, hle⟩
      rcases List.mem_cons.mp he with rfl | he2
      · have hsl : ((cur, path) : ℕ × List ℕ).2.length = path.length := rfl
        omega
      · have := hheadmin e he2
        omega
    have hmid := bfs_expand_inv adj start endNode cur path visited hlb
      (inv.qinv (cur, path) (List.mem_cons_self _ _)) hhead.1
      (fun x hx => hhead.2 x hx) (adjGet adj cur) visited queue
      (fun n hn => hn)
      (fun x hx => hx)
      (fun e he => inv.qinv e (List.mem_cons_of_mem _ he))
      (fun e he => inv.ends_vis e (List.mem_cons_of_mem _ he))
      (fun e he => inv.shortest e (List.mem_cons_of_mem _ he))
      (List.pairwise_cons.mp inv.sorted).2
      hheadmin
      (fun e he => inv.bnd (cur, path) (List.mem_cons_self _ _) e
        (List.mem_cons_of_mem _ he))
      inv.end_unvis inv.start_vis inv.vis_nodup inv.vis_pool
      (fun e he => inv.paths_ok e (List.mem_cons_of_mem _ he))
      (by
        intro v hv
        rcases inv.expanded v hv with ⟨e, he, hee⟩ | hm
        · rcases List.mem_cons.mp he with rfl | he2
          · refine Or.inr (Or.inr ⟨hee.symm, ?_⟩)
            intro n2 hn2
            exact Or.inl hn2
          · exact Or.inl ⟨e, he2, hee⟩
        · exact Or.inr (Or.inl hm))
    rw [bfs3_loop, if_neg hncap] at h
    split at h
    next found2 hexp2 =>
      have hf : found2 = p := Option.some.inj h
      subst hf
      rcases hmid.1 found2 hexp2 with ⟨hlen, hwalk⟩
      refine ⟨hwalk, ?_⟩
      intro w hw
      have := hlb endNode w hw inv.end_unvis
      omega
    next vq hexp2 =>
      rw [hfound] at hexp2
      exact Sum.noConfusion hexp2
  | case4 cur path queue visited hncap vq hexp hmeas ih =>
    intro inv p h
    have hhead := inv.paths_ok (cur, path) (List.mem_cons_self _ _)
    have hheadmin : ∀ e ∈ queue, path.length ≤ e.2.length :=
      fun e he => (List.pairwise_cons.mp inv.sorted).1 e he
    have hlb : ∀ u w, WalkSE adj start u w → u ∉ visited →
        path.length + 1 ≤ w.length := by
      intro u w hw hu
      rcases BfsInv_cover inv u w hw hu with ⟨e, he, hle⟩
      rcases List.mem_cons.mp he with rfl | he2
      · have hsl : ((cur, path) : ℕ × List ℕ).2.length = path.length := rfl
        omega
      · have := hheadmin e he2
        omega
    have hmid := bfs_expand_inv adj start endNode cur path visited hlb
      (inv.qinv (cur, path) (List.mem_cons_self _ _)) hhead.1
      (fun x hx => hhead.2 x hx) (adjGet adj cur) visited queue
      (fun n hn => hn)
      (fun x hx => hx)
      (fun e he => inv.qinv e (List.mem_cons_of_mem _ he))
      (fun e he => inv.ends_vis e (List.mem_cons_of_mem _ he))
      (fun e he => inv.shortest e (List.mem_cons_of_mem _ he))
      (List.pairwise_cons.mp inv.sorted).2
      hheadmin
      (fun e he => inv.bnd (cur, path) (List.mem_cons_self _ _) e
        (List.mem_cons_of_mem _ he))
      inv.end_unvis inv.start_vis inv.vis_nodup inv.vis_pool
      (fun e he => inv.paths_ok e (List.mem_cons_of_mem _ he))
      (by
        intro v hv
        rcases inv.expanded v hv with ⟨e, he, hee⟩ | hm
        · rcases List.mem_cons.mp he with rfl | he2
          · refine Or.inr (Or.inr ⟨hee.symm, ?_⟩)
            intro n2 hn2
            exact Or.inl hn2
          · exact Or.inl ⟨e, he2, hee⟩
        · exact Or.inr (Or.inl hm))
    rw [bfs3_loop, if_neg hncap] at h
    split at h
    next found2 hexp2 =>
      rw [hexp] at hexp2
      exact Sum.noConfusion hexp2
    next vq2 hexp2 =>
      have hv : vq2 = vq := Sum.inr.inj (hexp2.symm.trans hexp)
      subst hv
      have hinv2 := hmid.2 vq2.1 vq2.2 (by rw [hexp])
      exact ih hinv2 p h

theorem find_shortest_path3_min {adj : AdjList} {start endNode maxLength : ℕ}
    {p : List ℕ} (hml : (adjPool adj).length + 2 ≤ maxLength)
    (h : find_shortest_path start endNode adj maxLength = some p) :
    WalkSE adj start endNode p ∧
      ∀ w, WalkSE adj start endNode w → p.length ≤ w.length := by
  unfold find_shortest_path at h
  split at h
  next heq =>
    have hp : [start] = p := Option.some.inj h
    subst hp
    refine ⟨⟨by simp, by simp, by simp [heq], List.chain'_singleton _⟩, ?_⟩
    intro w hw
    have : 0 < w.length := List.length_pos.mpr hw.1
    simpa using this
  next hne =>
    refine bfs3_loop_min adj endNode maxLength start hml
      [(start, [start])] [start] ?_ p h
    refine ⟨?_, ?_, ?_, ?_, ?_, ?_, ?_, ?_, ?_, ?_, ?_⟩
    · intro e he
      rw [List.mem_singleton.mp he]
      exact ⟨by simp, by simp, by simp, List.chain'_singleton _⟩
    · intro e he
      rw [List.mem_singleton.mp he]
      exact List.mem_singleton_self _
    · intro e he w hw
      rw [List.mem_singleton.mp he]
      have : 0 < w.length := List.length_pos.mpr hw.1
      simpa using this
    · exact List.pairwise_singleton _ _
    · intro e1 he1 e2 he2
      rw [List.mem_singleton.mp he1, List.mem_singleton.mp he2]
      simp
    · intro v hv
      rw [List.mem_singleton.mp hv]
      exact Or.inl ⟨(start, [start]), List.mem_singleton_self _, rfl⟩
    · intro hc
      exact hne (List.mem_singleton.mp hc).symm
    · exact List.mem_singleton_self _
    · simp
    · intro v hv
      rw [List.mem_singleton.mp hv]
      exact Or.inl rfl
    · intro e he
      rw [List.mem_singleton.mp he]
      exact ⟨by simp, fun x hx => hx⟩

theorem find_shortest_path3_self (start : ℕ) (adj : AdjList) (m : ℕ) :
    find_shortest_path start start adj m = some [start] := by
  unfold find_shortest_path
  rw [if_pos rfl]

end Solver3

namespace Solver6

open Logistics

theorem popMin_mem {pq : List (ℚ × ℕ)} {x : ℚ × ℕ} {rest : List (ℚ × ℕ)}
    (h : popMin pq = some (x, rest)) : x ∈ pq ∧ rest = pq.erase x := by
  match pq, h with
  | y :: t, h =>
    simp only [popMin, Option.some.injEq, Prod.mk.injEq] at h
    have hmem : ∀ (l : List (ℚ × ℕ)) (b : ℚ × ℕ) (l0 : List (ℚ × ℕ)),
        b ∈ l0 → (∀ z ∈ l, z ∈ l0) →
        l.foldl (fun b y =>
          if y.1 < b.1 ∨ (y.1 = b.1 ∧ y.2 < b.2) then y else b) b ∈ l0 := by
      intro l
      induction l with
      | nil => intro b l0 hb _; exact hb
      | cons z t2 ih =>
        intro b l0 hb hl
        simp only [List.foldl_cons]
        by_cases hc : z.1 < b.1 ∨ (z.1 = b.1 ∧ z.2 < b.2)
        · rw [if_pos hc]
          exact ih z l0 (hl z (List.mem_cons_self _ _))
            (fun w hw => hl w (List.mem_cons_of_mem _ hw))
        · rw [if_neg hc]
          exact ih b l0 hb (fun w hw => hl w (List.mem_cons_of_mem _ hw))
    constructor
    · rw [← h.1]
      exact hmem t y (y :: t) (List.mem_cons_self _ _)
        (fun z hz => List.mem_cons_of_mem _ hz)
    · rw [← h.2, ← h.1]

theorem popMin_min {pq : List (ℚ × ℕ)} {x : ℚ × ℕ} {rest : List (ℚ × ℕ)}
    (h : popMin pq = some (x, rest)) : ∀ y ∈ pq, x.1 ≤ y.1 := by
  match pq, h with
  | y0 :: t, h =>
    simp only [popMin, Option.some.injEq, Prod.mk.injEq] at h
    have hle : ∀ (l : List (ℚ × ℕ)) (b : ℚ × ℕ),
        (l.foldl (fun b y =>
          if y.1 < b.1 ∨ (y.1 = b.1 ∧ y.2 < b.2) then y else b) b).1 ≤ b.1 ∧
        ∀ z ∈ l, (l.foldl (fun b y =>
          if y.1 < b.1 ∨ (y.1 = b.1 ∧ y.2 < b.2) then y else b) b).1 ≤ z.1 := by
      intro l
      induction l with
      | nil => intro b; exact ⟨le_refl _, fun z hz => absurd hz (List.not_mem_nil z)⟩
      | cons z t2 ih =>
        intro b
        simp only [List.foldl_cons]
        by_cases hc : z.1 < b.1 ∨ (z.1 = b.1 ∧ z.2 < b.2)
        · rw [if_pos hc]
          rcases ih z with ⟨h1, h2⟩
          have hzb : z.1 ≤ b.1 := by
            rcases hc with hc | ⟨hc, _⟩
            · exact le_of_lt hc
            · exact le_of_eq hc
          refine ⟨le_trans h1 hzb, ?_⟩
          intro w hw
          rcases List.mem_cons.mp hw with rfl | hw2
          · exact h1
          · exact h2 w hw2
        · rw [if_neg hc]
          rcases ih b with ⟨h1, h2⟩
          have hbz : b.1 ≤ z.1 := by
            by_contra hcon
            exact hc (Or.inl (lt_of_not_le hcon))
          refine ⟨h1, ?_⟩
          intro w hw
          rcases List.mem_cons.mp hw with rfl | hw2
          · exact le_trans h1 hbz
          · exact h2 w hw2
    intro y hy
    rcases List.mem_cons.mp hy with rfl | hy2
    · rw [← h.1]
      exact (hle t y).1
    · rw [← h.1]
      exact (hle t y0).2 y hy2

theorem DWalk_nonneg {env : Env} {adj : AdjList} {a b : ℕ} {c : ℚ}
    (hpos : ∀ x y d, env.get_distance x y = Except.ok (some d) → 0 < d)
    (h : DWalk env adj a b c) : 0 ≤ c := by
  induction h with
  | refl => exact le_refl 0
  | step hw hadj hdist ih =>
    have := hpos _ _ _ hdist
    linarith

theorem dij_exit (env : Env) (adj : AdjList) {start : ℕ} {visited : List ℕ}
    {distances : List (ℕ × ℚ)}
    (hS : List.lookup start distances = some 0)
    (hA : ∀ v ∈ visited, ∃ dv, List.lookup v distances = some dv ∧
      ∀ c, DWalk env adj start v c → dv ≤ c)
    (hE : ∀ v ∈ visited, ∀ dv, List.lookup v distances = some dv →
      ∀ n ∈ adjGet adj v, ∀ d, env.get_distance v n = Except.ok (some d) →
        ∃ dn, List.lookup n distances = some dn ∧ dn ≤ dv + d)
    (hpos : ∀ x y d, env.get_distance x y = Except.ok (some d) → 0 < d) :
    ∀ u c, DWalk env adj start u c → u ∉ visited →
      ∃ v dv, v ∉ visited ∧ List.lookup v distances = some dv ∧ dv ≤ c := by
  intro u c hw
  induction hw with
  | refl => intro hu; exact ⟨start, 0, hu, hS, le_refl 0⟩
  | step hwb hadj hdist ih =>
    intro hu
    next b c2 cb d =>
    by_cases hb : b ∈ visited
    · rcases hA b hb with ⟨db, hdb, hmin⟩
      have hcb := hmin _ hwb
      rcases hE b hb db hdb _ hadj _ hdist with ⟨dn, hdn, hle⟩
      exact ⟨c2, dn, hu, hdn, by linarith⟩
    · rcases ih hb with ⟨v, dv, hv, hdv, hle⟩
      have hd := hpos _ _ _ hdist
      exact ⟨v, dv, hv, hdv, by linarith⟩

theorem ListDWalk_append_edge {env : Env} {adj : AdjList} :
    ∀ {l : List ℕ} {c : ℚ} {m n : ℕ} {d : ℚ},
      ListDWalk env adj l c → l.getLast? = some m → n ∈ adjGet adj m →
      env.get_distance m n = Except.ok (some d) →
      ListDWalk env adj (l ++ [n]) (c + d) := by
  intro l c m n d hw
  induction hw with
  | single a =>
    intro hlast hadj hdist
    have hm : a = m := by simpa using hlast
    subst hm
    rw [show (0 : ℚ) + d = d + 0 by ring]
    exact ListDWalk.cons hadj hdist (ListDWalk.single n)
  | cons hadj0 hdist0 hw0 ih =>
    intro hlast hadj hdist
    next a b rest c0 d0 =>
    have hlast2 : (b :: rest).getLast? = some m := by
      rw [← List.getLast?_cons_cons (l := rest) (a := a) (b := b)]
      exact hlast
    have := ih hlast2 hadj hdist
    rw [show d0 + c0 + d = d0 + (c0 + d) by ring]
    exact ListDWalk.cons hadj0 hdist0 this

theorem reconLoop_acc :
    ∀ (fuel : ℕ) (previous : List (ℕ × ℕ)) (n : ℕ) (acc : List ℕ),
      reconLoop fuel previous n acc = acc ++ reconLoop fuel previous n [] := by
  intro fuel
  induction fuel with
  | zero => intro previous n acc; simp [reconLoop]
  | succ f ih =>
    intro previous n acc
    simp only [reconLoop]
    rcases h : List.lookup n previous with _ | m
    · simp
    · show reconLoop f previous m (acc ++ [n]) =
        acc ++ reconLoop f previous m ([] ++ [n])
      rw [ih previous m (acc ++ [n]), ih previous m ([] ++ [n])]
      simp

/-- The number of `previous` keys whose distance label lies strictly below
`dn` — the termination measure of the reconstruction chain. -/
def belowCount (distances : List (ℕ × ℚ)) (previous : List (ℕ × ℕ))
    (dn : ℚ) : ℕ :=
  ((previous.map Prod.fst).dedup.filter (fun k =>
    match List.lookup k distances with
    | some dk => decide (dk < dn)
    | none => false)).length

theorem reconLoop_spec (env : Env) (adj : AdjList) (start : ℕ)
    (distances : List (ℕ × ℚ)) (previous : List (ℕ × ℕ))
    (hprev : ∀ n m, List.lookup n previous = some m →
      ∃ dn dm d, List.lookup n distances = some dn ∧
        List.lookup m distances = some dm ∧ n ∈ adjGet adj m ∧
        env.get_distance m n = Except.ok (some d) ∧ dn = dm + d ∧ 0 < d)
    (hchain : ∀ n d, List.lookup n distances = some d →
      n = start ∨ ∃ m, List.lookup n previous = some m)
    (hS : List.lookup start distances = some 0)
    (hsnp : List.lookup start previous = none) :
    ∀ (fuel : ℕ) (n : ℕ) (dn : ℚ), List.lookup n distances = some dn →
      belowCount distances previous dn < fuel →
      ListDWalk env adj (reconLoop fuel previous n [] ++ [start]).reverse dn ∧
      ((reconLoop fuel previous n [] ++ [start]).reverse).head? = some start ∧
      ((reconLoop fuel previous n [] ++ [start]).reverse).getLast? = some n := by
  intro fuel
  induction fuel with
  | zero => intro n dn _ hf; exact absurd hf (Nat.not_lt_zero _)
  | succ f ih =>
    intro n dn hdn hf
    rcases hp : List.lookup n previous with _ | m
    · -- n has no predecessor: n = start and dn = 0
      have hn : n = start := by
        rcases hchain n dn hdn with h | ⟨m, hm⟩
        · exact h
        · rw [hp] at hm; exact Option.noConfusion hm
      subst hn
      have hdn0 : dn = 0 := by
        rw [hS] at hdn
        exact (Option.some.inj hdn).symm
      subst hdn0
      simp only [reconLoop, hp]
      exact ⟨by simpa using ListDWalk.single n, by simp, by simp⟩
    · rcases hprev n m hp with ⟨dn2, dm, d, hdn2, hdm, hadj, hdist, heq, hdpos⟩
      have hdn2e : dn2 = dn := by
        rw [hdn] at hdn2
        exact (Option.some.inj hdn2).symm
      rw [hdn2e] at heq
      clear hdn2 hdn2e
      have hloopeq : reconLoop (f + 1) previous n [] =
          [n] ++ reconLoop f previous m [] := by
        simp only [reconLoop, hp]
        rw [reconLoop_acc f previous m ([] ++ [n])]
        simp
      rw [hloopeq]
      by_cases hm : m = start
      · -- the chain ends at the start node in one step
        have hdm0 : dm = 0 := by
          rw [hm, hS] at hdm
          exact (Option.some.inj hdm).symm
        have hrec : reconLoop f previous m [] = [] := by
          cases f with
          | zero => rfl
          | succ f2 => simp only [reconLoop, hm, hsnp]
        rw [hrec]
        have hL : (([n] ++ ([] : List ℕ)) ++ [start]).reverse = [start, n] := by
          simp
        rw [hL]
        have hwalk : ListDWalk env adj [start, n] dn := by
          rw [← hm, heq, hdm0, show (0 : ℚ) + d = d + 0 by ring]
          exact ListDWalk.cons hadj hdist (ListDWalk.single n)
        exact ⟨hwalk, by simp, by simp⟩
      · -- the predecessor is a proper chain node: recurse
        have hmkeys : m ∈ (previous.map Prod.fst).dedup := by
          rcases hchain m dm hdm with h | ⟨m2, hm2⟩
          · exact absurd h hm
          · rw [List.mem_dedup]
            rcases List.lookup_eq_some_iff.mp hm2 with ⟨l1, l2, heqp, _⟩
            rw [heqp]
            refine List.mem_map.mpr ⟨(m, m2), ?_, rfl⟩
            exact List.mem_append_right _ (List.mem_cons_self _ _)
        have hmmem : m ∈ ((previous.map Prod.fst).dedup.filter (fun k =>
            match List.lookup k distances with
            | some dk => decide (dk < dn)
            | none => false)) := by
          refine List.mem_filter.mpr ⟨hmkeys, ?_⟩
          rw [hdm]
          simp only [decide_eq_true_eq]
          rw [heq]
          linarith
        have hcount : belowCount distances previous dm <
            belowCount distances previous dn := by
          unfold belowCount
          have hnd1 : ((previous.map Prod.fst).dedup.filter (fun k =>
              match List.lookup k distances with
              | some dk => decide (dk < dm)
              | none => false)).Nodup := (List.nodup_dedup _).filter _
          have hsub : ∀ x ∈ ((previous.map Prod.fst).dedup.filter (fun k =>
              match List.lookup k distances with
              | some dk => decide (dk < dm)
              | none => false)), x ∈ ((previous.map Prod.fst).dedup.filter (fun k =>
              match List.lookup k distances with
              | some dk => decide (dk < dn)
              | none => false)).erase m := by
            intro x hx
            rcases List.mem_filter.mp hx with ⟨hx1, hx2⟩
            have hxd : ∃ dx, List.lookup x distances = some dx ∧ dx < dm := by
              rcases hlx : List.lookup x distances with _ | dx
              · rw [hlx] at hx2; exact absurd hx2 (by simp)
              · rw [hlx] at hx2
                simp only [decide_eq_true_eq] at hx2
                exact ⟨dx, rfl, hx2⟩
            rcases hxd with ⟨dx, hlx, hxlt⟩
            have hxne : x ≠ m := by
              intro hc
              subst hc
              rw [hdm] at hlx
              have := Option.some.inj hlx
              subst this
              exact absurd hxlt (lt_irrefl _)
            refine (List.mem_erase_of_ne hxne).mpr ?_
            refine List.mem_filter.mpr ⟨hx1, ?_⟩
            rw [hlx]
            simp only [decide_eq_true_eq]
            have : dm < dn := by rw [heq]; linarith
            linarith
          have hlen := Solver3.nodup_subset_length hnd1 hsub
          have hlt := List.length_erase_of_mem hmmem
          have hpos2 := List.length_pos.mpr (List.ne_nil_of_mem hmmem)
          omega
        have hff : belowCount distances previous dm < f := by omega
        rcases ih m dm hdm hff with ⟨hw2, hh2, hl2⟩
        have hrev : (([n] ++ reconLoop f previous m []) ++ [start]).reverse =
            (reconLoop f previous m [] ++ [start]).reverse ++ [n] := by
          simp
        rw [hrev]
        refine ⟨?_, ?_, ?_⟩
        · rw [heq]
          exact ListDWalk_append_edge hw2 hl2 hadj hdist
        · rcases hrne : (reconLoop f previous m [] ++ [start]).reverse with _ | ⟨z, zs⟩
          · rw [hrne] at hh2; exact Option.noConfusion hh2
          · rw [hrne] at hh2
            simpa using hh2
        · exact List.getLast?_concat _


theorem lookup_cons_self {β : Type} (a : ℕ) (b : β) (l : List (ℕ × β)) :
    List.lookup a ((a, b) :: l) = some b := by
  simp [List.lookup]

theorem lookup_cons_ne {β : Type} {k a : ℕ} (b : β) (l : List (ℕ × β))
    (h : k ≠ a) : List.lookup k ((a, b) :: l) = List.lookup k l := by
  have hb : (k == a) = false := beq_eq_false_iff_ne.mpr h
  simp [List.lookup, hb]

theorem oracle_det {env : Env} {a b : ℕ} {d1 d2 : ℚ}
    (h1 : env.get_distance a b = Except.ok (some d1))
    (h2 : env.get_distance a b = Except.ok (some d2)) : d1 = d2 := by
  rw [h1] at h2
  simpa using h2

/-- What one full relaxation sweep guarantees, relative to the state it was
started from. -/
structure RelaxSpec (env : Env) (current : ℕ) (dc : ℚ) (ns : List ℕ)
    (distances : List (ℕ × ℚ)) (previous : List (ℕ × ℕ))
    (pq : List (ℚ × ℕ)) (visited : List ℕ)
    (res : List (ℕ × ℚ) × List (ℕ × ℕ) × List (ℚ × ℕ)) : Prop where
  dich : ∀ n : ℕ,
    (List.lookup n res.1 = List.lookup n distances ∧
     List.lookup n res.2.1 = List.lookup n previous) ∨
    (n ∈ ns ∧ n ∉ visited ∧ ∃ d, env.get_distance current n = Except.ok (some d) ∧
      0 < d ∧ List.lookup n res.1 = some (dc + d) ∧
      List.lookup n res.2.1 = some current ∧
      (∀ dn, List.lookup n distances = some dn → dc + d < dn) ∧
      (dc + d, n) ∈ res.2.2)
  pq_mono : ∀ e ∈ pq, e ∈ res.2.2
  pq_new : ∀ e ∈ res.2.2, e ∈ pq ∨ ∃ n d, e = (dc + d, n) ∧ n ∈ ns ∧
    n ∉ visited ∧ env.get_distance current n = Except.ok (some d) ∧ 0 < d ∧
    List.lookup n res.1 = some (dc + d)
  edge_done : ∀ n ∈ ns, n ∉ visited →
    ∀ d, env.get_distance current n = Except.ok (some d) → 0 < d →
    ∃ dn, List.lookup n res.1 = some dn ∧ dn ≤ dc + d

/-- Skipping the head neighbour preserves the sweep spec, provided the skip was
justified for that neighbour. -/
theorem RelaxSpec.skip {env : Env} {current : ℕ} {dc : ℚ} {n0 : ℕ}
    {rest : List ℕ} {distances : List (ℕ × ℚ)} {previous : List (ℕ × ℕ)}
    {pq : List (ℚ × ℕ)} {visited : List ℕ}
    {res : List (ℕ × ℚ) × List (ℕ × ℕ) × List (ℚ × ℕ)}
    (h : RelaxSpec env current dc rest distances previous pq visited res)
    (hn0 : n0 ∉ visited →
      ∀ d, env.get_distance current n0 = Except.ok (some d) → 0 < d →
      ∃ dn, List.lookup n0 res.1 = some dn ∧ dn ≤ dc + d) :
    RelaxSpec env current dc (n0 :: rest) distances previous pq visited res := by
  refine ⟨?_, h.pq_mono, ?_, ?_⟩
  · intro n
    rcases h.dich n with hl | ⟨h1, h2, h3⟩
    · exact Or.inl hl
    · exact Or.inr ⟨List.mem_cons_of_mem _ h1, h2, h3⟩
  · intro e he
    rcases h.pq_new e he with hl | ⟨n, d, h1, h2, h3⟩
    · exact Or.inl hl
    · exact Or.inr ⟨n, d, h1, List.mem_cons_of_mem _ h2, h3⟩
  · intro n hn hnv d hd hdp
    rcases List.mem_cons.mp hn with rfl | hn2
    · exact hn0 hnv d hd hdp
    · exact h.edge_done n hn2 hnv d hd hdp

/-- Updating the head neighbour (cons to distances/previous, push to the queue)
and then sweeping the rest yields the sweep spec for the whole list. -/
theorem RelaxSpec.update {env : Env} {current : ℕ} {dc : ℚ} {n0 : ℕ}
    {rest : List ℕ} {distances : List (ℕ × ℚ)} {previous : List (ℕ × ℕ)}
    {pq : List (ℚ × ℕ)} {visited : List ℕ} {d0 : ℚ}
    {res : List (ℕ × ℚ) × List (ℕ × ℕ) × List (ℚ × ℕ)}
    (hrest : RelaxSpec env current dc rest ((n0, dc + d0) :: distances)
      ((n0, current) :: previous) (pq ++ [(dc + d0, n0)]) visited res)
    (hv : n0 ∉ visited)
    (hor : env.get_distance current n0 = Except.ok (some d0))
    (hd0p : 0 < d0)
    (himp : ∀ dn, List.lookup n0 distances = some dn → dc + d0 < dn) :
    RelaxSpec env current dc (n0 :: rest) distances previous pq visited res := by
  have hlkf : List.lookup n0 res.1 = some (dc + d0) ∧
      List.lookup n0 res.2.1 = some current ∧ (dc + d0, n0) ∈ res.2.2 := by
    rcases hrest.dich n0 with ⟨ha, hb⟩ | ⟨_, _, d2, hd2, _, ha, hb, hc, hm⟩
    · refine ⟨?_, ?_, ?_⟩
      · rw [ha, lookup_cons_self]
      · rw [hb, lookup_cons_self]
      · exact hrest.pq_mono _ (List.mem_append_right _ (List.mem_singleton_self _))
    · have hdd : d2 = d0 := oracle_det hd2 hor
      subst hdd
      have := hc (dc + d2) (lookup_cons_self n0 (dc + d2) distances)
      exact absurd this (lt_irrefl _)
  refine ⟨?_, ?_, ?_, ?_⟩
  · intro n
    by_cases hn : n = n0
    · subst hn
      exact Or.inr ⟨List.mem_cons_self _ _, hv, d0, hor, hd0p,
        hlkf.1, hlkf.2.1, himp, hlkf.2.2⟩
    · rcases hrest.dich n with ⟨ha, hb⟩ | ⟨h1, h2, h3⟩
      · refine Or.inl ⟨?_, ?_⟩
        · rw [ha, lookup_cons_ne _ _ hn]
        · rw [hb, lookup_cons_ne _ _ hn]
      · rcases h3 with ⟨d2, hd2, hdp2, ha, hb, hc, hm⟩
        refine Or.inr ⟨List.mem_cons_of_mem _ h1, h2, d2, hd2,
          hdp2, ha, hb, ?_, hm⟩
        intro dn hdn
        exact hc dn (by rw [lookup_cons_ne _ _ hn]; exact hdn)
  · intro e he
    exact hrest.pq_mono e (List.mem_append_left _ he)
  · intro e he
    rcases hrest.pq_new e he with hl | ⟨n, d, h1, h2, h3⟩
    · rcases List.mem_append.mp hl with hx | hx
      · exact Or.inl hx
      · rw [List.mem_singleton.mp hx]
        exact Or.inr ⟨n0, d0, rfl, List.mem_cons_self _ _, hv, hor,
          hd0p, hlkf.1⟩
    · exact Or.inr ⟨n, d, h1, List.mem_cons_of_mem _ h2, h3⟩
  · intro n hn hnv d hd hdp
    rcases List.mem_cons.mp hn with rfl | hn2
    · have hdd : d = d0 := oracle_det hd hor
      subst hdd
      exact ⟨dc + d, hlkf.1, le_refl _⟩
    · exact hrest.edge_done n hn2 hnv d hd hdp

theorem relaxNeighbors_spec (env : Env) (current : ℕ) (dc : ℚ) :
    ∀ (ns : List ℕ) (distances : List (ℕ × ℚ)) (previous : List (ℕ × ℕ))
      (pq : List (ℚ × ℕ)) (visited : List ℕ),
      RelaxSpec env current dc ns distances previous pq visited
        (relaxNeighbors env current dc ns distances previous pq visited) := by
  intro ns
  induction ns with
  | nil =>
    intro distances previous pq visited
    refine ⟨?_, ?_, ?_, ?_⟩
    · intro n
      exact Or.inl ⟨rfl, rfl⟩
    · intro e he
      exact he
    · intro e he
      exact Or.inl he
    · intro n hn
      exact absurd hn (List.not_mem_nil n)
  | cons n0 rest ih =>
    intro distances previous pq visited
    show RelaxSpec env current dc (n0 :: rest) distances previous pq visited
      (if n0 ∈ visited then
        relaxNeighbors env current dc rest distances previous pq visited
      else match env.get_distance current n0 with
        | Except.error _ =>
          relaxNeighbors env current dc rest distances previous pq visited
        | Except.ok none =>
          relaxNeighbors env current dc rest distances previous pq visited
        | Except.ok (some d) =>
          if d ≤ 0 then
            relaxNeighbors env current dc rest distances previous pq visited
          else
            match List.lookup n0 distances with
            | some dn =>
              if dc + d < dn then
                relaxNeighbors env current dc rest
                  ((n0, dc + d) :: distances) ((n0, current) :: previous)
                  (pq ++ [(dc + d, n0)]) visited
              else
                relaxNeighbors env current dc rest distances previous pq visited
            | none =>
              relaxNeighbors env current dc rest
                ((n0, dc + d) :: distances) ((n0, current) :: previous)
                (pq ++ [(dc + d, n0)]) visited)
    by_cases hv : n0 ∈ visited
    · rw [if_pos hv]
      exact (ih distances previous pq visited).skip (fun hnv => absurd hv hnv)
    · rw [if_neg hv]
      split
      next err hor =>
        exact (ih distances previous pq visited).skip
          (fun _ d hd _ => by rw [hor] at hd; exact Except.noConfusion hd)
      next hor =>
        exact (ih distances previous pq visited).skip
          (fun _ d hd _ => by
            rw [hor] at hd
            injection hd with hd
            exact Option.noConfusion hd)
      next d0 hor =>
        split
        next hd0 =>
          refine (ih distances previous pq visited).skip ?_
          intro _ d hd hdp
          have hdd : d = d0 := oracle_det hd hor
          subst hdd
          exact absurd hdp (not_lt.mpr hd0)
        next hd0 =>
          have hd0p : 0 < d0 := lt_of_not_le hd0
          split
          next dn0 hlk =>
            split
            next himp =>
              exact (ih ((n0, dc + d0) :: distances) ((n0, current) :: previous)
                (pq ++ [(dc + d0, n0)]) visited).update hv hor hd0p
                (fun dn hdn => by
                  rw [hlk] at hdn
                  rw [← Option.some.inj hdn]
                  exact himp)
            next himp =>
              refine (ih distances previous pq visited).skip ?_
              intro _ d hd hdp
              have hdd : d = d0 := oracle_det hd hor
              subst hdd
              rcases (ih distances previous pq visited).dich n0 with
                ⟨ha, _⟩ | ⟨_, _, d2, hd2, _, ha, _, hc, _⟩
              · refine ⟨dn0, ?_, not_lt.mp himp⟩
                rw [ha, hlk]
              · have hdd2 : d2 = d := oracle_det hd2 hor
                subst hdd2
                exact ⟨dc + d2, ha, le_refl _⟩
          next hlk =>
            exact (ih ((n0, dc + d0) :: distances) ((n0, current) :: previous)
              (pq ++ [(dc + d0, n0)]) visited).update hv hor hd0p
              (fun dn hdn => by rw [hlk] at hdn; exact Option.noConfusion hdn)

/-- The Dijkstra loop invariant for `find_path_dijkstra` (run with
`max_distance = None`). -/
structure DijInv (env : Env) (adj : AdjList) (start : ℕ)
    (pq : List (ℚ × ℕ)) (visited : List ℕ) (distances : List (ℕ × ℚ))
    (previous : List (ℕ × ℕ)) : Prop where
  start0 : List.lookup start distances = some 0
  dwalk : ∀ n dn, List.lookup n distances = some dn → DWalk env adj start n dn
  inpq : ∀ n dn, List.lookup n distances = some dn → n ∉ visited →
    (dn, n) ∈ pq
  keys : ∀ e ∈ pq, ∃ dn, List.lookup e.2 distances = some dn ∧ dn ≤ e.1
  vis_min : ∀ v ∈ visited, ∃ dv, List.lookup v distances = some dv ∧
    ∀ c, DWalk env adj start v c → dv ≤ c
  relaxed : ∀ v ∈ visited, ∀ dv, List.lookup v distances = some dv →
    ∀ n ∈ adjGet adj v, ∀ d, env.get_distance v n = Except.ok (some d) →
      ∃ dn, List.lookup n distances = some dn ∧ dn ≤ dv + d
  prev : ∀ n m, List.lookup n previous = some m →
    (∃ dn dm d, List.lookup n distances = some dn ∧
      List.lookup m distances = some dm ∧ n ∈ adjGet adj m ∧
      env.get_distance m n = Except.ok (some d) ∧ dn = dm + d ∧ 0 < d) ∧
    m ∈ visited
  chain : ∀ n d, List.lookup n distances = some d →
    n = start ∨ ∃ m, List.lookup n previous = some m

theorem DijInv.init (env : Env) (adj : AdjList) (start : ℕ) :
    DijInv env adj start [(0, start)] [] [(start, 0)] [] := by
  have hlk : ∀ n dn, List.lookup n [(start, (0 : ℚ))] = some dn →
      n = start ∧ dn = 0 := by
    intro n dn h
    by_cases hn : n = start
    · subst hn
      rw [lookup_cons_self] at h
      exact ⟨rfl, (Option.some.inj h).symm⟩
    · rw [lookup_cons_ne _ _ hn] at h
      exact Option.noConfusion h
  refine ⟨lookup_cons_self _ _ _, ?_, ?_, ?_, ?_, ?_, ?_, ?_⟩
  · intro n dn h
    rcases hlk n dn h with ⟨h1, h2⟩
    subst h1; subst h2
    exact DWalk.refl n
  · intro n dn h _
    rcases hlk n dn h with ⟨h1, h2⟩
    subst h1; subst h2
    exact List.mem_singleton_self _
  · intro e he
    rw [List.mem_singleton.mp he]
    exact ⟨0, lookup_cons_self _ _ _, le_refl 0⟩
  · intro v hv
    exact absurd hv (List.not_mem_nil v)
  · intro v hv
    exact absurd hv (List.not_mem_nil v)
  · intro n m h
    exact Option.noConfusion h
  · intro n d h
    exact Or.inl (hlk n d h).1

/-- Popping a stale entry (one whose node is already visited) preserves the
invariant. -/
theorem DijInv.pop_skip {env : Env} {adj : AdjList} {start : ℕ}
    {pq pq2 : List (ℚ × ℕ)} {visited : List ℕ} {distances : List (ℕ × ℚ)}
    {previous : List (ℕ × ℕ)} {e : ℚ × ℕ}
    (inv : DijInv env adj start pq visited distances previous)
    (hpop : popMin pq = some (e, pq2)) (hv : e.2 ∈ visited) :
    DijInv env adj start pq2 visited distances previous := by
  rcases popMin_mem hpop with ⟨hmem, herase⟩
  refine ⟨inv.start0, inv.dwalk, ?_, ?_, inv.vis_min, inv.relaxed, inv.prev,
    inv.chain⟩
  · intro n dn h hnv
    have hne : (dn, n) ≠ e := by
      intro hc
      apply hnv
      have : n = e.2 := by rw [← hc]
      rw [this]
      exact hv
    rw [herase]
    exact (List.mem_erase_of_ne hne).mpr (inv.inpq n dn h hnv)
  · intro e2 he2
    rw [herase] at he2
    exact inv.keys e2 (List.erase_subset _ _ he2)

/-- Popping a fresh (unvisited) minimum entry, marking it visited and relaxing
its neighbours preserves the invariant. -/
theorem DijInv.relax_pop {env : Env} {adj : AdjList} {start : ℕ}
    {pq pq2 : List (ℚ × ℕ)} {visited : List ℕ} {distances : List (ℕ × ℚ)}
    {previous : List (ℕ × ℕ)} {e : ℚ × ℕ}
    (hpos : ∀ x y d, env.get_distance x y = Except.ok (some d) → 0 < d)
    (inv : DijInv env adj start pq visited distances previous)
    (hpop : popMin pq = some (e, pq2)) (hnv : e.2 ∉ visited) :
    DijInv env adj start
      (relaxNeighbors env e.2 e.1 (adjGet adj e.2) distances previous pq2
        (visited ++ [e.2])).2.2
      (visited ++ [e.2])
      (relaxNeighbors env e.2 e.1 (adjGet adj e.2) distances previous pq2
        (visited ++ [e.2])).1
      (relaxNeighbors env e.2 e.1 (adjGet adj e.2) distances previous pq2
        (visited ++ [e.2])).2.1 := by
  rcases popMin_mem hpop with ⟨hmem, herase⟩
  rcases inv.keys e hmem with ⟨dn2, hdn2, hle⟩
  have hent := inv.inpq e.2 dn2 hdn2 hnv
  have hge := popMin_min hpop (dn2, e.2) hent
  have hlab : List.lookup e.2 distances = some e.1 := by
    rw [hdn2]
    exact congrArg some (le_antisymm hle hge)
  have hR := relaxNeighbors_spec env e.2 e.1 (adjGet adj e.2) distances
    previous pq2 (visited ++ [e.2])
  set res := relaxNeighbors env e.2 e.1 (adjGet adj e.2) distances previous
    pq2 (visited ++ [e.2]) with hres
  have hfix : ∀ v ∈ visited ++ [e.2],
      List.lookup v res.1 = List.lookup v distances ∧
      List.lookup v res.2.1 = List.lookup v previous := by
    intro v hv
    rcases hR.dich v with h | ⟨_, habs, _⟩
    · exact h
    · exact absurd hv habs
  have hminE : ∀ c, DWalk env adj start e.2 c → e.1 ≤ c := by
    intro c hw
    rcases dij_exit env adj inv.start0 inv.vis_min inv.relaxed hpos e.2 c hw
      hnv with ⟨v, dv, hvnv, hdv, hdvc⟩
    have := popMin_min hpop (dv, v) (inv.inpq v dv hdv hvnv)
    exact le_trans this hdvc
  have hVM : ∀ v ∈ visited ++ [e.2], ∃ dv,
      List.lookup v res.1 = some dv ∧
      ∀ c, DWalk env adj start v c → dv ≤ c := by
    intro v hv
    rcases List.mem_append.mp hv with hvo | hvn
    · rcases inv.vis_min v hvo with ⟨dv, hdv, hmin⟩
      refine ⟨dv, ?_, hmin⟩
      rw [(hfix v hv).1, hdv]
    · rw [List.mem_singleton.mp hvn]
      refine ⟨e.1, ?_, hminE⟩
      rw [(hfix e.2 (List.mem_append_right _ (List.mem_singleton_self _))).1,
        hlab]
  refine ⟨?_, ?_, ?_, ?_, hVM, ?_, ?_, ?_⟩
  · -- start keeps label 0
    rcases hR.dich start with ⟨h1, _⟩ | ⟨_, _, d, hd, hdp, _, _, himp, _⟩
    · rw [h1]; exact inv.start0
    · have h0 := himp 0 inv.start0
      have he1nn : (0 : ℚ) ≤ e.1 :=
        DWalk_nonneg hpos (inv.dwalk e.2 e.1 hlab)
      linarith
  · -- every label is realized by a walk
    intro n dn hdn
    rcases hR.dich n with ⟨h1, _⟩ | ⟨hmem2, _, d, hd, hdp, hlk, _, _, _⟩
    · exact inv.dwalk n dn (h1 ▸ hdn)
    · rw [hdn] at hlk
      rw [Option.some.inj hlk]
      exact DWalk.step (inv.dwalk e.2 e.1 hlab) hmem2 hd
  · -- every unvisited labelled node has its current entry in the queue
    intro n dn hdn hnvis
    rcases hR.dich n with ⟨h1, _⟩ | ⟨_, _, d, hd, hdp, hlk, _, _, hq⟩
    · have hnvo : n ∉ visited := fun hc =>
        hnvis (List.mem_append_left _ hc)
      have hold := inv.inpq n dn (h1 ▸ hdn) hnvo
      have hne : (dn, n) ≠ e := by
        intro hc
        apply hnvis
        have : n = e.2 := by rw [← hc]
        rw [this]
        exact List.mem_append_right _ (List.mem_singleton_self _)
      refine hR.pq_mono _ ?_
      rw [herase]
      exact (List.mem_erase_of_ne hne).mpr hold
    · rw [hdn] at hlk
      rw [Option.some.inj hlk]
      exact hq
  · -- every queue entry over-approximates its node's label
    intro e2 he2
    rcases hR.pq_new e2 he2 with hold | ⟨n, d, hee, _, _, _, _, hlkf⟩
    · have hold2 : e2 ∈ pq := by
        rw [herase] at hold
        exact List.erase_subset _ _ hold
      rcases inv.keys e2 hold2 with ⟨dn, hdn, hle2⟩
      rcases hR.dich e2.2 with ⟨h1, _⟩ | ⟨_, _, d, hd, hdp, hlk, _, himp, _⟩
      · exact ⟨dn, h1 ▸ hdn, hle2⟩
      · refine ⟨e.1 + d, hlk, ?_⟩
        have := himp dn hdn
        linarith
    · rw [hee]
      exact ⟨e.1 + d, hlkf, le_refl _⟩
  · -- visited nodes have all their outgoing edges relaxed
    intro v hv dv hdvf n hn d hd
    rcases List.mem_append.mp hv with hvo | hvn
    · rcases inv.relaxed v hvo dv (((hfix v hv).1).symm.trans hdvf) n hn d hd
        with ⟨dn, hdn, hle2⟩
      rcases hR.dich n with ⟨h1, _⟩ | ⟨_, _, d2, hd2, hdp2, hlk2, _, himp2, _⟩
      · exact ⟨dn, h1 ▸ hdn, hle2⟩
      · refine ⟨e.1 + d2, hlk2, ?_⟩
        have := himp2 dn hdn
        linarith
    · have hve : v = e.2 := List.mem_singleton.mp hvn
      have hdve : dv = e.1 := by
        have h2 := ((hfix v hv).1).symm.trans hdvf
        rw [hve, hlab] at h2
        exact (Option.some.inj h2).symm
      by_cases hnvis : n ∈ visited ++ [e.2]
      · rcases hVM n hnvis with ⟨dn, hdn, hmin⟩
        refine ⟨dn, hdn, ?_⟩
        have hw : DWalk env adj start n (e.1 + d) :=
          DWalk.step (inv.dwalk e.2 e.1 hlab) (hve ▸ hn) (hve ▸ hd)
        rw [hdve]
        exact hmin _ hw
      · rw [hdve]
        exact hR.edge_done n (hve ▸ hn) hnvis d (hve ▸ hd) (hpos _ _ _ hd)
  · -- predecessor pointers stay exact
    intro n m hnm
    rcases hR.dich n with ⟨h1, h2⟩ | ⟨hmem2, _, d, hd, hdp, hlk, hpv, _, _⟩
    · rcases inv.prev n m (h2 ▸ hnm) with ⟨⟨dn, dm, d, ha, hb, hc, hdd, he, hf⟩, hmv⟩
      have hmv2 : m ∈ visited ++ [e.2] := List.mem_append_left _ hmv
      refine ⟨⟨dn, dm, d, ?_, ?_, hc, hdd, he, hf⟩, hmv2⟩
      · rw [h1]; exact ha
      · rw [(hfix m hmv2).1]; exact hb
    · have hme : m = e.2 := by
        rw [hnm] at hpv
        exact Option.some.inj hpv
      refine ⟨⟨e.1 + d, e.1, d, hlk, ?_, ?_, ?_, rfl, hdp⟩, ?_⟩
      · rw [hme,
          (hfix e.2 (List.mem_append_right _ (List.mem_singleton_self _))).1]
        exact hlab
      · rw [hme]; exact hmem2
      · rw [hme]; exact hd
      · rw [hme]
        exact List.mem_append_right _ (List.mem_singleton_self _)
  · -- every labelled node is the start or has a predecessor pointer
    intro n dn hdn
    rcases hR.dich n with ⟨h1, h2⟩ | ⟨_, _, d, hd, hdp, _, hpv, _, _⟩
    · rcases inv.chain n dn (h1 ▸ hdn) with h | ⟨m, hm⟩
      · exact Or.inl h
      · exact Or.inr ⟨m, h2 ▸ hm⟩
    · exact Or.inr ⟨e.2, hpv⟩

theorem dijkstraLoop_min (env : Env) (adj : AdjList) (start endNode : ℕ)
    (hpos : ∀ x y d, env.get_distance x y = Except.ok (some d) → 0 < d) :
    ∀ (fuel : ℕ) (pq : List (ℚ × ℕ)) (visited : List ℕ)
      (distances : List (ℕ × ℚ)) (previous : List (ℕ × ℕ)) (p : List ℕ),
      DijInv env adj start pq visited distances previous →
      dijkstraLoop env adj start endNode none fuel pq visited distances
        previous = some p →
      ∃ c, ListDWalk env adj p c ∧ p.head? = some start ∧
        p.getLast? = some endNode ∧
        ∀ c2, DWalk env adj start endNode c2 → c ≤ c2 := by
  intro fuel
  induction fuel with
  | zero =>
    intro pq visited distances previous p _ h
    exact Option.noConfusion h
  | succ f ih =>
    intro pq visited distances previous p inv h
    simp only [dijkstraLoop] at h
    split at h
    next => exact Option.noConfusion h
    next e pq2 hpop =>
      split at h
      next hend =>
        have hp : p = (reconLoop (previous.length + 1) previous endNode [] ++
            [start]).reverse := (Option.some.inj h).symm
        rcases popMin_mem hpop with ⟨hmem, _⟩
        have hlabE : ∃ dE, List.lookup endNode distances = some dE ∧
            ∀ c2, DWalk env adj start endNode c2 → dE ≤ c2 := by
          by_cases hev : endNode ∈ visited
          · exact inv.vis_min endNode hev
          · rcases inv.keys e hmem with ⟨dE, hdE, hle⟩
            rw [hend] at hdE
            refine ⟨dE, hdE, ?_⟩
            intro c2 hw
            rcases dij_exit env adj inv.start0 inv.vis_min inv.relaxed hpos
              endNode c2 hw hev with ⟨v, dv, hvnv, hdv, hdvc⟩
            have := popMin_min hpop (dv, v) (inv.inpq v dv hdv hvnv)
            linarith
        rcases hlabE with ⟨dE, hdE, hminE⟩
        have hsnp : List.lookup start previous = none := by
          rcases hlp : List.lookup start previous with _ | m
          · exact rfl
          · rcases inv.prev start m hlp with
              ⟨⟨dn, dm, d, ha, hb, _, _, he, hf⟩, _⟩
            have hdn0 : dn = 0 := by
              rw [inv.start0] at ha
              exact (Option.some.inj ha).symm
            have hdm0 : (0 : ℚ) ≤ dm := DWalk_nonneg hpos (inv.dwalk m dm hb)
            rw [hdn0] at he
            exact absurd hlp (by intro _; linarith)
        have hfuel : belowCount distances previous dE <
            previous.length + 1 := by
          have h1 : belowCount distances previous dE ≤
              (previous.map Prod.fst).dedup.length := by
            unfold belowCount
            exact List.length_filter_le _ _
          have h2 : (previous.map Prod.fst).dedup.length ≤
              (previous.map Prod.fst).length :=
            (List.dedup_sublist _).length_le
          have h3 : (previous.map Prod.fst).length = previous.length := by
            simp
          omega
        have hprev2 : ∀ n m, List.lookup n previous = some m →
            ∃ dn dm d, List.lookup n distances = some dn ∧
              List.lookup m distances = some dm ∧ n ∈ adjGet adj m ∧
              env.get_distance m n = Except.ok (some d) ∧ dn = dm + d ∧
              0 < d :=
          fun n m hh => (inv.prev n m hh).1
        rcases reconLoop_spec env adj start distances previous hprev2
          inv.chain inv.start0 hsnp (previous.length + 1) endNode dE hdE
          hfuel with ⟨hw, hh, hl⟩
        rw [hp]
        exact ⟨dE, hw, hh, hl, hminE⟩
      next hend =>
        split at h
        next hvis =>
          exact ih pq2 visited distances previous p
            (inv.pop_skip hpop hvis) h
        next hvis =>
          split at h
          next hmax =>
            exact Bool.noConfusion hmax
          next hmax =>
            exact ih _ _ _ _ p (inv.relax_pop hpos hpop hvis) h

theorem find_path_dijkstra_min (env : Env) (adj : AdjList) (s t : ℕ)
    (fuel : ℕ) (p : List ℕ)
    (hpos : ∀ x y d, env.get_distance x y = Except.ok (some d) → 0 < d)
    (h : find_path_dijkstra env s t adj none fuel = some p) :
    ∃ c, ListDWalk env adj p c ∧ p.head? = some s ∧ p.getLast? = some t ∧
      ∀ c2, DWalk env adj s t c2 → c ≤ c2 := by
  unfold find_path_dijkstra at h
  by_cases hst : s = t
  · rw [if_pos hst] at h
    have hp : p = [s] := (Option.some.inj h).symm
    refine ⟨0, ?_, ?_, ?_, ?_⟩
    · rw [hp]; exact ListDWalk.single s
    · rw [hp]; simp
    · rw [hp, hst]; simp
    · intro c2 hw
      exact DWalk_nonneg hpos hw
  · rw [if_neg hst] at h
    exact dijkstraLoop_min env adj s t hpos fuel _ _ _ _ p
      (DijInv.init env adj s) h

/-- C6: with a non-binding exploration cap (`max_length` at least two more than
the adjacency pool size), a path returned by `find_shortest_path` of
`VibeCoders_solver_3.py` is a start-to-end walk of the adjacency list with the
minimum number of edges among all such walks, and the single-node path is
returned when start = end; and for an environment whose distance oracle
returns only positive defined distances, a path returned by
`find_path_dijkstra` of `VibeCoders_solver_6.py` (run with
`max_distance = None`) is a start-to-end walk of minimum cumulative oracle
distance among all such walks, with the single-node path when start = end. -/
theorem C6_shortest_path_minimality
    (adj : AdjList) (start endNode maxLength : ℕ) (p : List ℕ)
    (env : Env) (adjD : AdjList) (s t fuel : ℕ) (q : List ℕ)
    (hml : (Solver3.adjPool adj).length + 2 ≤ maxLength)
    (hbfs : Solver3.find_shortest_path start endNode adj maxLength = some p)
    (hpos : ∀ x y d, env.get_distance x y = Except.ok (some d) → 0 < d)
    (hdij : find_path_dijkstra env s t adjD none fuel = some q) :
    (WalkSE adj start endNode p ∧
      ∀ w, WalkSE adj start endNode w → p.length ≤ w.length) ∧
    (∀ a m, Solver3.find_shortest_path a a adj m = some [a]) ∧
    (∃ c, ListDWalk env adjD q c ∧ q.head? = some s ∧
      q.getLast? = some t ∧ ∀ c2, DWalk env adjD s t c2 → c ≤ c2) ∧
    (∀ u f2, find_path_dijkstra env u u adjD none f2 = some [u]) := by
  refine ⟨Solver3.find_shortest_path3_min hml hbfs,
    fun a m => Solver3.find_shortest_path3_self a adj m,
    find_path_dijkstra_min env adjD s t fuel q hpos hdij,
    fun u f2 => ?_⟩
  unfold find_path_dijkstra
  rw [if_pos rfl]

/-- On the triangle graph with unit distances, Dijkstra run from node 0 to
node 1 returns the direct edge. -/
theorem envC8_dij01 : find_path_dijkstra Solver3.envC8 0 1
    Solver3.envC8.adjacency_list none 5 = some [0, 1] := by
  have h1 : find_path_dijkstra Solver3.envC8 0 1
      Solver3.envC8.adjacency_list none 5 =
      dijkstraLoop Solver3.envC8 Solver3.envC8.adjacency_list 0 1 none 5
        [(0, 0)] [] [(0, 0)] [] := by
    unfold find_path_dijkstra
    rw [if_neg (by decide)]
  rw [h1]
  rw [show dijkstraLoop Solver3.envC8 Solver3.envC8.adjacency_list 0 1 none 5
      [(0, 0)] [] [(0, 0)] [] =
      dijkstraLoop Solver3.envC8 Solver3.envC8.adjacency_list 0 1 none 4
        [((0 : ℚ) + 1, 1), ((0 : ℚ) + 1, 2)] [0]
        [(2, (0 : ℚ) + 1), (1, (0 : ℚ) + 1), (0, (0 : ℚ))]
        [(2, 0), (1, 0)] from rfl]
  rw [show ((0 : ℚ) + 1) = 1 from by norm_num]
  rfl

/-- Concrete instantiation of the C6 theorem on the triangle road graph with
unit oracle distances. -/
theorem C6_witness :
    (WalkSE Solver3.envC8.adjacency_list 0 1 [0, 1] ∧
      ∀ w, WalkSE Solver3.envC8.adjacency_list 0 1 w →
        ([0, 1] : List ℕ).length ≤ w.length) ∧
    (∀ a m, Solver3.find_shortest_path a a Solver3.envC8.adjacency_list m =
      some [a]) ∧
    (∃ c, ListDWalk Solver3.envC8 Solver3.envC8.adjacency_list [0, 1] c ∧
      ([0, 1] : List ℕ).head? = some 0 ∧
      ([0, 1] : List ℕ).getLast? = some 1 ∧
      ∀ c2, DWalk Solver3.envC8 Solver3.envC8.adjacency_list 0 1 c2 →
        c ≤ c2) ∧
    (∀ u f2, find_path_dijkstra Solver3.envC8 u u
      Solver3.envC8.adjacency_list none f2 = some [u]) :=
  C6_shortest_path_minimality Solver3.envC8.adjacency_list 0 1 500 [0, 1]
    Solver3.envC8 Solver3.envC8.adjacency_list 0 1 5 [0, 1]
    (by decide) Solver3.envC8_bfs01
    (by
      intro x y d h
      have h2 : Except.ok (some (1 : ℚ)) = Except.ok (some d) := h
      have h3 : (1 : ℚ) = d := by simpa using h2
      rw [← h3]
      norm_num)
    envC8_dij01

end Solver6
